import Mathlib

/-!
# gocache: the retrieval coordination layer

A shallow embedding of `gocache.go`, `peers.go` and `singleflight/singleflight.go`.

* Go's mutable receivers (`g *Group`) become explicit state passing: every
  operation takes the group and returns the group it leaves behind.
* Calls to the collaborators (store, loader, coalescer, peer picker, peer
  fetcher) are recorded, in order, in a `Trace`, so that "is invoked exactly
  once" or "is never invoked" are statements about the trace.
* A Go call can return, panic, or wait forever on a `sync.WaitGroup`; the three
  are the constructors of `Outcome`.
* `log.Printf` / `log.Println` calls have no effect on the data and are left out.
-/

namespace GoCache

/-! ## Values -/

/-- A non-nil Go `error` value, observed through its message (`Error()`). The
code never compares errors and never rebuilds one it was given, so the message
is all that the embedded functions depend on; which call built an error is
stated through the trace of calls, not through the error. -/
structure GoError where
  msg : String
deriving DecidableEq

/-- Go's `error` interface: `none` is the `nil` error. -/
abbrev error := Option GoError

/-- A Go `[]byte`, by value. -/
abbrev Bytes := List UInt8

/-- The immutable value `ByteView` with its one field `b` (gocache.go builds
it as `ByteView{b: ...}`; the zero value `ByteView{}` has no bytes). -/
structure ByteView where
  b : Bytes
deriving DecidableEq

/-- Modelled from the spec: `cloneBytes`, whose source file is not among the
sources, returns a copy of its input bytes ("Construction always copies its
input bytes"); on byte sequences taken by value a copy has the same bytes. -/
def cloneBytes (b : Bytes) : Bytes := b

/-- How a Go call ends: it returns a result, it panics, or it never returns
because it waits on a `WaitGroup` that is never released. -/
inductive Outcome (α : Type) where
  | ret (a : α)
  | panics (msg : String)
  | blocks
deriving DecidableEq

/-! ## singleflight -/

namespace singleflight

/-- The record `call` of singleflight.go: `wg` is the counter of the
`sync.WaitGroup` (`Wait` returns at once exactly when it is 0), `val` the
`interface{}` result (`none` is the nil interface), `err` the error. -/
structure call (α : Type) where
  wg : Nat
  val : Option α
  err : error

/-- The coalescer `Group` of singleflight.go: its field `m`, a Go map that is
`nil` (`none`) in the zero value. The mutex only delimits the atomic sections
and carries no data. -/
structure Group (α : Type) where
  m : Option (String → Option (call α))

/-- Reading `g.m[key]`: a nil map reads as having no entry. -/
def Group.pending {α : Type} (g : Group α) (key : String) : Option (call α) :=
  match g.m with
  | none => none
  | some m => m key

/-- Go's `g.m[key] = c`. -/
def mapInsert {α : Type} (m : String → Option (call α)) (key : String) (c : call α) :
    String → Option (call α) :=
  fun k => if k = key then some c else m k

/-- Go's `delete(g.m, key)`. -/
def mapDelete {α : Type} (m : String → Option (call α)) (key : String) :
    String → Option (call α) :=
  fun k => if k = key then none else m k

/-- The method `Group.Do` (singleflight.go 19-43) run to its end by one caller, the body
`fn` acting on the caller's state `S`.

* lines 21-23: a nil map is replaced by an empty one;
* lines 24-28: a record for `key` exists: wait on its `wg` (returns only when
  the counter is 0), then return the record's `val`, `err`; `fn` is not run;
* lines 30-33: otherwise a new record with `wg.Add(1)` is stored;
* line 35: `fn` runs; if it panics or never returns, lines 36-42 are not
  reached and the record stays in the map;
* lines 36-42: `wg.Done()`, the record is deleted, `fn`'s pair is returned. -/
def Group.Do {α S : Type} (g : Group α) (key : String)
    (fn : S → Outcome (Option α × error) × S) (s : S) :
    Outcome (Option α × error) × Group α × S :=
  let m : String → Option (call α) :=
    match g.m with
    | none => fun _ => none
    | some m => m
  match m key with
  | some c =>
    if c.wg = 0 then (Outcome.ret (c.val, c.err), { m := some m }, s)
    else (Outcome.blocks, { m := some m }, s)
  | none =>
    let m1 := mapInsert m key { wg := 1, val := none, err := none }
    match fn s with
    | (Outcome.ret r, s1) => (Outcome.ret r, { m := some (mapDelete m1 key) }, s1)
    | (Outcome.panics msg, s1) => (Outcome.panics msg, { m := some m1 }, s1)
    | (Outcome.blocks, s1) => (Outcome.blocks, { m := some m1 }, s1)

/-- A body that always returns, as an argument of `Do`. -/
def returning {α S : Type} (f : S → (Option α × error) × S) :
    S → Outcome (Option α × error) × S :=
  fun s => (Outcome.ret (f s).1, (f s).2)

/-- A sequence of `Do` calls that do not overlap: each call starts after the
previous one has returned. The run stops at the first call that does not
return. Results are collected in call order. -/
def doSeq {α S : Type} :
    List (String × (S → Outcome (Option α × error) × S)) → Group α → S →
    List (Outcome (Option α × error)) × Group α × S
  | [], g, s => ([], g, s)
  | (key, fn) :: rest, g, s =>
    match g.Do key fn s with
    | (Outcome.ret r, g1, s1) =>
      let out := doSeq rest g1 s1
      (Outcome.ret r :: out.1, out.2.1, out.2.2)
    | (o, g1, s1) => ([o], g1, s1)

end singleflight

/-! ## The group -/

/-- One call to a collaborator, as recorded in the trace. -/
inductive Event where
  | cacheGet (key : String)
  | cacheAdd (key : String) (value : ByteView)
  | getterGet (key : String)
  | flightDo (key : String)
  | pickPeer (key : String)
  | peerGet (group : String) (key : String)
deriving DecidableEq

/-- The calls made so far, oldest first. -/
abbrev Trace := List Event

/-- Number of loader (`Getter.Get`) invocations in a trace. -/
def loaderCalls (tr : Trace) : Nat :=
  (tr.filter fun e => match e with | Event.getterGet _ => true | _ => false).length

/-- The store adds of a trace, in order. -/
def storeAdds : Trace → List (String × ByteView)
  | [] => []
  | Event.cacheAdd k v :: tr => (k, v) :: storeAdds tr
  | _ :: tr => storeAdds tr

/-- Number of coalescer (`Do`) invocations in a trace. -/
def flightCalls (tr : Trace) : Nat :=
  (tr.filter fun e => match e with | Event.flightDo _ => true | _ => false).length

/-- Number of `PickPeer` invocations in a trace. -/
def pickCalls (tr : Trace) : Nat :=
  (tr.filter fun e => match e with | Event.pickPeer _ => true | _ => false).length

/-- Number of peer fetches (`PeerGetter.Get`) in a trace. -/
def peerCalls (tr : Trace) : Nat :=
  (tr.filter fun e => match e with | Event.peerGet _ _ => true | _ => false).length

/-- Modelled from the spec: the local store, type `cache` of the field
`mainCache`, whose source file is not among the sources. Its contract is
`get(key) → (ImmutableValue, found)` and `add(key, value)`, which "may evict
other entries"; `σ` is the store's state and nothing is assumed about how `add`
and `get` relate. -/
class LocalStore (σ : Type) where
  get : σ → String → Option ByteView
  add : σ → String → ByteView → σ

/-- The interface `Getter` (gocache.go 11-13): the user's loader. -/
structure Getter where
  Get : String → Bytes × error

/-- The interface `PeerGetter` (peers.go 9-11). -/
structure PeerGetter where
  Get : String → String → Bytes × error

/-- The interface `PeerPicker` (peers.go 4-6); the returned peer is an
interface value and may be nil (`none`) whatever `ok` says. -/
structure PeerPicker where
  PickPeer : String → Option PeerGetter × Bool

/-- The struct `Group` (gocache.go 22-30); `peers` is nil (`none`) until
`RegisterPeers` sets it. -/
structure Group (σ : Type) where
  name : String
  getter : Getter
  mainCache : σ
  peers : Option PeerPicker
  loader : singleflight.Group ByteView

variable {σ : Type} [LocalStore σ]

/-- The method `populateCache` (gocache.go 86-88). -/
def Group.populateCache (g : Group σ) (key : String) (value : ByteView) (tr : Trace) :
    Group σ × Trace :=
  ({ g with mainCache := LocalStore.add g.mainCache key value },
    tr ++ [Event.cacheAdd key value])

/-- The method `getLocally` (gocache.go 76-84). -/
def Group.getLocally (g : Group σ) (key : String) (tr : Trace) :
    (ByteView × error) × Group σ × Trace :=
  match g.getter.Get key with
  | (_, some err) => ((ByteView.mk [], some err), g, tr ++ [Event.getterGet key])
  | (bytes, none) =>
    let value := ByteView.mk (cloneBytes bytes)
    let p := g.populateCache key value (tr ++ [Event.getterGet key])
    ((value, none), p.1, p.2)

/-- The method `getFromPeer` (gocache.go 115-121); calling `Get` on a nil peer
is a nil dereference. The peer's bytes are not copied. -/
def Group.getFromPeer (g : Group σ) (peer : Option PeerGetter) (key : String) (tr : Trace) :
    Outcome (ByteView × error) × Trace :=
  match peer with
  | none => (Outcome.panics "invalid memory address or nil pointer dereference", tr)
  | some p =>
    match p.Get g.name key with
    | (_, some err) => (Outcome.ret (ByteView.mk [], some err), tr ++ [Event.peerGet g.name key])
    | (bytes, none) => (Outcome.ret (ByteView.mk bytes, none), tr ++ [Event.peerGet g.name key])

/-- The earlier definition of `load`, kept as a comment in the source
(gocache.go 72-74): `return g.getLocally(key)`. -/
def Group.loadV1 (g : Group σ) (key : String) (tr : Trace) :
    Outcome (ByteView × error) × Group σ × Trace :=
  let r := g.getLocally key tr
  (Outcome.ret r.1, r.2.1, r.2.2)

/-- What the function literal inside `load` reads and writes: the named
results `value` and `err` of `load`, which it captures, the group and the
trace. -/
structure loadFrame (σ : Type) where
  value : ByteView
  err : error
  g : Group σ
  trace : Trace

/-- The last statement of the function literal in `load`, `return
g.getLocally(key)` (gocache.go 107): the `ByteView` is boxed into the
`interface{}` result also when the error is non-nil. -/
def Group.loadLocal (key : String) (f : loadFrame σ) :
    Outcome (Option ByteView × error) × loadFrame σ :=
  let r := f.g.getLocally key f.trace
  (Outcome.ret (some r.1.1, r.1.2), { f with g := r.2.1, trace := r.2.2 })

/-- The function literal passed to `Do` in `load` (gocache.go 98-108). The
assignment `value, err = g.getFromPeer(peer, key)` writes the named results of
`load`. -/
def Group.loadBody (key : String) (f : loadFrame σ) :
    Outcome (Option ByteView × error) × loadFrame σ :=
  match f.g.peers with
  | some peers =>
    match peers.PickPeer key with
    | (peer, true) =>
      match f.g.getFromPeer peer key (f.trace ++ [Event.pickPeer key]) with
      | (Outcome.ret (v, none), tr) =>
        (Outcome.ret (some v, none), { f with value := v, err := none, trace := tr })
      | (Outcome.ret (v, some e), tr) =>
        Group.loadLocal key { f with value := v, err := some e, trace := tr }
      | (Outcome.panics msg, tr) => (Outcome.panics msg, { f with trace := tr })
      | (Outcome.blocks, tr) => (Outcome.blocks, { f with trace := tr })
    | (_, false) => Group.loadLocal key { f with trace := f.trace ++ [Event.pickPeer key] }
  | none => Group.loadLocal key f

/-- The method `load` (gocache.go 97-113). `viewi, err := g.loader.Do(...)`
assigns the named result `err`; with a nil `err` the result is
`viewi.(ByteView)`, which panics on a nil interface; otherwise the bare
`return` yields the named results `value`, `err`. The function literal does not
touch `g.loader`, so the coalescer that `Do` leaves is put into the group that
the body left. -/
def Group.load (g : Group σ) (key : String) (tr : Trace) :
    Outcome (ByteView × error) × Group σ × Trace :=
  let f0 : loadFrame σ :=
    { value := ByteView.mk [], err := none, g := g, trace := tr ++ [Event.flightDo key] }
  match g.loader.Do key (Group.loadBody key) f0 with
  | (Outcome.ret (viewi, none), sf, f) =>
    match viewi with
    | some v => (Outcome.ret (v, none), { f.g with loader := sf }, f.trace)
    | none =>
      (Outcome.panics "interface conversion: interface is nil, not ByteView",
        { f.g with loader := sf }, f.trace)
  | (Outcome.ret (_, some e), sf, f) =>
    (Outcome.ret (f.value, some e), { f.g with loader := sf }, f.trace)
  | (Outcome.panics msg, sf, f) => (Outcome.panics msg, { f.g with loader := sf }, f.trace)
  | (Outcome.blocks, sf, f) => (Outcome.blocks, { f.g with loader := sf }, f.trace)

/-- The method `Get` (gocache.go 61-70). -/
def Group.Get (g : Group σ) (key : String) (tr : Trace) :
    Outcome (ByteView × error) × Group σ × Trace :=
  if key = "" then (Outcome.ret (ByteView.mk [], some (GoError.mk "key is required")), g, tr)
  else
    match LocalStore.get g.mainCache key with
    | some v => (Outcome.ret (v, none), g, tr ++ [Event.cacheGet key])
    | none => g.load key (tr ++ [Event.cacheGet key])

/-! ## Auxiliary definitions for the statements -/

/-- The frame in which `load` starts the function literal. -/
def loadStart (g : Group σ) (key : String) (tr : Trace) : loadFrame σ :=
  { value := ByteView.mk [], err := none, g := g, trace := tr ++ [Event.flightDo key] }

/-- What `load` makes of the pair `Do` hands back, given the frame the body left. -/
def loadResult (r : Option ByteView × error) (f : loadFrame σ) : Outcome (ByteView × error) :=
  match r with
  | (some v, none) => Outcome.ret (v, none)
  | (none, none) => Outcome.panics "interface conversion: interface is nil, not ByteView"
  | (_, some e) => Outcome.ret (f.value, some e)

/-- What `load` makes of the way `Do` ends. -/
def loadOutcome (o : Outcome (Option ByteView × error)) (f : loadFrame σ) :
    Outcome (ByteView × error) :=
  match o with
  | Outcome.ret r => loadResult r f
  | Outcome.panics msg => Outcome.panics msg
  | Outcome.blocks => Outcome.blocks

/-- A body of `Do` that also counts its executions. -/
def counted {α S : Type} (fn : S → Outcome (Option α × error) × S) :
    S × Nat → Outcome (Option α × error) × (S × Nat) :=
  fun s => ((fn s.1).1, ((fn s.1).2, s.2 + 1))

/-- Bodies that always return, run one after the other without any coalescer:
the results in order and the final state. -/
def runBodies {α S : Type} :
    List (String × (S → (Option α × error) × S)) → S → List (Outcome (Option α × error)) × S
  | [], s => ([], s)
  | (_, f) :: rest, s =>
    let out := runBodies rest (f s).2
    (Outcome.ret (f s).1 :: out.1, out.2)

/-- The same bodies as arguments of `Do`. -/
def asDoCalls {α S : Type} (calls : List (String × (S → (Option α × error) × S))) :
    List (String × (S → Outcome (Option α × error) × S)) :=
  calls.map fun c => (c.1, singleflight.returning c.2)

/-! ## Concurrent callers of `Get`

Callers of `Get` on one shared group, interleaved by a schedule. A caller
advances in two steps: the key check and the store lookup (gocache.go 62-68),
then `load` (gocache.go 69) run to its end. Every schedule of these steps is an
execution of the Go program in which no other caller runs during a step. -/

/-- Where a caller of `Get` stands: before the call, after a store miss and
before `load`, or finished. -/
inductive Caller where
  | start (key : String)
  | missed (key : String)
  | done (o : Outcome (ByteView × error))
deriving DecidableEq

/-- One step of a caller on the shared group. -/
def Caller.step (c : Caller) (g : Group σ) (tr : Trace) : Caller × Group σ × Trace :=
  match c with
  | Caller.start key =>
    if key = "" then
      (Caller.done (Outcome.ret (ByteView.mk [], some (GoError.mk "key is required"))), g, tr)
    else
      match LocalStore.get g.mainCache key with
      | some v => (Caller.done (Outcome.ret (v, none)), g, tr ++ [Event.cacheGet key])
      | none => (Caller.missed key, g, tr ++ [Event.cacheGet key])
  | Caller.missed key =>
    let r := g.load key tr
    (Caller.done r.1, r.2.1, r.2.2)
  | Caller.done o => (Caller.done o, g, tr)

/-- The shared group, the trace and the callers. -/
structure System (σ : Type) where
  g : Group σ
  trace : Trace
  callers : List Caller

/-- Caller number `i` takes its next step. -/
def System.step (s : System σ) (i : Nat) : System σ :=
  match s.callers.get? i with
  | none => s
  | some c =>
    let r := c.step s.g s.trace
    { g := r.2.1, trace := r.2.2, callers := s.callers.set i r.1 }

/-- The system after a schedule, a list of caller numbers. -/
def System.run (s : System σ) (sched : List Nat) : System σ :=
  sched.foldl System.step s

/-- The system of `n` callers of `Get(key)` on the group `g`, none of which has begun. -/
def System.init (g : Group σ) (key : String) (n : Nat) : System σ :=
  { g := g, trace := [], callers := List.replicate n (Caller.start key) }

/-! ## Construction, registration and the registry -/

/-- Modelled from the spec: the construction of the local store, the composite
literal `cache{cacheBytes: cacheBytes}` in `NewGroup`; the type `cache` is not
among the sources. The spec has `NewGroup` construct "the LocalStore with
`capacityBound`": the new store records the bound and holds no entry. -/
class FreshStore (σ : Type) extends LocalStore σ where
  fresh : Int → σ
  cacheBytes : σ → Int
  cacheBytes_fresh : ∀ c, cacheBytes (fresh c) = c
  get_fresh : ∀ c k, LocalStore.get (fresh c) k = none

/-- The method `RegisterPeers` (gocache.go 90-95); the argument is an interface
value and may be nil (`none`). -/
def Group.RegisterPeers (g : Group σ) (peers : Option PeerPicker) : Outcome Unit × Group σ :=
  match g.peers with
  | some _ => (Outcome.panics "RegisterPeerPicker called more than once", g)
  | none => (Outcome.ret (), { g with peers := peers })

/-- The package state of gocache.go 32-35: the `Group` objects allocated so far,
in allocation order (a `*Group` is the position of its object in `objs`), and
the map `groups` from names to `*Group`. The mutex `mu` only delimits
`NewGroup` and `GetGroup` and carries no data. -/
structure Registry (σ : Type) where
  objs : List (Group σ)
  groups : String → Option Nat

/-- The package state at start: `groups = make(map[string]*Group)`. -/
def Registry.init : Registry σ :=
  { objs := [], groups := fun _ => none }

/-- The function `NewGroup` (gocache.go 37-52); the getter is an interface value
and may be nil (`none`). Returns the new `*Group`. -/
def NewGroup {σ : Type} [FreshStore σ] (w : Registry σ) (name : String) (cacheBytes : Int)
    (getter : Option Getter) : Outcome Nat × Registry σ :=
  match getter with
  | none => (Outcome.panics "nil Getter method", w)
  | some gt =>
    let g : Group σ :=
      { name := name, getter := gt, mainCache := FreshStore.fresh cacheBytes,
        peers := none, loader := { m := none } }
    (Outcome.ret w.objs.length,
      { objs := w.objs ++ [g],
        groups := fun n => if n = name then some w.objs.length else w.groups n })

/-- The function `GetGroup` (gocache.go 54-59): the `*Group` under the name, nil
(`none`) if there is none. -/
def GetGroup {σ : Type} (w : Registry σ) (name : String) : Option Nat × Registry σ :=
  (w.groups name, w)

/-- A sequence of `NewGroup` calls with non-nil getters, each given as name,
capacity and getter: the pointers returned, in call order, and the package
state left. -/
def newGroups {σ : Type} [FreshStore σ] :
    List (String × Int × Getter) → Registry σ → List Nat × Registry σ
  | [], w => ([], w)
  | (name, c, gt) :: rest, w =>
    match NewGroup w name c (some gt) with
    | (Outcome.ret p, w1) =>
      let out := newGroups rest w1
      (p :: out.1, out.2)
    | (_, w1) => ([], w1)

/-- The pointer returned by the most recent call, among `calls` with returned
pointers `ptrs`, whose name is `n`: the later calls are looked at first. -/
def lastNamed : List (String × Int × Getter) → List Nat → String → Option Nat
  | c :: cs, p :: ps, n =>
    match lastNamed cs ps n with
    | some q => some q
    | none => if c.1 = n then some p else none
  | _, _, _ => none

/-- A method call through a `*Group` that reads the group: a pointer without
object is a nil dereference. -/
def Registry.onGroup {σ α : Type} (w : Registry σ) (p : Nat) (tr : Trace)
    (f : Group σ → Outcome α × Group σ × Trace) : Outcome α × Registry σ × Trace :=
  match w.objs[p]? with
  | none => (Outcome.panics "invalid memory address or nil pointer dereference", w, tr)
  | some g =>
    let r := f g
    (r.1, { w with objs := w.objs.set p r.2.1 }, r.2.2)

/-- The call `p.Get(key)` through the pointer `p`. The method `Get` tests the
key before it reads the group (gocache.go 62-64), so with the empty key it
returns the rejection also through a pointer without object. -/
def Registry.Get {σ : Type} [LocalStore σ] (w : Registry σ) (p : Nat) (key : String)
    (tr : Trace) : Outcome (ByteView × error) × Registry σ × Trace :=
  if key = "" then
    (Outcome.ret (ByteView.mk [], some (GoError.mk "key is required")), w, tr)
  else w.onGroup p tr fun g => g.Get key tr

/-- The result of a call, forgotten. -/
def Outcome.void {α : Type} : Outcome α → Outcome Unit
  | Outcome.ret _ => Outcome.ret ()
  | Outcome.panics msg => Outcome.panics msg
  | Outcome.blocks => Outcome.blocks

/-- The operations of the package on its state. -/
inductive Op where
  | newGroup (name : String) (cacheBytes : Int) (getter : Option Getter)
  | getGroup (name : String)
  | get (p : Nat) (key : String)
  | load (p : Nat) (key : String)
  | getLocally (p : Nat) (key : String)
  | registerPeers (p : Nat) (peers : Option PeerPicker)

/-- One operation on the package state, run from its call to its return with
no other operation in between; only the way it ends is kept of its result. -/
def Op.run {σ : Type} [FreshStore σ] (op : Op) (w : Registry σ) (tr : Trace) :
    Outcome Unit × Registry σ × Trace :=
  match op with
  | Op.newGroup name c getter => ((NewGroup w name c getter).1.void, (NewGroup w name c getter).2, tr)
  | Op.getGroup name => (Outcome.ret (), (GetGroup w name).2, tr)
  | Op.get p key => ((w.Get p key tr).1.void, (w.Get p key tr).2)
  | Op.load p key => w.onGroup p tr fun g => ((g.load key tr).1.void, (g.load key tr).2)
  | Op.getLocally p key =>
    w.onGroup p tr fun g => (Outcome.ret (), (g.getLocally key tr).2)
  | Op.registerPeers p peers =>
    w.onGroup p tr fun g => ((g.RegisterPeers peers).1, (g.RegisterPeers peers).2, tr)

/-- Operations one after the other, none overlapping another, whatever the way
each ends. -/
def runOps {σ : Type} [FreshStore σ] : List Op → Registry σ → Trace → Registry σ × Trace
  | [], w, tr => (w, tr)
  | op :: rest, w, tr => runOps rest (op.run w tr).2.1 (op.run w tr).2.2

/-! ## Concurrent callers of `RegisterPeers`

The method `RegisterPeers` takes no lock: the test of gocache.go 91 and the
assignment of line 94 are two steps, and another caller may run between them.
The read path (`Get`, `load`, `getLocally`) never assigns `g.peers`; its calls
are taken whole. -/

/-- Where a caller of `RegisterPeers(peers)` stands: before the test of line
91; after the test found `g.peers` nil and before the assignment of line 94;
after its return; after its panic. -/
inductive RegPc where
  | start (peers : Option PeerPicker)
  | checked (peers : Option PeerPicker)
  | returned
  | panicked

/-- One move on a shared group: the next step of caller `i` of `RegisterPeers`,
or a call of the read path. -/
inductive Move where
  | register (i : Nat)
  | get (key : String)
  | load (key : String)
  | getLocally (key : String)

/-- A shared group with the callers of `RegisterPeers` on it. -/
structure RegSystem (σ : Type) where
  g : Group σ
  trace : Trace
  regs : Nat → RegPc

/-- One move. -/
def RegSystem.step (st : RegSystem σ) : Move → RegSystem σ
  | Move.register i =>
    match st.regs i with
    | RegPc.start p =>
      match st.g.peers with
      | some _ => { st with regs := fun q => if q = i then RegPc.panicked else st.regs q }
      | none => { st with regs := fun q => if q = i then RegPc.checked p else st.regs q }
    | RegPc.checked p =>
      { st with
        g := { st.g with peers := p }
        regs := fun q => if q = i then RegPc.returned else st.regs q }
    | RegPc.returned => st
    | RegPc.panicked => st
  | Move.get key =>
    { st with g := (st.g.Get key st.trace).2.1, trace := (st.g.Get key st.trace).2.2 }
  | Move.load key =>
    { st with g := (st.g.load key st.trace).2.1, trace := (st.g.load key st.trace).2.2 }
  | Move.getLocally key =>
    { st with
      g := (st.g.getLocally key st.trace).2.1
      trace := (st.g.getLocally key st.trace).2.2 }

/-- The moves of a schedule, one after the other. -/
def RegSystem.run (st : RegSystem σ) (moves : List Move) : RegSystem σ :=
  moves.foldl RegSystem.step st

/-! ## Byte slices as references

A Go `[]byte` refers to a backing array, and whoever holds the slice can write
the array. To speak of a write that happens after a value was built, the
arrays are kept in a memory and a slice is the position of its array. -/

/-- The backing arrays allocated so far. -/
structure Memory where
  arrays : List Bytes
deriving DecidableEq

/-- The bytes a slice refers to; the nil slice (`none`) has no bytes. -/
def Memory.read (m : Memory) (s : Option Nat) : Bytes :=
  match s with
  | none => []
  | some a => (m.arrays[a]?).getD []

/-- The holder of a slice overwrites the bytes of its array. -/
def Memory.write (m : Memory) (a : Nat) (bs : Bytes) : Memory :=
  { arrays := m.arrays.set a bs }

/-- Modelled from the spec: `cloneBytes`, whose source file is not among the
sources, on references: "Construction always copies its input bytes", so the
result is a slice of a newly allocated array with the same bytes. -/
def Memory.cloneBytes (m : Memory) (s : Option Nat) : Option Nat × Memory :=
  (some m.arrays.length, { arrays := m.arrays ++ [m.read s] })

/-- The value `ByteView` with its field `b` as a slice. -/
structure ByteViewRef where
  b : Option Nat
deriving DecidableEq

/-- The bytes of a value in a memory. -/
def ByteViewRef.bytes (v : ByteViewRef) (m : Memory) : Bytes := m.read v.b

/-- The construction of the value in `getLocally` (gocache.go 77-81, 83), from
what the loader returned: `ByteView{b: cloneBytes(bytes)}`. -/
def getLocallyRef (m : Memory) (bytes : Option Nat) (err : error) :
    (ByteViewRef × error) × Memory :=
  match err with
  | some e => ((ByteViewRef.mk none, some e), m)
  | none => ((ByteViewRef.mk (m.cloneBytes bytes).1, none), (m.cloneBytes bytes).2)

/-- The construction of the value in `getFromPeer` (gocache.go 116-120), from
what the peer returned: `ByteView{b: bytes}`. -/
def getFromPeerRef (m : Memory) (bytes : Option Nat) (err : error) :
    (ByteViewRef × error) × Memory :=
  match err with
  | some e => ((ByteViewRef.mk none, some e), m)
  | none => ((ByteViewRef.mk bytes, none), m)

/-! ## Concurrent callers of `Do`

Callers of `Do` on one shared coalescer, interleaved by a schedule. Several
callers hold the same `*call`, so the records are kept apart from the map: a
`*call` is the number of its record. A caller advances by the atomic sections
of singleflight.go:

* lines 20-33, under the mutex: look the key up; either keep the record found
  and go on to `c.wg.Wait()`, or store a new record with `wg.Add(1)`;
* line 35: run `fn` and assign its results to `c.val`, `c.err`;
* line 36: `c.wg.Done()`;
* lines 38-42: under the mutex, delete the key; return `c.val`, `c.err`;
* lines 26-27: `c.wg.Wait()` returns only when the counter is 0; then return
  `c.val`, `c.err`.

A nil map reads as the empty map and is replaced by one before the first
write (lines 21-23), so the map is kept as a function. -/

/-- Where a caller of `Do` stands, with the number of the record it holds:
`idle` before line 20; `running` before line 35; `assigned` before line 36;
`released` before line 38; `waiting` at line 26; `returned` after its `return`,
with what it returned and whether it was the one that stored the record;
`crashed` if its `fn` panicked and `stuck` if its `fn` never returns. -/
inductive DoPc (α : Type) where
  | idle
  | running (c : Nat)
  | assigned (c : Nat)
  | released (c : Nat)
  | waiting (c : Nat)
  | returned (c : Nat) (executor : Bool) (r : Option α × error)
  | crashed (c : Nat) (msg : String)
  | stuck (c : Nat)

/-- A caller: where it stands, how often it has started its own `fn`, and what
its own `fn` returned. The last two are bookkeeping only. -/
structure DoCaller (α : Type) where
  pc : DoPc α
  runs : Nat
  out : Option (Option α × error)

/-- The shared coalescer with its callers: the records, the number of the next
record, who stored each record (bookkeeping), the map `m`, the state the
bodies act on, and the callers. -/
structure Flight (α S : Type) where
  calls : Nat → singleflight.call α
  next : Nat
  owner : Nat → Nat
  m : String → Option Nat
  shared : S
  callers : Nat → DoCaller α

/-- The record a caller has stored itself, if any. -/
def DoPc.owns {α : Type} : DoPc α → Option Nat
  | DoPc.running c => some c
  | DoPc.assigned c => some c
  | DoPc.released c => some c
  | DoPc.returned c true _ => some c
  | DoPc.crashed c _ => some c
  | DoPc.stuck c => some c
  | _ => none

/-- The record a caller has found in the map and waits or waited for, if any. -/
def DoPc.joins {α : Type} : DoPc α → Option Nat
  | DoPc.waiting c => some c
  | DoPc.returned c false _ => some c
  | _ => none

/-- The record a caller has stored and not yet deleted from the map, if any. -/
def DoPc.holds {α : Type} : DoPc α → Option Nat
  | DoPc.running c => some c
  | DoPc.assigned c => some c
  | DoPc.released c => some c
  | DoPc.crashed c _ => some c
  | DoPc.stuck c => some c
  | _ => none

/-- A caller that has entered `Do` and has not left it. -/
def DoPc.inFlight {α : Type} : DoPc α → Bool
  | DoPc.idle => false
  | DoPc.returned _ _ _ => false
  | _ => true

/-- A caller whose `fn` has neither panicked nor hung. -/
def DoPc.alive {α : Type} : DoPc α → Bool
  | DoPc.crashed _ _ => false
  | DoPc.stuck _ => false
  | _ => true

/-- What a caller has returned, if it has. -/
def DoPc.result {α : Type} : DoPc α → Option (Option α × error)
  | DoPc.returned _ _ r => some r
  | _ => none

/-- The coalescer before any call: no record, an empty map, all callers idle. -/
def Flight.init {α S : Type} (s : S) : Flight α S :=
  { calls := fun _ => { wg := 0, val := none, err := none }, next := 0, owner := fun _ => 0,
    m := fun _ => none, shared := s,
    callers := fun _ => { pc := DoPc.idle, runs := 0, out := none } }

/-- Caller `i`, whose call is `Do(keyOf i, fnOf i)`, takes its next step. -/
def Flight.step {α S : Type} (keyOf : Nat → String)
    (fnOf : Nat → S → Outcome (Option α × error) × S) (st : Flight α S) (i : Nat) :
    Flight α S :=
  match (st.callers i).pc with
  | DoPc.idle =>
    match st.m (keyOf i) with
    | some c =>
      { st with callers := fun q =>
          if q = i then { st.callers i with pc := DoPc.waiting c } else st.callers q }
    | none =>
      { st with
        calls := fun q => if q = st.next then { wg := 1, val := none, err := none } else st.calls q
        next := st.next + 1
        owner := fun q => if q = st.next then i else st.owner q
        m := fun k => if k = keyOf i then some st.next else st.m k
        callers := fun q =>
          if q = i then { st.callers i with pc := DoPc.running st.next } else st.callers q }
  | DoPc.running c =>
    match fnOf i st.shared with
    | (Outcome.ret r, s1) =>
      { st with
        calls := fun q => if q = c then { st.calls c with val := r.1, err := r.2 } else st.calls q
        shared := s1
        callers := fun q =>
          if q = i then { pc := DoPc.assigned c, runs := (st.callers i).runs + 1, out := some r }
          else st.callers q }
    | (Outcome.panics msg, s1) =>
      { st with
        shared := s1
        callers := fun q =>
          if q = i then
            { pc := DoPc.crashed c msg, runs := (st.callers i).runs + 1, out := none }
          else st.callers q }
    | (Outcome.blocks, s1) =>
      { st with
        shared := s1
        callers := fun q =>
          if q = i then { pc := DoPc.stuck c, runs := (st.callers i).runs + 1, out := none }
          else st.callers q }
  | DoPc.assigned c =>
    { st with
      calls := fun q => if q = c then { st.calls c with wg := (st.calls c).wg - 1 } else st.calls q
      callers := fun q =>
        if q = i then { st.callers i with pc := DoPc.released c } else st.callers q }
  | DoPc.released c =>
    { st with
      m := fun k => if k = keyOf i then none else st.m k
      callers := fun q =>
        if q = i then
          { st.callers i with pc := DoPc.returned c true ((st.calls c).val, (st.calls c).err) }
        else st.callers q }
  | DoPc.waiting c =>
    if (st.calls c).wg = 0 then
      { st with callers := fun q =>
          if q = i then
            { st.callers i with pc := DoPc.returned c false ((st.calls c).val, (st.calls c).err) }
          else st.callers q }
    else st
  | DoPc.returned _ _ _ => st
  | DoPc.crashed _ _ => st
  | DoPc.stuck _ => st

/-- The coalescer after a schedule, a list of caller numbers. -/
def Flight.run {α S : Type} (keyOf : Nat → String)
    (fnOf : Nat → S → Outcome (Option α × error) × S) (st : Flight α S) (sched : List Nat) :
    Flight α S :=
  sched.foldl (Flight.step keyOf fnOf) st

/-- What holds of one caller in every state that a schedule reaches: its
bookkeeping and the record it holds fit where it stands. -/
def Flight.Good {α S : Type} (st : Flight α S) (i : Nat) : Prop :=
  match (st.callers i).pc with
  | DoPc.idle => (st.callers i).runs = 0 ∧ (st.callers i).out = none
  | DoPc.running c =>
    st.calls c = { wg := 1, val := none, err := none } ∧
    (st.callers i).runs = 0 ∧ (st.callers i).out = none
  | DoPc.assigned c =>
    (st.calls c).wg = 1 ∧ (st.callers i).out = some ((st.calls c).val, (st.calls c).err) ∧
    (st.callers i).runs = 1
  | DoPc.released c =>
    (st.calls c).wg = 0 ∧ (st.callers i).out = some ((st.calls c).val, (st.calls c).err) ∧
    (st.callers i).runs = 1
  | DoPc.waiting _ => True
  | DoPc.returned c true r =>
    (st.calls c).wg = 0 ∧ r = ((st.calls c).val, (st.calls c).err) ∧
    (st.callers i).out = some r ∧ (st.callers i).runs = 1
  | DoPc.returned c false r =>
    (st.calls c).wg = 0 ∧ r = ((st.calls c).val, (st.calls c).err)
  | DoPc.crashed c _ =>
    (st.calls c).wg = 1 ∧ (st.callers i).runs = 1 ∧ (st.callers i).out = none
  | DoPc.stuck c =>
    (st.calls c).wg = 1 ∧ (st.callers i).runs = 1 ∧ (st.callers i).out = none

/-- What holds in every state that a schedule reaches (the invariant). -/
structure Flight.Inv {α S : Type} (keyOf : Nat → String) (st : Flight α S) : Prop where
  owner_owns : ∀ c, c < st.next → (st.callers (st.owner c)).pc.owns = some c
  owns_owner : ∀ i c, (st.callers i).pc.owns = some c → c < st.next ∧ st.owner c = i
  joins_owner : ∀ i c, (st.callers i).pc.joins = some c →
    c < st.next ∧ keyOf (st.owner c) = keyOf i ∧ (st.callers i).runs = 0 ∧
      (st.callers i).out = none
  table : ∀ k c, st.m k = some c →
    c < st.next ∧ keyOf (st.owner c) = k ∧ (st.callers (st.owner c)).pc.holds = some c
  holds_table : ∀ i c, (st.callers i).pc.holds = some c → st.m (keyOf i) = some c
  good : ∀ i, st.Good i

/-- What a step of caller `i` leaves alone: the other callers, the old records
but the one `i` has stored itself and not yet released, the old owners, and the
map at the other keys. -/
structure Flight.Frame {α S : Type} (keyOf : Nat → String) (st st1 : Flight α S) (i : Nat) :
    Prop where
  callers_other : ∀ q, q ≠ i → st1.callers q = st.callers q
  next_le : st.next ≤ st1.next
  owner_old : ∀ c, c < st.next → st1.owner c = st.owner c
  calls_old : ∀ c, c < st.next → (st.owner c ≠ i ∨ (st.calls c).wg = 0) →
    st1.calls c = st.calls c
  m_other : ∀ k, k ≠ keyOf i → st1.m k = st.m k

/-- What a step of caller `i` does about `i` itself, its key and new records. -/
structure Flight.Own {α S : Type} (keyOf : Nat → String) (st st1 : Flight α S) (i : Nat) :
    Prop where
  owns_kept : ∀ c, (st.callers i).pc.owns = some c → (st1.callers i).pc.owns = some c
  new_owned : ∀ c, st.next ≤ c → c < st1.next →
    st1.owner c = i ∧ (st1.callers i).pc.owns = some c
  owns_own : ∀ c, (st1.callers i).pc.owns = some c → c < st1.next ∧ st1.owner c = i
  joins_own : ∀ c, (st1.callers i).pc.joins = some c →
    c < st1.next ∧ keyOf (st1.owner c) = keyOf i ∧ (st1.callers i).runs = 0 ∧
      (st1.callers i).out = none
  table_own : ∀ c, st1.m (keyOf i) = some c →
    c < st1.next ∧ keyOf (st1.owner c) = keyOf i ∧
      (st1.callers (st1.owner c)).pc.holds = some c
  table_kept : ∀ c, st.m (keyOf i) = some c → st.owner c ≠ i → st1.m (keyOf i) = some c
  holds_own : ∀ c, (st1.callers i).pc.holds = some c → st1.m (keyOf i) = some c
  good_own : st1.Good i

/-- The function literal of `load` (gocache.go 98-108) as a body for concurrent
callers of `Do`: it acts on the shared group and trace; the named results
`value` and `err` that it writes belong to its own caller. -/
def loadFn (key : String) (s : Group σ × Trace) :
    Outcome (Option ByteView × error) × (Group σ × Trace) :=
  ((Group.loadBody key { value := ByteView.mk [], err := none, g := s.1, trace := s.2 }).1,
    ((Group.loadBody key { value := ByteView.mk [], err := none, g := s.1, trace := s.2 }).2.g,
      (Group.loadBody key { value := ByteView.mk [], err := none, g := s.1, trace := s.2 }).2.trace))

/-! ## Concrete collaborators, for the examples -/

/-- A store for the examples: an association list, newest entry first, that
never evicts. -/
structure ListStore where
  entries : List (String × ByteView)
deriving DecidableEq

instance : LocalStore ListStore where
  get s k := s.entries.lookup k
  add s k v := ListStore.mk ((k, v) :: s.entries)

/-- The bytes of "630". -/
def bytes630 : Bytes := [54, 51, 48]

/-- The bytes of "589". -/
def bytes589 : Bytes := [53, 56, 57]

/-- A loader that knows "Tom" (630) and fails on every other key. -/
def scoresGetter : Getter :=
  { Get := fun key => if key = "Tom" then (bytes630, none) else ([], some (GoError.mk "not exist")) }

/-- A peer that answers 589 for every key. -/
def goodPeer : PeerGetter := { Get := fun _ _ => (bytes589, none) }

/-- A peer whose fetch always fails. -/
def badPeer : PeerGetter := { Get := fun _ _ => ([], some (GoError.mk "peer down")) }

/-- A group named "scores" with the loader `scoresGetter`, an empty store, a
zero-value coalescer and no peer picker. -/
def scores : Group ListStore :=
  { name := "scores", getter := scoresGetter, mainCache := ListStore.mk [],
    peers := none, loader := { m := none } }

/-- The group `scores` with a picker that always picks `goodPeer`. -/
def scoresGoodPeer : Group ListStore :=
  { scores with peers := some { PickPeer := fun _ => (some goodPeer, true) } }

/-- The group `scores` with a picker that always picks `badPeer`. -/
def scoresBadPeer : Group ListStore :=
  { scores with peers := some { PickPeer := fun _ => (some badPeer, true) } }

/-- The group `scores` with a picker that never finds a peer. -/
def scoresNoPeer : Group ListStore :=
  { scores with peers := some { PickPeer := fun _ => (none, false) } }

/-- A loader that fails on every key with the message "key is required". -/
def keyRequiredGetter : Getter :=
  { Get := fun _ => ([], some (GoError.mk "key is required")) }

/-- A group whose loader is `keyRequiredGetter`. -/
def strict : Group ListStore := { scores with getter := keyRequiredGetter }

/-- The group `scores` after a successful `Get("Tom")`: "Tom" is resident. -/
def scoresWarm : Group ListStore :=
  { scores with mainCache := ListStore.mk [("Tom", ByteView.mk bytes630)],
                loader := { m := some fun _ => none } }

/-- A body of `Do` on a counter: it counts one up and succeeds with the value
630. -/
def okFn : Nat → (Option ByteView × error) × Nat :=
  fun s => ((some (ByteView.mk bytes630), none), s + 1)

/-- A body of `Do` on a counter: it counts ten up and fails. -/
def failFn : Nat → (Option ByteView × error) × Nat :=
  fun s => ((none, some (GoError.mk "boom")), s + 10)

/-- The zero value of the coalescer. -/
def flight0 : singleflight.Group ByteView := { m := none }

/-- A store for the examples that records its capacity bound and never evicts. -/
structure BoundedStore where
  cacheBytes : Int
  entries : List (String × ByteView)
deriving DecidableEq

instance : FreshStore BoundedStore where
  get s k := s.entries.lookup k
  add s k v := { s with entries := (k, v) :: s.entries }
  fresh c := { cacheBytes := c, entries := [] }
  cacheBytes s := s.cacheBytes
  cacheBytes_fresh := fun _ => rfl
  get_fresh := fun _ _ => rfl

/-- A picker that always picks `goodPeer`. -/
def goodPicker : PeerPicker := { PickPeer := fun _ => (some goodPeer, true) }

/-- A picker that always picks `badPeer`. -/
def badPicker : PeerPicker := { PickPeer := fun _ => (some badPeer, true) }

/-- A memory with one array, holding "630". -/
def mem630 : Memory := { arrays := [bytes630] }

/-- Bodies for concurrent callers on a counter: caller 0 succeeds with 630,
every other caller would fail. -/
def demoFn (i : Nat) : Nat → Outcome (Option ByteView × error) × Nat :=
  if i = 0 then singleflight.returning okFn else singleflight.returning failFn

/-- Three callers of `Do("Tom", ...)`: caller 0 stores the record, callers 1 and
2 find it, caller 0 runs its body and releases the wait group, callers 1 and 2
return, caller 0 deletes the key and returns. -/
def demoSchedule : List Nat := [0, 1, 2, 0, 0, 1, 2, 0]

/-- Two callers of `RegisterPeers` on the group `scores`, whose picker is unset:
caller 0 with `goodPicker`, every other caller with `badPicker`. -/
def twoRegistrations : RegSystem ListStore :=
  { g := scores, trace := [],
    regs := fun i => if i = 0 then RegPc.start (some goodPicker)
      else RegPc.start (some badPicker) }

/-- What the peer picked for "Tom" answers for the group "scores". -/
def pickedAnswer (p : Option PeerPicker) : Option (Bytes × error) :=
  match p with
  | none => none
  | some pk => (pk.PickPeer "Tom").1.map fun peer => peer.Get "scores" "Tom"

/-- The value of a call that returned; a marker value if it did not return. -/
def returnedValue (o : Outcome (ByteView × error)) : ByteView :=
  match o with
  | Outcome.ret r => r.1
  | _ => ByteView.mk [0]

/-! ## Lemmas on traces -/

theorem loaderCalls_append (a b : Trace) : loaderCalls (a ++ b) = loaderCalls a + loaderCalls b := by
  simp [loaderCalls, List.filter_append]

theorem flightCalls_append (a b : Trace) : flightCalls (a ++ b) = flightCalls a + flightCalls b := by
  simp [flightCalls, List.filter_append]

theorem pickCalls_append (a b : Trace) : pickCalls (a ++ b) = pickCalls a + pickCalls b := by
  simp [pickCalls, List.filter_append]

theorem peerCalls_append (a b : Trace) : peerCalls (a ++ b) = peerCalls a + peerCalls b := by
  simp [peerCalls, List.filter_append]

theorem storeAdds_append (a b : Trace) : storeAdds (a ++ b) = storeAdds a ++ storeAdds b := by
  induction a with
  | nil => rfl
  | cons e a ih => cases e <;> simp [storeAdds, ih]

/-! ## Lemmas on the coalescer -/

namespace singleflight

/-- A caller that finds no record for its key and whose body returns: `Do`
returns the body's pair, leaves the caller's state as the body left it, and
leaves a map without a record for the key and with the other keys as before. -/
theorem Do_sole {α S : Type} (g : Group α) (key : String)
    (fn : S → Outcome (Option α × error) × S) (s s1 : S) (r : Option α × error)
    (hno : g.pending key = none) (hfn : fn s = (Outcome.ret r, s1)) :
    (g.Do key fn s).1 = Outcome.ret r ∧ (g.Do key fn s).2.2 = s1 ∧
    (g.Do key fn s).2.1.pending key = none ∧
    ∀ k, k ≠ key → (g.Do key fn s).2.1.pending k = g.pending k := by
  cases hm : g.m with
  | none =>
    refine ⟨?_, ?_, ?_, ?_⟩
    · simp [Group.Do, hm, hfn]
    · simp [Group.Do, hm, hfn]
    · simp [Group.Do, hm, hfn, Group.pending, mapDelete]
    · intro k hk
      simp [Group.Do, hm, hfn, Group.pending, mapDelete, mapInsert, hk]
  | some m =>
    have hmk : m key = none := by simpa [Group.pending, hm] using hno
    refine ⟨?_, ?_, ?_, ?_⟩
    · simp [Group.Do, hm, hmk, hfn]
    · simp [Group.Do, hm, hmk, hfn]
    · simp [Group.Do, hm, hmk, hfn, Group.pending, mapDelete]
    · intro k hk
      simp [Group.Do, hm, hmk, hfn, Group.pending, mapDelete, mapInsert, hk]

end singleflight

/-! ## Lemmas on `load` -/

/-- A `load` that finds no record for its key and whose body returns. -/
theorem load_sole (g : Group σ) (key : String) (tr : Trace)
    (r : Option ByteView × error) (f1 : loadFrame σ)
    (hno : g.loader.pending key = none)
    (hbody : Group.loadBody key (loadStart g key tr) = (Outcome.ret r, f1)) :
    (g.load key tr).1 = loadResult r f1 ∧ (g.load key tr).2.2 = f1.trace ∧
    (g.load key tr).2.1.mainCache = f1.g.mainCache ∧
    (g.load key tr).2.1.peers = f1.g.peers ∧
    (g.load key tr).2.1.loader.pending key = none ∧
    ∀ k, k ≠ key → (g.load key tr).2.1.loader.pending k = g.loader.pending k := by
  obtain ⟨h1, h2, h3, h4⟩ :=
    singleflight.Do_sole g.loader key (Group.loadBody key) (loadStart g key tr) f1 r hno hbody
  have hd : g.loader.Do key (Group.loadBody key) (loadStart g key tr) =
      (Outcome.ret r, (g.loader.Do key (Group.loadBody key) (loadStart g key tr)).2.1, f1) := by
    apply Prod.ext
    · exact h1
    · apply Prod.ext
      · rfl
      · exact h2
  have hl : g.load key tr =
      (loadResult r f1,
        { f1.g with loader := (g.loader.Do key (Group.loadBody key) (loadStart g key tr)).2.1 },
        f1.trace) := by
    unfold Group.load
    simp only []
    unfold loadStart at hd
    rw [hd]
    rcases r with ⟨v, e⟩
    cases e <;> cases v <;> rfl
  rw [hl]
  exact ⟨rfl, rfl, rfl, rfl, h3, h4⟩

/-- The body of `load` when the loader is reached directly. -/
theorem loadLocal_eq (key : String) (f : loadFrame σ) :
    Group.loadLocal key f =
      (Outcome.ret (some (f.g.getLocally key f.trace).1.1, (f.g.getLocally key f.trace).1.2),
        { f with g := (f.g.getLocally key f.trace).2.1, trace := (f.g.getLocally key f.trace).2.2 }) :=
  rfl

/-- The call `getLocally` when the loader succeeds. -/
theorem getLocally_ok (g : Group σ) (key : String) (tr : Trace) (b : Bytes)
    (h : g.getter.Get key = (b, none)) :
    g.getLocally key tr =
      ((ByteView.mk b, none),
        { g with mainCache := LocalStore.add g.mainCache key (ByteView.mk b) },
        tr ++ [Event.getterGet key] ++ [Event.cacheAdd key (ByteView.mk b)]) := by
  simp [Group.getLocally, h, Group.populateCache, cloneBytes]

/-- The call `getLocally` when the loader fails. -/
theorem getLocally_err (g : Group σ) (key : String) (tr : Trace) (b : Bytes) (e : GoError)
    (h : g.getter.Get key = (b, some e)) :
    g.getLocally key tr = ((ByteView.mk [], some e), g, tr ++ [Event.getterGet key]) := by
  simp [Group.getLocally, h]

/-- A `Get` on a non-empty key that the store misses is `load` after the lookup. -/
theorem Get_miss (g : Group σ) (key : String) (tr : Trace)
    (hk : key ≠ "") (hmiss : LocalStore.get g.mainCache key = none) :
    g.Get key tr = g.load key (tr ++ [Event.cacheGet key]) := by
  simp [Group.Get, hk, hmiss]

/-- An error returned by the body of `load` is the loader's. -/
theorem loadBody_err (key : String) (f f1 : loadFrame σ) (x : Option ByteView) (e : GoError)
    (h : Group.loadBody key f = (Outcome.ret (x, some e), f1)) :
    (f.g.getter.Get key).2 = some e := by
  have hloc : ∀ f0 : loadFrame σ, f0.g = f.g →
      Group.loadLocal key f0 = (Outcome.ret (x, some e), f1) → (f.g.getter.Get key).2 = some e := by
    intro f0 hg h0
    rw [loadLocal_eq, hg] at h0
    rcases hget : f.g.getter.Get key with ⟨b, _ | e0⟩
    · rw [getLocally_ok f.g key _ b hget] at h0
      simp at h0
    · rw [getLocally_err f.g key _ b e0 hget] at h0
      simp at h0
      simp [h0.1.2]
  unfold Group.loadBody at h
  split at h
  · split at h
    · split at h
      · simp at h
      · exact hloc _ (by rfl) h
      · simp at h
      · simp at h
    · exact hloc _ (by rfl) h
  · exact hloc _ (by rfl) h

/-- The state `Do` leaves to its caller is the one it was given or the one
the body made of it. -/
theorem singleflight.Do_state {α S : Type} (g : singleflight.Group α) (key : String)
    (fn : S → Outcome (Option α × error) × S) (s : S) :
    (g.Do key fn s).2.2 = s ∨ (g.Do key fn s).2.2 = (fn s).2 := by
  unfold singleflight.Group.Do
  simp only []
  split
  · split <;> simp
  · split <;> simp [*]

/-- The trace and the store after `load` are those of the frame `Do` hands back. -/
theorem load_frame (g : Group σ) (key : String) (tr : Trace) :
    (g.load key tr).2.2 = (g.loader.Do key (Group.loadBody key) (loadStart g key tr)).2.2.trace ∧
    (g.load key tr).2.1.mainCache =
      (g.loader.Do key (Group.loadBody key) (loadStart g key tr)).2.2.g.mainCache := by
  unfold Group.load loadStart
  simp only []
  split <;> [split; skip; skip; skip] <;> simp [*]

/-- The local retrieval of `load` only appends to the trace. -/
theorem loadLocal_trace (key : String) (f : loadFrame σ) :
    ∃ rest, (Group.loadLocal key f).2.trace = f.trace ++ rest := by
  rw [loadLocal_eq]
  rcases hget : f.g.getter.Get key with ⟨b, _ | e0⟩
  · rw [getLocally_ok f.g key _ b hget]
    exact ⟨[Event.getterGet key, Event.cacheAdd key (ByteView.mk b)], by simp⟩
  · rw [getLocally_err f.g key _ b e0 hget]
    exact ⟨[Event.getterGet key], rfl⟩

/-- The body of `load` only appends to the trace. -/
theorem loadBody_trace (key : String) (f : loadFrame σ) :
    ∃ rest, (Group.loadBody key f).2.trace = f.trace ++ rest := by
  unfold Group.loadBody
  split
  · split
    · rename_i peers peer hp
      cases peer with
      | none => exact ⟨[Event.pickPeer key], by simp [Group.getFromPeer]⟩
      | some p =>
        rcases hget : p.Get f.g.name key with ⟨b, _ | e0⟩
        · exact ⟨[Event.pickPeer key, Event.peerGet f.g.name key], by simp [Group.getFromPeer, hget]⟩
        · simp only [Group.getFromPeer, hget]
          obtain ⟨rest, hr⟩ := loadLocal_trace key
            { f with value := ByteView.mk [], err := some e0,
                     trace := f.trace ++ [Event.pickPeer key] ++ [Event.peerGet f.g.name key] }
          exact ⟨[Event.pickPeer key, Event.peerGet f.g.name key] ++ rest, by rw [hr]; simp⟩
    · obtain ⟨rest, hr⟩ := loadLocal_trace key { f with trace := f.trace ++ [Event.pickPeer key] }
      exact ⟨[Event.pickPeer key] ++ rest, by rw [hr]; simp⟩
  · exact loadLocal_trace key f

/-- The trace `load` leaves starts with the trace it was given and its `Do`. -/
theorem load_trace (g : Group σ) (key : String) (tr : Trace) :
    ∃ rest, (g.load key tr).2.2 = tr ++ Event.flightDo key :: rest := by
  rw [(load_frame g key tr).1]
  rcases singleflight.Do_state g.loader key (Group.loadBody key) (loadStart g key tr) with h | h
  · rw [h]; exact ⟨[], by simp [loadStart]⟩
  · rw [h]
    obtain ⟨rest, hr⟩ := loadBody_trace key (loadStart g key tr)
    exact ⟨rest, by rw [hr]; simp [loadStart]⟩


/-- A caller that finds a record for its key: `Do` does not run the body; it
returns the record's pair if the record's wait group is released and waits
forever otherwise. -/
theorem singleflight.Do_joined {α S : Type} (g : singleflight.Group α) (key : String)
    (fn : S → Outcome (Option α × error) × S) (s : S) (c : singleflight.call α)
    (hc : g.pending key = some c) :
    (g.Do key fn s).1 = (if c.wg = 0 then Outcome.ret (c.val, c.err) else Outcome.blocks) ∧
    (g.Do key fn s).2.2 = s ∧ ∀ k, (g.Do key fn s).2.1.pending k = g.pending k := by
  cases hm : g.m with
  | none => simp [singleflight.Group.pending, hm] at hc
  | some m =>
    have hmk : m key = some c := by simpa [singleflight.Group.pending, hm] using hc
    by_cases hw : c.wg = 0 <;>
      simp [singleflight.Group.Do, hm, hmk, hw, singleflight.Group.pending]

/-- A caller that finds no record for its key: `Do` ends as the body ends and
leaves the caller's state as the body left it. -/
theorem singleflight.Do_fresh {α S : Type} (g : singleflight.Group α) (key : String)
    (fn : S → Outcome (Option α × error) × S) (s : S)
    (hno : g.pending key = none) :
    (g.Do key fn s).1 = (fn s).1 ∧ (g.Do key fn s).2.2 = (fn s).2 := by
  have hmk : (match g.m with | none => fun _ => none | some m => m) key = none := by
    cases hm : g.m with
    | none => rfl
    | some m => simpa [singleflight.Group.pending, hm] using hno
  unfold singleflight.Group.Do
  simp only [hmk]
  split <;> simp [*]

/-- The way `load` ends, from the way its `Do` ends. -/
theorem load_outcome (g : Group σ) (key : String) (tr : Trace) :
    (g.load key tr).1 =
      loadOutcome (g.loader.Do key (Group.loadBody key) (loadStart g key tr)).1
        (g.loader.Do key (Group.loadBody key) (loadStart g key tr)).2.2 := by
  unfold Group.load loadStart
  simp only []
  split <;> [split; skip; skip; skip] <;> simp [*, loadOutcome, loadResult]

/-- An error that `load` returns is the loader's error for the key or the
error of the record that the call found in the coalescer. -/
theorem load_err (g : Group σ) (key : String) (tr : Trace) (v : ByteView) (e : GoError)
    (h : (g.load key tr).1 = Outcome.ret (v, some e)) :
    (g.getter.Get key).2 = some e ∨ ∃ c, g.loader.pending key = some c ∧ c.err = some e := by
  rw [load_outcome] at h
  cases hp : g.loader.pending key with
  | some c =>
    right
    refine ⟨c, rfl, ?_⟩
    obtain ⟨h1, -, -⟩ := singleflight.Do_joined g.loader key (Group.loadBody key)
      (loadStart g key tr) c hp
    rw [h1] at h
    by_cases hw : c.wg = 0
    · rw [if_pos hw] at h
      rcases hv : c.val with _ | x <;> rcases he : c.err with _ | e0 <;>
        simp [loadOutcome, loadResult, hv, he] at h
      · exact congrArg some h.2
      · exact congrArg some h.2
    · rw [if_neg hw] at h
      simp [loadOutcome] at h
  | none =>
    left
    obtain ⟨h1, -⟩ := singleflight.Do_fresh g.loader key (Group.loadBody key)
      (loadStart g key tr) hp
    rw [h1] at h
    rcases hb : Group.loadBody key (loadStart g key tr) with ⟨o, f1⟩
    rw [hb] at h
    cases o with
    | ret r =>
      rcases r with ⟨x, _ | e0⟩
      · cases x <;> simp [loadOutcome, loadResult] at h
      · have := loadBody_err key (loadStart g key tr) f1 x e0 hb
        simp [loadOutcome, loadResult] at h
        rw [← h.2]
        exact this
    | panics msg => simp [loadOutcome] at h
    | blocks => simp [loadOutcome] at h

/-! ## The body of `load`, case by case -/

/-- No picker attached: the body is the local retrieval. -/
theorem loadBody_no_picker (key : String) (f : loadFrame σ) (h : f.g.peers = none) :
    Group.loadBody key f = Group.loadLocal key f := by
  simp [Group.loadBody, h]

/-- The picker reports no peer: the body is the local retrieval after the pick. -/
theorem loadBody_no_peer (key : String) (f : loadFrame σ) (p : PeerPicker)
    (h : f.g.peers = some p) (hp : (p.PickPeer key).2 = false) :
    Group.loadBody key f =
      Group.loadLocal key { f with trace := f.trace ++ [Event.pickPeer key] } := by
  rcases hpp : p.PickPeer key with ⟨peer, ok⟩
  rw [hpp] at hp
  simp only at hp
  subst hp
  simp [Group.loadBody, h, hpp]

/-- The picked peer answers: the body returns the peer's bytes, and the loader
and the store are not reached. -/
theorem loadBody_peer_ok (key : String) (f : loadFrame σ) (p : PeerPicker) (peer : PeerGetter)
    (b : Bytes) (h : f.g.peers = some p) (hp : p.PickPeer key = (some peer, true))
    (hget : peer.Get f.g.name key = (b, none)) :
    Group.loadBody key f =
      (Outcome.ret (some (ByteView.mk b), none),
        { f with value := ByteView.mk b, err := none,
                 trace := f.trace ++ [Event.pickPeer key] ++ [Event.peerGet f.g.name key] }) := by
  simp [Group.loadBody, h, hp, Group.getFromPeer, hget]

/-- The picked peer fails: the body goes on with the local retrieval. -/
theorem loadBody_peer_err (key : String) (f : loadFrame σ) (p : PeerPicker) (peer : PeerGetter)
    (b : Bytes) (e : GoError) (h : f.g.peers = some p) (hp : p.PickPeer key = (some peer, true))
    (hget : peer.Get f.g.name key = (b, some e)) :
    Group.loadBody key f =
      Group.loadLocal key
        { f with value := ByteView.mk [], err := some e,
                 trace := f.trace ++ [Event.pickPeer key] ++ [Event.peerGet f.g.name key] } := by
  simp [Group.loadBody, h, hp, Group.getFromPeer, hget]

/-- A `Get` on a non-empty key that the store misses, with no call for the key
in flight and a body that returns. -/
theorem Get_sole (g : Group σ) (key : String) (tr : Trace)
    (r : Option ByteView × error) (f1 : loadFrame σ)
    (hk : key ≠ "") (hmiss : LocalStore.get g.mainCache key = none)
    (hno : g.loader.pending key = none)
    (hbody : Group.loadBody key (loadStart g key (tr ++ [Event.cacheGet key])) =
      (Outcome.ret r, f1)) :
    (g.Get key tr).1 = loadResult r f1 ∧ (g.Get key tr).2.2 = f1.trace ∧
    (g.Get key tr).2.1.mainCache = f1.g.mainCache := by
  rw [Get_miss g key tr hk hmiss]
  obtain ⟨h1, h2, h3, -⟩ := load_sole g key (tr ++ [Event.cacheGet key]) r f1 hno hbody
  exact ⟨h1, h2, h3⟩

/-- The result and the store effect of `getLocally` do not depend on the trace
it is given, to which it only appends its own calls. -/
theorem getLocally_trace (g : Group σ) (key : String) (tr : Trace) :
    (g.getLocally key tr).1 = (g.getLocally key []).1 ∧
    (g.getLocally key tr).2.1 = (g.getLocally key []).2.1 ∧
    (g.getLocally key tr).2.2 = tr ++ (g.getLocally key []).2.2 := by
  rcases hget : g.getter.Get key with ⟨b, _ | e⟩
  · rw [getLocally_ok g key tr b hget, getLocally_ok g key [] b hget]; simp
  · rw [getLocally_err g key tr b e hget, getLocally_err g key [] b e hget]; simp

/-- A `load` that finds no call for its key in flight and whose body is the
local retrieval, possibly after further calls `extra`. -/
theorem load_local_sole (g : Group σ) (key : String) (tr extra : Trace)
    (hno : g.loader.pending key = none)
    (hbody : Group.loadBody key (loadStart g key tr) =
      Group.loadLocal key
        { loadStart g key tr with trace := tr ++ [Event.flightDo key] ++ extra }) :
    (g.load key tr).1 = Outcome.ret (g.getLocally key tr).1 ∧
    (g.load key tr).2.1.mainCache = (g.getLocally key tr).2.1.mainCache ∧
    (g.load key tr).2.2 =
      tr ++ [Event.flightDo key] ++ extra ++ (g.getLocally key []).2.2 := by
  rw [loadLocal_eq] at hbody
  obtain ⟨h1, h2, h3, -⟩ := load_sole g key tr _ _ hno hbody
  simp only [loadStart] at h1 h2 h3
  obtain ⟨t1, t2, t3⟩ := getLocally_trace g key (tr ++ [Event.flightDo key] ++ extra)
  obtain ⟨u1, u2, -⟩ := getLocally_trace g key tr
  rw [h2, h3, t3, t2, u2]
  refine ⟨?_, rfl, rfl⟩
  rw [h1, t1, u1]
  rcases hget : g.getter.Get key with ⟨b, _ | e⟩
  · rw [getLocally_ok g key [] b hget]; rfl
  · rw [getLocally_err g key [] b e hget]; rfl

/-! ## Sequences of calls and single callers -/

/-- Calls of `Do` that do not overlap, starting with no record in the map:
every body runs, in order, each call returns its own body's pair, and no
record is left. -/
theorem doSeq_quiet {α S : Type} (calls : List (String × (S → (Option α × error) × S))) :
    ∀ (g : singleflight.Group α) (s : S), (∀ k, g.pending k = none) →
      (singleflight.doSeq (asDoCalls calls) g s).1 = (runBodies calls s).1 ∧
      (singleflight.doSeq (asDoCalls calls) g s).2.2 = (runBodies calls s).2 ∧
      ∀ k, (singleflight.doSeq (asDoCalls calls) g s).2.1.pending k = none := by
  induction calls with
  | nil => intro g s hq; exact ⟨rfl, rfl, hq⟩
  | cons c rest ih =>
    intro g s hq
    obtain ⟨h1, h2, h3, h4⟩ := singleflight.Do_sole g c.1 (singleflight.returning c.2) s
      (c.2 s).2 (c.2 s).1 (hq c.1) rfl
    have hd : g.Do c.1 (singleflight.returning c.2) s =
        (Outcome.ret (c.2 s).1, (g.Do c.1 (singleflight.returning c.2) s).2.1, (c.2 s).2) := by
      apply Prod.ext
      · exact h1
      · apply Prod.ext
        · rfl
        · exact h2
    have hq1 : ∀ k, (g.Do c.1 (singleflight.returning c.2) s).2.1.pending k = none := by
      intro k
      by_cases hk : k = c.1
      · rw [hk]; exact h3
      · rw [h4 k hk]; exact hq k
    obtain ⟨i1, i2, i3⟩ := ih (g.Do c.1 (singleflight.returning c.2) s).2.1 (c.2 s).2 hq1
    have hs : singleflight.doSeq (asDoCalls (c :: rest)) g s =
        (Outcome.ret (c.2 s).1 ::
            (singleflight.doSeq (asDoCalls rest)
              (g.Do c.1 (singleflight.returning c.2) s).2.1 (c.2 s).2).1,
          (singleflight.doSeq (asDoCalls rest)
              (g.Do c.1 (singleflight.returning c.2) s).2.1 (c.2 s).2).2.1,
          (singleflight.doSeq (asDoCalls rest)
              (g.Do c.1 (singleflight.returning c.2) s).2.1 (c.2 s).2).2.2) := by
      show singleflight.doSeq ((c.1, singleflight.returning c.2) :: asDoCalls rest) g s = _
      rw [singleflight.doSeq, hd]
    rw [hs]
    refine ⟨?_, ?_, i3⟩
    · show _ :: _ = _ :: _
      rw [i1]
    · exact i2

/-- Calls of `Get` that do not overlap keep the coalescer without records: if no
record is held when `Get` is called and `Get` returns, no record is held
afterwards. -/
theorem Get_keeps_quiet (g : Group σ) (key : String) (tr : Trace) (r : ByteView × error)
    (hq : ∀ k, g.loader.pending k = none) (hret : (g.Get key tr).1 = Outcome.ret r) :
    ∀ k, (g.Get key tr).2.1.loader.pending k = none := by
  by_cases hk : key = ""
  · intro k
    simpa [Group.Get, hk] using hq k
  · cases hget : LocalStore.get g.mainCache key with
    | some v =>
      intro k
      simpa [Group.Get, hk, hget] using hq k
    | none =>
      rw [Get_miss g key tr hk hget] at hret ⊢
      rw [load_outcome] at hret
      obtain ⟨d1, -⟩ := singleflight.Do_fresh g.loader key (Group.loadBody key)
        (loadStart g key (tr ++ [Event.cacheGet key])) (hq key)
      rw [d1] at hret
      rcases hb : Group.loadBody key (loadStart g key (tr ++ [Event.cacheGet key]))
        with ⟨o, f1⟩
      rw [hb] at hret
      cases o with
      | ret r0 =>
        obtain ⟨-, -, -, -, h5, h6⟩ := load_sole g key (tr ++ [Event.cacheGet key]) r0 f1
          (hq key) hb
        intro k
        by_cases hkk : k = key
        · rw [hkk]; exact h5
        · rw [h6 k hkk]; exact hq k
      | panics msg => simp [loadOutcome] at hret
      | blocks => simp [loadOutcome] at hret

/-! ## Lemmas on the registry -/

/-- After a sequence of `NewGroup` calls every call has returned a pointer, and
the registry holds under each name the pointer of the most recent call with
that name, or what it held before if there is no such call. -/
theorem newGroups_groups {σ : Type} [FreshStore σ] (calls : List (String × Int × Getter)) :
    ∀ (w : Registry σ) (n : String),
      (newGroups calls w).1.length = calls.length ∧
      (newGroups calls w).2.groups n =
        match lastNamed calls (newGroups calls w).1 n with
        | some p => some p
        | none => w.groups n := by
  induction calls with
  | nil => intro w n; exact ⟨rfl, rfl⟩
  | cons c rest ih =>
    intro w n
    rcases c with ⟨name, cb, gt⟩
    obtain ⟨h1, h2⟩ := ih (NewGroup w name cb (some gt)).2 n
    have hs : newGroups ((name, cb, gt) :: rest) w =
        (w.objs.length :: (newGroups rest (NewGroup w name cb (some gt)).2).1,
          (newGroups rest (NewGroup w name cb (some gt)).2).2) := rfl
    rw [hs]
    refine ⟨by simp [h1], ?_⟩
    show (newGroups rest (NewGroup w name cb (some gt)).2).2.groups n = _
    rw [h2]
    simp only [lastNamed]
    cases lastNamed rest (newGroups rest (NewGroup w name cb (some gt)).2).1 n with
    | some q => rfl
    | none =>
      by_cases hn : name = n
      · subst hn; simp [NewGroup]
      · have hn2 : ¬ n = name := fun h => hn h.symm
        simp [NewGroup, hn, hn2]

/-- No call with the name, no pointer. -/
theorem lastNamed_none (calls : List (String × Int × Getter)) :
    ∀ (ptrs : List Nat) (n : String), (∀ c ∈ calls, c.1 ≠ n) → lastNamed calls ptrs n = none := by
  induction calls with
  | nil => intro ptrs n _; rfl
  | cons c rest ih =>
    intro ptrs n h
    cases ptrs with
    | nil => rfl
    | cons p ps =>
      have h1 := ih ps n (fun c hc => h c (List.mem_cons_of_mem _ hc))
      have h2 : ¬ c.1 = n := h c (List.mem_cons_self _ _)
      simp [lastNamed, h1, h2]

/-! ## The picker is not written by the read path -/

/-- The method `getLocally` leaves the picker as it is. -/
theorem getLocally_peers (g : Group σ) (key : String) (tr : Trace) :
    (g.getLocally key tr).2.1.peers = g.peers := by
  rcases hget : g.getter.Get key with ⟨b, _ | e⟩
  · rw [getLocally_ok g key tr b hget]
  · rw [getLocally_err g key tr b e hget]

/-- The body of `load` leaves the picker as it is. -/
theorem loadBody_peers (key : String) (f : loadFrame σ) :
    (Group.loadBody key f).2.g.peers = f.g.peers := by
  have hloc : ∀ f0 : loadFrame σ, (Group.loadLocal key f0).2.g.peers = f0.g.peers := by
    intro f0
    rw [loadLocal_eq]
    exact getLocally_peers f0.g key f0.trace
  unfold Group.loadBody
  split
  · split
    · split
      · rfl
      · rw [hloc]
      · rfl
      · rfl
    · rw [hloc]
  · rw [hloc]

/-- The method `load` leaves the picker as it is. -/
theorem load_peers (g : Group σ) (key : String) (tr : Trace) :
    (g.load key tr).2.1.peers = g.peers := by
  have h : (g.load key tr).2.1.peers =
      (g.loader.Do key (Group.loadBody key) (loadStart g key tr)).2.2.g.peers := by
    unfold Group.load loadStart
    simp only []
    split <;> [split; skip; skip; skip] <;> simp [*]
  rw [h]
  rcases singleflight.Do_state g.loader key (Group.loadBody key) (loadStart g key tr) with h | h
  · rw [h]; rfl
  · rw [h, loadBody_peers]; rfl

/-- The method `Get` leaves the picker as it is. -/
theorem Get_peers (g : Group σ) (key : String) (tr : Trace) :
    (g.Get key tr).2.1.peers = g.peers := by
  by_cases hk : key = ""
  · simp [Group.Get, hk]
  · cases hget : LocalStore.get g.mainCache key with
    | some v => simp [Group.Get, hk, hget]
    | none => rw [Get_miss g key tr hk hget, load_peers]

/-- What one operation does to the picker of the group object behind a
pointer: it leaves it as it is, unless the operation is a `RegisterPeers` on
that pointer that returns, the picker was unset and is now the argument. -/
theorem Op.run_peers {σ : Type} [FreshStore σ] (op : Op) (w : Registry σ) (tr : Trace)
    (p : Nat) (g : Group σ) (hobj : w.objs[p]? = some g) :
    ∃ g1, (op.run w tr).2.1.objs[p]? = some g1 ∧
      (g1.peers = g.peers ∨
        ∃ pk, op = Op.registerPeers p (some pk) ∧ g.peers = none ∧ g1.peers = some pk ∧
          (op.run w tr).1 = Outcome.ret () ∧ g1 = { g with peers := some pk }) := by
  have hlt : p < w.objs.length := by
    rcases Nat.lt_or_ge p w.objs.length with h | h
    · exact h
    · rw [List.getElem?_eq_none h] at hobj; cases hobj
  have hon : ∀ (β : Type) (q : Nat) (f : Group σ → Outcome β × Group σ × Trace),
      (∀ g0, (f g0).2.1.peers = g0.peers) →
      ∃ g1, (w.onGroup q tr f).2.1.objs[p]? = some g1 ∧ g1.peers = g.peers := by
    intro β q f hf
    unfold Registry.onGroup
    cases hq : w.objs[q]? with
    | none => exact ⟨g, hobj, rfl⟩
    | some g0 =>
      by_cases hpq : q = p
      · subst hpq
        rw [hobj] at hq
        cases hq
        exact ⟨(f g).2.1, by simp [List.getElem?_set_self hlt], hf g⟩
      · exact ⟨g, by simp [List.getElem?_set_ne hpq, hobj], rfl⟩
  cases op with
  | newGroup name c getter =>
    cases getter with
    | none => exact ⟨g, hobj, Or.inl rfl⟩
    | some gt =>
      exact ⟨g, by simp [Op.run, NewGroup, List.getElem?_append_left hlt, hobj], Or.inl rfl⟩
  | getGroup name => exact ⟨g, hobj, Or.inl rfl⟩
  | get q key =>
    by_cases hk : key = ""
    · exact ⟨g, by simp [Op.run, Registry.Get, hk, hobj], Or.inl rfl⟩
    · obtain ⟨g1, h1, h2⟩ := hon _ q (fun g0 => g0.Get key tr) (fun g0 => Get_peers g0 key tr)
      exact ⟨g1, by simpa [Op.run, Registry.Get, hk] using h1, Or.inl h2⟩
  | load q key =>
    obtain ⟨g1, h1, h2⟩ := hon _ q (fun g0 => ((g0.load key tr).1.void, (g0.load key tr).2))
      (fun g0 => load_peers g0 key tr)
    exact ⟨g1, h1, Or.inl h2⟩
  | getLocally q key =>
    obtain ⟨g1, h1, h2⟩ := hon _ q (fun g0 => (Outcome.ret (), (g0.getLocally key tr).2))
      (fun g0 => getLocally_peers g0 key tr)
    exact ⟨g1, h1, Or.inl h2⟩
  | registerPeers q peers =>
    show ∃ g1, (w.onGroup q tr _).2.1.objs[p]? = some g1 ∧ _
    unfold Registry.onGroup
    cases hq : w.objs[q]? with
    | none => exact ⟨g, hobj, Or.inl rfl⟩
    | some g0 =>
      by_cases hpq : q = p
      · subst hpq
        rw [hobj] at hq
        cases hq
        cases hgp : g.peers with
        | some pk0 =>
          exact ⟨g, by simp [Group.RegisterPeers, hgp, List.getElem?_set_self hlt], Or.inl hgp⟩
        | none =>
          cases peers with
          | none =>
            exact ⟨{ g with peers := none },
              by simp [Group.RegisterPeers, hgp, List.getElem?_set_self hlt], Or.inl rfl⟩
          | some pk =>
            refine ⟨{ g with peers := some pk },
              by simp [Group.RegisterPeers, hgp, List.getElem?_set_self hlt], Or.inr ⟨pk, rfl, rfl, rfl, ?_, rfl⟩⟩
            simp [Op.run, Registry.onGroup, hobj, Group.RegisterPeers, hgp]
      · exact ⟨g, by simp [List.getElem?_set_ne hpq, hobj], Or.inl rfl⟩

/-- A picker that is set stays the same picker through any sequence of
operations. -/
theorem runOps_peers {σ : Type} [FreshStore σ] (ops : List Op) :
    ∀ (w : Registry σ) (tr : Trace) (p : Nat) (g : Group σ) (pk : PeerPicker),
      w.objs[p]? = some g → g.peers = some pk →
      ∃ g2, (runOps ops w tr).1.objs[p]? = some g2 ∧ g2.peers = some pk := by
  induction ops with
  | nil => intro w tr p g pk hobj hset; exact ⟨g, hobj, hset⟩
  | cons op rest ih =>
    intro w tr p g pk hobj hset
    obtain ⟨g1, h1, h2⟩ := Op.run_peers op w tr p g hobj
    have hg1 : g1.peers = some pk := by
      rcases h2 with h2 | ⟨pk1, -, hnone, -⟩
      · rw [h2, hset]
      · rw [hnone] at hset; cases hset
    exact ih (op.run w tr).2.1 (op.run w tr).2.2 p g1 pk h1 hg1

/-! ## What the body of `load` returns -/

/-- A peer fetch that returns without error returns the peer's bytes. -/
theorem getFromPeer_ok {σ : Type} (g : Group σ) (peer : Option PeerGetter) (key : String) (tr tr1 : Trace)
    (v : ByteView) (h : g.getFromPeer peer key tr = (Outcome.ret (v, none), tr1)) :
    ∃ p0 b, peer = some p0 ∧ p0.Get g.name key = (b, none) ∧ v = ByteView.mk b := by
  cases peer with
  | none => simp [Group.getFromPeer] at h
  | some p0 =>
    rcases hget : p0.Get g.name key with ⟨b, _ | e⟩
    · simp [Group.getFromPeer, hget] at h
      exact ⟨p0, b, rfl, hget, h.1.symm⟩
    · simp [Group.getFromPeer, hget] at h

/-- A peer fetch that returns an error returns the empty value with it. -/
theorem getFromPeer_err {σ : Type} (g : Group σ) (peer : Option PeerGetter) (key : String) (tr tr1 : Trace)
    (v : ByteView) (e : GoError)
    (h : g.getFromPeer peer key tr = (Outcome.ret (v, some e), tr1)) :
    v = ByteView.mk [] := by
  cases peer with
  | none => simp [Group.getFromPeer] at h
  | some p0 =>
    rcases hget : p0.Get g.name key with ⟨b, _ | e0⟩
    · simp [Group.getFromPeer, hget] at h
    · simp [Group.getFromPeer, hget] at h
      exact h.1.1.symm

/-- What the local retrieval of `load` returns: a boxed `ByteView` in every
case, the loader's bytes without error or the empty value with the loader's
error; the named result `value` is not written. -/
theorem loadLocal_ret (key : String) (f f1 : loadFrame σ) (x : Option ByteView) (e : error)
    (h : Group.loadLocal key f = (Outcome.ret (x, e), f1)) :
    ∃ v, x = some v ∧ f1.value = f.value ∧
      ((e = none ∧ ∃ b, f.g.getter.Get key = (b, none) ∧ v = ByteView.mk b) ∨
        (∃ e0, e = some e0 ∧ v = ByteView.mk [])) := by
  rw [loadLocal_eq] at h
  rcases hget : f.g.getter.Get key with ⟨b, _ | e0⟩
  · rw [getLocally_ok f.g key _ b hget] at h
    simp at h
    obtain ⟨⟨hx, he⟩, hf⟩ := h
    exact ⟨ByteView.mk b, hx.symm, by rw [← hf], Or.inl ⟨he.symm, b, rfl, rfl⟩⟩
  · rw [getLocally_err f.g key _ b e0 hget] at h
    simp at h
    obtain ⟨⟨hx, he⟩, hf⟩ := h
    exact ⟨ByteView.mk [], hx.symm, by rw [← hf], Or.inr ⟨e0, he.symm, rfl⟩⟩

/-- What the body of `load` returns: a boxed `ByteView` in every case; without
error it holds the bytes of the picked peer or of the loader; with an error it
is the empty value, and the named result `value`, if it was empty, still is. -/
theorem loadBody_ret (key : String) (f f1 : loadFrame σ) (x : Option ByteView) (e : error)
    (h : Group.loadBody key f = (Outcome.ret (x, e), f1)) :
    ∃ v, x = some v ∧
      ((e = none ∧
          ((∃ p peer b, f.g.peers = some p ∧ p.PickPeer key = (some peer, true) ∧
              peer.Get f.g.name key = (b, none) ∧ v = ByteView.mk b) ∨
            (∃ b, f.g.getter.Get key = (b, none) ∧ v = ByteView.mk b))) ∨
        (∃ e0, e = some e0 ∧ v = ByteView.mk [] ∧
          (f.value = ByteView.mk [] → f1.value = ByteView.mk []))) := by
  have hloc : ∀ f0 : loadFrame σ, f0.g = f.g → (f.value = ByteView.mk [] → f0.value = ByteView.mk []) →
      Group.loadLocal key f0 = (Outcome.ret (x, e), f1) →
      ∃ v, x = some v ∧
        ((e = none ∧
            ((∃ p peer b, f.g.peers = some p ∧ p.PickPeer key = (some peer, true) ∧
                peer.Get f.g.name key = (b, none) ∧ v = ByteView.mk b) ∨
              (∃ b, f.g.getter.Get key = (b, none) ∧ v = ByteView.mk b))) ∨
          (∃ e0, e = some e0 ∧ v = ByteView.mk [] ∧
            (f.value = ByteView.mk [] → f1.value = ByteView.mk []))) := by
    intro f0 hg hv h0
    obtain ⟨v, hx, hval, hsrc⟩ := loadLocal_ret key f0 f1 x e h0
    rw [hg] at hsrc
    refine ⟨v, hx, ?_⟩
    rcases hsrc with ⟨he, b, hb, hvb⟩ | ⟨e0, he, hv0⟩
    · exact Or.inl ⟨he, Or.inr ⟨b, hb, hvb⟩⟩
    · exact Or.inr ⟨e0, he, hv0, fun hz => by rw [hval]; exact hv hz⟩
  unfold Group.loadBody at h
  split at h
  · rename_i peers hpeers
    split at h
    · rename_i peer hpick
      split at h
      · rename_i v tr hfetch
        obtain ⟨p0, b, hp0, hb, hvb⟩ := getFromPeer_ok f.g peer key _ tr v hfetch
        simp at h
        obtain ⟨⟨hx, he⟩, -⟩ := h
        subst hp0
        exact ⟨v, hx.symm, Or.inl ⟨he.symm, Or.inl ⟨peers, p0, b, hpeers, hpick, hb, hvb⟩⟩⟩
      · rename_i v e1 tr hfetch
        have hv := getFromPeer_err f.g peer key _ tr v e1 hfetch
        exact hloc _ (by rfl) (by intro _; exact hv) h
      · simp at h
      · simp at h
    · exact hloc _ (by rfl) (by intro hz; exact hz) h
  · exact hloc _ (by rfl) (by intro hz; exact hz) h

/-- A `Get` that the store misses, on a group without picker and without call
in flight for the key, whose loader succeeds: the loader's bytes after one
loader invocation. -/
theorem Get_through_loader (g : Group σ) (k : String) (tr : Trace) (b : Bytes)
    (hk : k ≠ "") (hmiss : LocalStore.get g.mainCache k = none)
    (hpeers : g.peers = none) (hload : g.getter.Get k = (b, none))
    (hsole : g.loader.pending k = none) :
    (g.Get k tr).1 = Outcome.ret (ByteView.mk b, none) ∧
    (g.Get k tr).2.2 = tr ++ [Event.cacheGet k, Event.flightDo k, Event.getterGet k,
      Event.cacheAdd k (ByteView.mk b)] := by
  have hbody : Group.loadBody k (loadStart g k (tr ++ [Event.cacheGet k])) = _ :=
    (loadBody_no_picker k _ hpeers).trans (loadLocal_eq k _)
  have hg : (loadStart g k (tr ++ [Event.cacheGet k])).g = g := rfl
  rw [hg, getLocally_ok g k _ b hload] at hbody
  obtain ⟨h1, h2, -⟩ := Get_sole g k tr _ _ hk hmiss hsole hbody
  refine ⟨by rw [h1]; rfl, ?_⟩
  rw [h2]; simp [loadStart]

/-- What `load` returns: with an error the empty value; without error, when no
call for the key was in flight, the bytes of the picked peer or of the loader. -/
theorem load_value (g : Group σ) (key : String) (tr : Trace) (v : ByteView) (e : error)
    (h : (g.load key tr).1 = Outcome.ret (v, e)) :
    (∀ e0, e = some e0 → v = ByteView.mk []) ∧
    (e = none → g.loader.pending key = none →
      (∃ p peer b, g.peers = some p ∧ p.PickPeer key = (some peer, true) ∧
        peer.Get g.name key = (b, none) ∧ v = ByteView.mk b) ∨
      (∃ b, g.getter.Get key = (b, none) ∧ v = ByteView.mk b)) := by
  rw [load_outcome] at h
  cases hp : g.loader.pending key with
  | some c =>
    obtain ⟨h1, h2, -⟩ := singleflight.Do_joined g.loader key (Group.loadBody key)
      (loadStart g key tr) c hp
    rw [h1, h2] at h
    refine ⟨?_, fun _ hno => by cases hno⟩
    intro e0 he
    subst he
    by_cases hw : c.wg = 0
    · rw [if_pos hw] at h
      rcases hv : c.val with _ | x <;> rcases hce : c.err with _ | e1 <;>
        simp [loadOutcome, loadResult, hv, hce, loadStart] at h
      · exact h.1.symm
      · exact h.1.symm
    · rw [if_neg hw] at h
      simp [loadOutcome] at h
  | none =>
    obtain ⟨h1, h2⟩ := singleflight.Do_fresh g.loader key (Group.loadBody key)
      (loadStart g key tr) hp
    rw [h1, h2] at h
    rcases hb : Group.loadBody key (loadStart g key tr) with ⟨o, f1⟩
    rw [hb] at h
    cases o with
    | ret r =>
      rcases r with ⟨x, e1⟩
      obtain ⟨v1, hx, hsrc⟩ := loadBody_ret key (loadStart g key tr) f1 x e1 hb
      subst hx
      rcases hsrc with ⟨he1, hsrc⟩ | ⟨e0, he1, hv1, hval⟩
      · subst he1
        simp [loadOutcome, loadResult] at h
        obtain ⟨hv, he⟩ := h
        subst hv
        exact ⟨fun e0 h0 => (by rw [← he] at h0; cases h0), fun _ _ => hsrc⟩
      · subst he1
        simp [loadOutcome, loadResult] at h
        obtain ⟨hv, he⟩ := h
        exact ⟨fun _ _ => (by rw [← hv]; exact hval rfl), fun h0 => (by rw [← he] at h0; cases h0)⟩
    | panics msg => simp [loadOutcome] at h
    | blocks => simp [loadOutcome] at h

/-! ## The invariant of concurrent callers of `Do` -/

/-- A record that a caller holds is one it has stored. -/
theorem DoPc.owns_of_holds {α : Type} (pc : DoPc α) (c : Nat) (h : pc.holds = some c) :
    pc.owns = some c := by
  cases pc <;> simp [DoPc.holds] at h <;> simp [DoPc.owns, h]

/-- A step that leaves alone what `Frame` says and treats its own caller as
`Own` says keeps the invariant. -/
theorem Flight.Inv.of_frame {α S : Type} (keyOf : Nat → String) (st st1 : Flight α S) (i : Nat)
    (h : Flight.Inv keyOf st) (hf : Flight.Frame keyOf st st1 i)
    (ho : Flight.Own keyOf st st1 i) : Flight.Inv keyOf st1 := by
  refine ⟨?_, ?_, ?_, ?_, ?_, ?_⟩
  · intro c hc
    by_cases hlt : c < st.next
    · rw [hf.owner_old c hlt]
      by_cases he : st.owner c = i
      · rw [he]
        exact ho.owns_kept c (by rw [← he]; exact h.owner_owns c hlt)
      · rw [hf.callers_other _ he]
        exact h.owner_owns c hlt
    · have hn := ho.new_owned c (Nat.le_of_not_lt hlt) hc
      rw [hn.1]
      exact hn.2
  · intro j c hj
    by_cases hji : j = i
    · subst hji
      exact ho.owns_own c hj
    · rw [hf.callers_other j hji] at hj
      obtain ⟨h1, h2⟩ := h.owns_owner j c hj
      exact ⟨Nat.lt_of_lt_of_le h1 hf.next_le, by rw [hf.owner_old c h1]; exact h2⟩
  · intro j c hj
    by_cases hji : j = i
    · subst hji
      exact ho.joins_own c hj
    · rw [hf.callers_other j hji] at hj ⊢
      obtain ⟨h1, h2, h3⟩ := h.joins_owner j c hj
      exact ⟨Nat.lt_of_lt_of_le h1 hf.next_le, by rw [hf.owner_old c h1]; exact h2, h3⟩
  · intro k c hk
    by_cases hki : k = keyOf i
    · subst hki
      exact ho.table_own c hk
    · rw [hf.m_other k hki] at hk
      obtain ⟨h1, h2, h3⟩ := h.table k c hk
      have he : st.owner c ≠ i := by
        intro he
        apply hki
        rw [← h2, he]
      refine ⟨Nat.lt_of_lt_of_le h1 hf.next_le, ?_, ?_⟩
      · rw [hf.owner_old c h1]; exact h2
      · rw [hf.owner_old c h1, hf.callers_other _ he]; exact h3
  · intro j c hj
    by_cases hji : j = i
    · subst hji
      exact ho.holds_own c hj
    · rw [hf.callers_other j hji] at hj
      have hm := h.holds_table j c hj
      by_cases hk : keyOf j = keyOf i
      · rw [hk] at hm ⊢
        have hown := (h.owns_owner j c (DoPc.owns_of_holds _ c hj)).2
        exact ho.table_kept c hm (by rw [hown]; exact hji)
      · rw [hf.m_other _ hk]
        exact hm
  · intro j
    by_cases hji : j = i
    · subst hji
      exact ho.good_own
    · have hg := h.good j
      have hc := hf.callers_other j hji
      have hown : ∀ c, (st.callers j).pc.owns = some c → st1.calls c = st.calls c := by
        intro c hc0
        obtain ⟨h1, h2⟩ := h.owns_owner j c hc0
        exact hf.calls_old c h1 (Or.inl (by rw [h2]; exact hji))
      unfold Flight.Good at hg ⊢
      rw [hc]
      cases hpc : (st.callers j).pc with
      | idle => rw [hpc] at hg; exact hg
      | running c =>
        rw [hpc] at hg hown
        simp only [] at hg ⊢
        rw [hown c rfl]; exact hg
      | assigned c =>
        rw [hpc] at hg hown
        simp only [] at hg ⊢
        rw [hown c rfl]; exact hg
      | released c =>
        rw [hpc] at hg hown
        simp only [] at hg ⊢
        rw [hown c rfl]; exact hg
      | waiting c => trivial
      | returned c ex r =>
        rw [hpc] at hg hown
        cases ex with
        | true =>
          simp only [] at hg ⊢
          rw [hown c rfl]; exact hg
        | false =>
          simp only [] at hg ⊢
          have hlt := (h.joins_owner j c (by rw [hpc]; rfl)).1
          rw [hf.calls_old c hlt (Or.inr hg.1)]; exact hg
      | crashed c msg =>
        rw [hpc] at hg hown
        simp only [] at hg ⊢
        rw [hown c rfl]; exact hg
      | stuck c =>
        rw [hpc] at hg hown
        simp only [] at hg ⊢
        rw [hown c rfl]; exact hg

/-- Every step keeps the invariant. -/
theorem Flight.step_inv {α S : Type} (keyOf : Nat → String)
    (fnOf : Nat → S → Outcome (Option α × error) × S) (st : Flight α S) (i : Nat)
    (h : Flight.Inv keyOf st) : Flight.Inv keyOf (Flight.step keyOf fnOf st i) := by
  have hg := h.good i
  unfold Flight.Good at hg
  cases hpc : (st.callers i).pc with
  | idle =>
    rw [hpc] at hg
    cases hm : st.m (keyOf i) with
    | some c =>
      obtain ⟨t1, t2, t3⟩ := h.table _ _ hm
      have hs : Flight.step keyOf fnOf st i =
          { st with callers := fun q =>
              if q = i then { st.callers i with pc := DoPc.waiting c } else st.callers q } := by
        simp [Flight.step, hpc, hm]
      rw [hs]
      apply Flight.Inv.of_frame keyOf st _ i h
      · constructor
        · intro q hq; simp [hq]
        · exact Nat.le_refl _
        · intro c _; rfl
        · intro c _ _; rfl
        · intro k _; rfl
      · constructor
        · intro c0 h0; simp [hpc, DoPc.owns] at h0
        · intro c0 h1 h2; exact absurd h2 (Nat.not_lt_of_le h1)
        · intro c0 h0; simp [DoPc.owns] at h0
        · intro c0 h0
          simp [DoPc.joins] at h0
          subst h0
          simp
          exact ⟨t1, t2, hg⟩
        · intro c0 h0
          simp only [] at h0
          rw [hm] at h0
          cases h0
          refine ⟨t1, t2, ?_⟩
          have hne : st.owner c ≠ i := by
            intro he
            rw [he, hpc] at t3
            simp [DoPc.holds] at t3
          simp [hne, t3]
        · intro c0 h0 _; exact h0
        · intro c0 h0; simp [DoPc.holds] at h0
        · simp [Flight.Good]
    | none =>
      have hs : Flight.step keyOf fnOf st i =
          { st with
            calls := fun q => if q = st.next then { wg := 1, val := none, err := none } else st.calls q
            next := st.next + 1
            owner := fun q => if q = st.next then i else st.owner q
            m := fun k => if k = keyOf i then some st.next else st.m k
            callers := fun q =>
              if q = i then { st.callers i with pc := DoPc.running st.next } else st.callers q } := by
        simp [Flight.step, hpc, hm]
      rw [hs]
      apply Flight.Inv.of_frame keyOf st _ i h
      · constructor
        · intro q hq; simp [hq]
        · exact Nat.le_succ _
        · intro c hc; simp [Nat.ne_of_lt hc]
        · intro c hc _; simp [Nat.ne_of_lt hc]
        · intro k hk; simp [hk]
      · constructor
        · intro c0 h0; simp [hpc, DoPc.owns] at h0
        · intro c0 h1 h2
          have : c0 = st.next := by simp at h2; omega
          subst this
          simp [DoPc.owns]
        · intro c0 h0
          simp [DoPc.owns] at h0
          subst h0
          simp
        · intro c0 h0; simp [DoPc.joins] at h0
        · intro c0 h0
          simp at h0
          subst h0
          simp [DoPc.holds]
        · intro c0 h0; rw [hm] at h0; cases h0
        · intro c0 h0
          simp [DoPc.holds] at h0
          subst h0
          simp
        · simp [Flight.Good]
          exact hg
  | running c =>
    rw [hpc] at hg
    obtain ⟨hlt, hown⟩ := h.owns_owner i c (by rw [hpc]; rfl)
    have hm := h.holds_table i c (by rw [hpc]; rfl)
    rcases hfn : fnOf i st.shared with ⟨o, s1⟩
    cases o with
    | ret r =>
      have hs : Flight.step keyOf fnOf st i =
          { st with
            calls := fun q =>
              if q = c then { st.calls c with val := r.1, err := r.2 } else st.calls q
            shared := s1
            callers := fun q =>
              if q = i then
                { pc := DoPc.assigned c, runs := (st.callers i).runs + 1, out := some r }
              else st.callers q } := by
        simp [Flight.step, hpc, hfn]
      rw [hs]
      apply Flight.Inv.of_frame keyOf st _ i h
      · constructor
        · intro q hq; simp [hq]
        · exact Nat.le_refl _
        · intro c0 _; rfl
        · intro c0 _ hc0
          by_cases hcc : c0 = c
          · subst hcc
            rcases hc0 with hc0 | hc0
            · exact absurd hown hc0
            · rw [hg.1] at hc0; simp at hc0
          · simp [hcc]
        · intro k _; rfl
      · constructor
        · intro c0 h0
          rw [hpc] at h0
          simp [DoPc.owns] at h0
          subst h0
          simp [DoPc.owns]
        · intro c0 h1 h2; exact absurd h2 (Nat.not_lt_of_le h1)
        · intro c0 h0
          simp [DoPc.owns] at h0
          subst h0
          exact ⟨hlt, hown⟩
        · intro c0 h0
          simp [DoPc.joins] at h0
        · intro c0 h0
          simp only [] at h0
          rw [hm] at h0
          cases h0
          refine ⟨hlt, by rw [hown], ?_⟩
          simp [hown, DoPc.holds]
        · intro c0 h0 _; exact h0
        · intro c0 h0
          simp [DoPc.holds] at h0
          subst h0
          exact hm
        · simp [Flight.Good, hg.1, hg.2.1]
    | panics msg =>
      have hs : Flight.step keyOf fnOf st i =
          { st with
            shared := s1
            callers := fun q =>
              if q = i then
                { pc := DoPc.crashed c msg, runs := (st.callers i).runs + 1, out := none }
              else st.callers q } := by
        simp [Flight.step, hpc, hfn]
      rw [hs]
      apply Flight.Inv.of_frame keyOf st _ i h
      · constructor
        · intro q hq; simp [hq]
        · exact Nat.le_refl _
        · intro c0 _; rfl
        · intro c0 _ _; rfl
        · intro k _; rfl
      · constructor
        · intro c0 h0
          rw [hpc] at h0
          simp [DoPc.owns] at h0
          subst h0
          simp [DoPc.owns]
        · intro c0 h1 h2; exact absurd h2 (Nat.not_lt_of_le h1)
        · intro c0 h0
          simp [DoPc.owns] at h0
          subst h0
          exact ⟨hlt, hown⟩
        · intro c0 h0
          simp [DoPc.joins] at h0
        · intro c0 h0
          simp only [] at h0
          rw [hm] at h0
          cases h0
          refine ⟨hlt, by rw [hown], ?_⟩
          simp [hown, DoPc.holds]
        · intro c0 h0 _; exact h0
        · intro c0 h0
          simp [DoPc.holds] at h0
          subst h0
          exact hm
        · simp [Flight.Good, hg.1, hg.2.1]
    | blocks =>
      have hs : Flight.step keyOf fnOf st i =
          { st with
            shared := s1
            callers := fun q =>
              if q = i then
                { pc := DoPc.stuck c, runs := (st.callers i).runs + 1, out := none }
              else st.callers q } := by
        simp [Flight.step, hpc, hfn]
      rw [hs]
      apply Flight.Inv.of_frame keyOf st _ i h
      · constructor
        · intro q hq; simp [hq]
        · exact Nat.le_refl _
        · intro c0 _; rfl
        · intro c0 _ _; rfl
        · intro k _; rfl
      · constructor
        · intro c0 h0
          rw [hpc] at h0
          simp [DoPc.owns] at h0
          subst h0
          simp [DoPc.owns]
        · intro c0 h1 h2; exact absurd h2 (Nat.not_lt_of_le h1)
        · intro c0 h0
          simp [DoPc.owns] at h0
          subst h0
          exact ⟨hlt, hown⟩
        · intro c0 h0
          simp [DoPc.joins] at h0
        · intro c0 h0
          simp only [] at h0
          rw [hm] at h0
          cases h0
          refine ⟨hlt, by rw [hown], ?_⟩
          simp [hown, DoPc.holds]
        · intro c0 h0 _; exact h0
        · intro c0 h0
          simp [DoPc.holds] at h0
          subst h0
          exact hm
        · simp [Flight.Good, hg.1, hg.2.1]
  | assigned c =>
    rw [hpc] at hg
    obtain ⟨hlt, hown⟩ := h.owns_owner i c (by rw [hpc]; rfl)
    have hm := h.holds_table i c (by rw [hpc]; rfl)
    have hs : Flight.step keyOf fnOf st i =
        { st with
          calls := fun q =>
            if q = c then { st.calls c with wg := (st.calls c).wg - 1 } else st.calls q
          callers := fun q =>
            if q = i then { st.callers i with pc := DoPc.released c } else st.callers q } := by
      simp [Flight.step, hpc]
    rw [hs]
    apply Flight.Inv.of_frame keyOf st _ i h
    · constructor
      · intro q hq; simp [hq]
      · exact Nat.le_refl _
      · intro c0 _; rfl
      · intro c0 _ hc0
        by_cases hcc : c0 = c
        · subst hcc
          rcases hc0 with hc0 | hc0
          · exact absurd hown hc0
          · rw [hg.1] at hc0; simp at hc0
        · simp [hcc]
      · intro k _; rfl
    · constructor
      · intro c0 h0
        rw [hpc] at h0
        simp [DoPc.owns] at h0
        subst h0
        simp [DoPc.owns]
      · intro c0 h1 h2; exact absurd h2 (Nat.not_lt_of_le h1)
      · intro c0 h0
        simp [DoPc.owns] at h0
        subst h0
        exact ⟨hlt, hown⟩
      · intro c0 h0
        simp [DoPc.joins] at h0
      · intro c0 h0
        simp only [] at h0
        rw [hm] at h0
        cases h0
        refine ⟨hlt, by rw [hown], ?_⟩
        simp [hown, DoPc.holds]
      · intro c0 h0 _; exact h0
      · intro c0 h0
        simp [DoPc.holds] at h0
        subst h0
        exact hm
      · simp [Flight.Good, hg.1, hg.2.1, hg.2.2]
  | released c =>
    rw [hpc] at hg
    obtain ⟨hlt, hown⟩ := h.owns_owner i c (by rw [hpc]; rfl)
    have hm := h.holds_table i c (by rw [hpc]; rfl)
    have hs : Flight.step keyOf fnOf st i =
        { st with
          m := fun k => if k = keyOf i then none else st.m k
          callers := fun q =>
            if q = i then
              { st.callers i with
                pc := DoPc.returned c true ((st.calls c).val, (st.calls c).err) }
            else st.callers q } := by
      simp [Flight.step, hpc]
    rw [hs]
    apply Flight.Inv.of_frame keyOf st _ i h
    · constructor
      · intro q hq; simp [hq]
      · exact Nat.le_refl _
      · intro c0 _; rfl
      · intro c0 _ _; rfl
      · intro k hk; simp [hk]
    · constructor
      · intro c0 h0
        rw [hpc] at h0
        simp [DoPc.owns] at h0
        subst h0
        simp [DoPc.owns]
      · intro c0 h1 h2; exact absurd h2 (Nat.not_lt_of_le h1)
      · intro c0 h0
        simp [DoPc.owns] at h0
        subst h0
        exact ⟨hlt, hown⟩
      · intro c0 h0
        simp [DoPc.joins] at h0
      · intro c0 h0
        simp at h0
      · intro c0 h0 hne
        rw [hm] at h0
        cases h0
        exact absurd hown hne
      · intro c0 h0
        simp [DoPc.holds] at h0
      · simp [Flight.Good, hg.1, hg.2.1, hg.2.2]
  | waiting c =>
    obtain ⟨hlt, hkey, hruns, hout⟩ := h.joins_owner i c (by rw [hpc]; rfl)
    by_cases hw : (st.calls c).wg = 0
    · have hs : Flight.step keyOf fnOf st i =
          { st with callers := fun q =>
              if q = i then
                { st.callers i with
                  pc := DoPc.returned c false ((st.calls c).val, (st.calls c).err) }
              else st.callers q } := by
        simp [Flight.step, hpc, hw]
      rw [hs]
      apply Flight.Inv.of_frame keyOf st _ i h
      · constructor
        · intro q hq; simp [hq]
        · exact Nat.le_refl _
        · intro c0 _; rfl
        · intro c0 _ _; rfl
        · intro k _; rfl
      · constructor
        · intro c0 h0; simp [hpc, DoPc.owns] at h0
        · intro c0 h1 h2; exact absurd h2 (Nat.not_lt_of_le h1)
        · intro c0 h0; simp [DoPc.owns] at h0
        · intro c0 h0
          simp [DoPc.joins] at h0
          subst h0
          simp
          exact ⟨hlt, hkey, hruns, hout⟩
        · intro c0 h0
          obtain ⟨t1, t2, t3⟩ := h.table _ _ h0
          refine ⟨t1, t2, ?_⟩
          have hne : st.owner c0 ≠ i := by
            intro he
            rw [he, hpc] at t3
            simp [DoPc.holds] at t3
          simp [hne, t3]
        · intro c0 h0 _; exact h0
        · intro c0 h0; simp [DoPc.holds] at h0
        · simp [Flight.Good, hw]
    · have hs : Flight.step keyOf fnOf st i = st := by
        simp [Flight.step, hpc, hw]
      rw [hs]; exact h
  | returned c ex r =>
    have hs : Flight.step keyOf fnOf st i = st := by
      simp [Flight.step, hpc]
    rw [hs]; exact h
  | crashed c msg =>
    have hs : Flight.step keyOf fnOf st i = st := by
      simp [Flight.step, hpc]
    rw [hs]; exact h
  | stuck c =>
    have hs : Flight.step keyOf fnOf st i = st := by
      simp [Flight.step, hpc]
    rw [hs]; exact h

/-- The invariant holds before any call. -/
theorem Flight.init_inv {α S : Type} (keyOf : Nat → String) (s : S) :
    Flight.Inv keyOf (Flight.init s : Flight α S) := by
  refine ⟨?_, ?_, ?_, ?_, ?_, ?_⟩
  · intro c hc; exact absurd hc (Nat.not_lt_zero c)
  · intro i c h; simp [Flight.init, DoPc.owns] at h
  · intro i c h; simp [Flight.init, DoPc.joins] at h
  · intro k c h; simp [Flight.init] at h
  · intro i c h; simp [Flight.init, DoPc.holds] at h
  · intro i; simp [Flight.Good, Flight.init]

/-- Every schedule keeps the invariant. -/
theorem Flight.run_inv {α S : Type} (keyOf : Nat → String)
    (fnOf : Nat → S → Outcome (Option α × error) × S) (sched : List Nat) :
    ∀ st : Flight α S, Flight.Inv keyOf st → Flight.Inv keyOf (Flight.run keyOf fnOf st sched) := by
  induction sched with
  | nil => intro st h; exact h
  | cons i rest ih =>
    intro st h
    exact ih _ (Flight.step_inv keyOf fnOf st i h)

/-- A step of caller `i` changes no other caller. -/
theorem Flight.step_callers_other {α S : Type} (keyOf : Nat → String)
    (fnOf : Nat → S → Outcome (Option α × error) × S) (st : Flight α S) (i q : Nat)
    (hq : q ≠ i) : (Flight.step keyOf fnOf st i).callers q = st.callers q := by
  unfold Flight.step
  split
  · split <;> simp [hq]
  · split <;> simp [hq]
  · simp [hq]
  · simp [hq]
  · split <;> simp [hq]
  · rfl
  · rfl
  · rfl

/-- Through a step every caller keeps the record it has stored or joined and
what it has returned, and a caller that has entered stays entered. -/
theorem Flight.step_stable {α S : Type} (keyOf : Nat → String)
    (fnOf : Nat → S → Outcome (Option α × error) × S) (st : Flight α S) (i j : Nat) :
    (∀ c, (st.callers j).pc.owns = some c →
      ((Flight.step keyOf fnOf st i).callers j).pc.owns = some c) ∧
    (∀ c, (st.callers j).pc.joins = some c →
      ((Flight.step keyOf fnOf st i).callers j).pc.joins = some c) ∧
    (∀ r, (st.callers j).pc.result = some r →
      ((Flight.step keyOf fnOf st i).callers j).pc.result = some r) ∧
    (((Flight.step keyOf fnOf st i).callers j).pc = DoPc.idle → (st.callers j).pc = DoPc.idle) := by
  by_cases hj : j = i
  · subst hj
    cases hpc : (st.callers j).pc with
    | idle =>
      refine ⟨by simp [DoPc.owns], by simp [DoPc.joins], by simp [DoPc.result], fun _ => rfl⟩
    | running c =>
      rcases hfn : fnOf j st.shared with ⟨o, s1⟩
      cases o <;> simp [Flight.step, hpc, hfn, DoPc.owns, DoPc.joins, DoPc.result]
    | assigned c => simp [Flight.step, hpc, DoPc.owns, DoPc.joins, DoPc.result]
    | released c => simp [Flight.step, hpc, DoPc.owns, DoPc.joins, DoPc.result]
    | waiting c =>
      by_cases hw : (st.calls c).wg = 0 <;>
        simp [Flight.step, hpc, hw, DoPc.owns, DoPc.joins, DoPc.result]
    | returned c ex r => simp [Flight.step, hpc]
    | crashed c msg => simp [Flight.step, hpc]
    | stuck c => simp [Flight.step, hpc]
  · rw [Flight.step_callers_other keyOf fnOf st i j hj]
    exact ⟨fun _ h => h, fun _ h => h, fun _ h => h, fun h => h⟩

/-- Through a schedule every caller keeps the record it has stored or joined
and what it has returned, and a caller that has entered stays entered. -/
theorem Flight.run_stable {α S : Type} (keyOf : Nat → String)
    (fnOf : Nat → S → Outcome (Option α × error) × S) (sched : List Nat) :
    ∀ (st : Flight α S) (j : Nat),
      (∀ c, (st.callers j).pc.owns = some c →
        ((Flight.run keyOf fnOf st sched).callers j).pc.owns = some c) ∧
      (∀ c, (st.callers j).pc.joins = some c →
        ((Flight.run keyOf fnOf st sched).callers j).pc.joins = some c) ∧
      (∀ r, (st.callers j).pc.result = some r →
        ((Flight.run keyOf fnOf st sched).callers j).pc.result = some r) ∧
      (((Flight.run keyOf fnOf st sched).callers j).pc = DoPc.idle →
        (st.callers j).pc = DoPc.idle) := by
  induction sched with
  | nil => intro st j; exact ⟨fun _ h => h, fun _ h => h, fun _ h => h, fun h => h⟩
  | cons i rest ih =>
    intro st j
    obtain ⟨a1, a2, a3, a4⟩ := Flight.step_stable keyOf fnOf st i j
    obtain ⟨b1, b2, b3, b4⟩ := ih (Flight.step keyOf fnOf st i) j
    exact ⟨fun c h => b1 c (a1 c h), fun c h => b2 c (a2 c h), fun r h => b3 r (a3 r h),
      fun h => a4 (b4 h)⟩

/-- A caller in flight that has stored a record still holds it. -/
theorem DoPc.holds_of_owns {α : Type} (pc : DoPc α) (c : Nat) (h : pc.owns = some c)
    (hf : pc.inFlight = true) : pc.holds = some c := by
  cases pc <;> simp [DoPc.inFlight] at hf <;> simp [DoPc.owns] at h <;> simp [DoPc.holds, h]

/-- A caller that has entered has stored a record or joined one. -/
theorem DoPc.owns_or_joins {α : Type} (pc : DoPc α) (h : pc ≠ DoPc.idle) :
    (∃ c, pc.owns = some c) ∨ (∃ c, pc.joins = some c) := by
  cases pc with
  | idle => exact absurd rfl h
  | running c => exact Or.inl ⟨c, rfl⟩
  | assigned c => exact Or.inl ⟨c, rfl⟩
  | released c => exact Or.inl ⟨c, rfl⟩
  | waiting c => exact Or.inr ⟨c, rfl⟩
  | returned c ex r =>
    cases ex with
    | true => exact Or.inl ⟨c, rfl⟩
    | false => exact Or.inr ⟨c, rfl⟩
  | crashed c msg => exact Or.inl ⟨c, rfl⟩
  | stuck c => exact Or.inl ⟨c, rfl⟩

/-- Once the wait group of a record is released, the caller that stored it has
run its body, once, and the record holds what the body returned; that caller
is about to delete the key or has returned the record's pair. -/
theorem Flight.Inv.executor_done {α S : Type} (keyOf : Nat → String) (st : Flight α S)
    (h : Flight.Inv keyOf st) (e c : Nat) (hown : (st.callers e).pc.owns = some c)
    (hw : (st.calls c).wg = 0) :
    (st.callers e).out = some ((st.calls c).val, (st.calls c).err) ∧ (st.callers e).runs = 1 ∧
    ((st.callers e).pc = DoPc.released c ∨
      (st.callers e).pc = DoPc.returned c true ((st.calls c).val, (st.calls c).err)) := by
  have hg := h.good e
  unfold Flight.Good at hg
  cases hpc : (st.callers e).pc with
  | idle => rw [hpc] at hown; simp [DoPc.owns] at hown
  | waiting c1 => rw [hpc] at hown; simp [DoPc.owns] at hown
  | running c1 =>
    rw [hpc] at hown hg; simp [DoPc.owns] at hown; subst hown
    rw [hg.1] at hw; simp at hw
  | assigned c1 =>
    rw [hpc] at hown hg; simp [DoPc.owns] at hown; subst hown
    rw [hg.1] at hw; simp at hw
  | crashed c1 msg =>
    rw [hpc] at hown hg; simp [DoPc.owns] at hown; subst hown
    rw [hg.1] at hw; simp at hw
  | stuck c1 =>
    rw [hpc] at hown hg; simp [DoPc.owns] at hown; subst hown
    rw [hg.1] at hw; simp at hw
  | released c1 =>
    rw [hpc] at hown hg; simp [DoPc.owns] at hown; subst hown
    exact ⟨hg.2.1, hg.2.2, Or.inl rfl⟩
  | returned c1 ex r =>
    rw [hpc] at hown hg
    cases ex with
    | false => simp [DoPc.owns] at hown
    | true =>
      simp [DoPc.owns] at hown; subst hown
      simp only [] at hg
      obtain ⟨-, g2, g3, g4⟩ := hg
      subst g2
      exact ⟨g3, g4, Or.inr rfl⟩

/-- When every caller with the key that has entered is still in flight, they
all hold the record that the map has under the key, and the one that stored it
is its owner. -/
theorem Flight.Inv.in_flight_share {α S : Type} (keyOf : Nat → String) (st : Flight α S)
    (h : Flight.Inv keyOf st) (key : String)
    (hall : ∀ i, keyOf i = key → (st.callers i).pc ≠ DoPc.idle →
      (st.callers i).pc.inFlight = true)
    (i c : Nat) (hk : keyOf i = key) :
    ((st.callers i).pc.owns = some c → st.m key = some c ∧ st.owner c = i) ∧
    ((st.callers i).pc.joins = some c → st.m key = some c) := by
  have hown : ∀ j c0, keyOf j = key → (st.callers j).pc.owns = some c0 →
      st.m key = some c0 ∧ st.owner c0 = j := by
    intro j c0 hkj ho
    have hne : (st.callers j).pc ≠ DoPc.idle := by
      intro hi; rw [hi] at ho; simp [DoPc.owns] at ho
    have hh := DoPc.holds_of_owns _ c0 ho (hall j hkj hne)
    have hm := h.holds_table j c0 hh
    rw [hkj] at hm
    exact ⟨hm, (h.owns_owner j c0 ho).2⟩
  refine ⟨hown i c hk, ?_⟩
  intro hj
  obtain ⟨hlt, hkey, -⟩ := h.joins_owner i c hj
  exact (hown (st.owner c) c (by rw [hkey, hk]) (h.owner_owns c hlt)).1

/-- A caller that has stored the record `c` and has returned `r` stands at
`returned c true r`. -/
theorem DoPc.returned_of_owns {α : Type} (pc : DoPc α) (c : Nat) (r : Option α × error)
    (ho : pc.owns = some c) (hr : pc.result = some r) : pc = DoPc.returned c true r := by
  cases pc with
  | returned c1 ex r1 =>
    cases ex <;> simp [DoPc.owns] at ho
    simp [DoPc.result] at hr
    rw [ho, hr]
  | _ => simp [DoPc.result] at hr

/-- A caller that has joined the record `c` and has returned `r` stands at
`returned c false r`. -/
theorem DoPc.returned_of_joins {α : Type} (pc : DoPc α) (c : Nat) (r : Option α × error)
    (hj : pc.joins = some c) (hr : pc.result = some r) : pc = DoPc.returned c false r := by
  cases pc with
  | returned c1 ex r1 =>
    cases ex <;> simp [DoPc.joins] at hj
    simp [DoPc.result] at hr
    rw [hj, hr]
  | _ => simp [DoPc.result] at hr

/-- Callers that are all in flight at one moment share one execution: if in a
reached state every caller with the key that ever enters (up to the end of a
further schedule) is in flight, then at the end there is one caller `e` whose
record all of them hold; all but `e` have joined it without running their own
body, and whoever has returned has returned what the body of `e` returned,
after `e` has run it once. -/
theorem Flight.Inv.all_concurrent {α S : Type} (keyOf : Nat → String)
    (fnOf : Nat → S → Outcome (Option α × error) × S) (st : Flight α S)
    (h : Flight.Inv keyOf st) (sched2 : List Nat) (key : String)
    (hall : ∀ i, keyOf i = key →
      ((Flight.run keyOf fnOf st sched2).callers i).pc ≠ DoPc.idle →
      (st.callers i).pc.inFlight = true) :
    ∃ e, ∀ i, keyOf i = key →
      ((Flight.run keyOf fnOf st sched2).callers i).pc ≠ DoPc.idle →
      (∃ c, ((Flight.run keyOf fnOf st sched2).callers e).pc.owns = some c ∧
        (i = e ∨
          (((Flight.run keyOf fnOf st sched2).callers i).pc.joins = some c ∧
            ((Flight.run keyOf fnOf st sched2).callers i).runs = 0))) ∧
      (∀ r, ((Flight.run keyOf fnOf st sched2).callers i).pc.result = some r →
        ((Flight.run keyOf fnOf st sched2).callers e).out = some r ∧
        ((Flight.run keyOf fnOf st sched2).callers e).runs = 1) := by
  have inv2 := Flight.run_inv keyOf fnOf sched2 st h
  have hall1 : ∀ i, keyOf i = key → (st.callers i).pc ≠ DoPc.idle →
      (st.callers i).pc.inFlight = true := by
    intro i hk hne
    exact hall i hk (fun h2 => hne ((Flight.run_stable keyOf fnOf sched2 st i).2.2.2 h2))
  have hne1 : ∀ i, (st.callers i).pc.inFlight = true → (st.callers i).pc ≠ DoPc.idle := by
    intro i hf hi
    rw [hi] at hf
    simp [DoPc.inFlight] at hf
  cases hm : st.m key with
  | none =>
    refine ⟨0, ?_⟩
    intro i hk hne2
    have hne := hne1 i (hall i hk hne2)
    exfalso
    rcases DoPc.owns_or_joins _ hne with ⟨c, ho⟩ | ⟨c, hj⟩
    · have := ((Flight.Inv.in_flight_share keyOf st h key hall1 i c hk).1 ho).1
      rw [hm] at this; cases this
    · have := (Flight.Inv.in_flight_share keyOf st h key hall1 i c hk).2 hj
      rw [hm] at this; cases this
  | some c =>
    obtain ⟨hlt, -, -⟩ := h.table key c hm
    have he2 : ((Flight.run keyOf fnOf st sched2).callers (st.owner c)).pc.owns = some c :=
      (Flight.run_stable keyOf fnOf sched2 st (st.owner c)).1 c (h.owner_owns c hlt)
    refine ⟨st.owner c, ?_⟩
    intro i hk hne2
    have hne := hne1 i (hall i hk hne2)
    rcases DoPc.owns_or_joins _ hne with ⟨c1, ho⟩ | ⟨c1, hj⟩
    · obtain ⟨hm1, hown⟩ := (Flight.Inv.in_flight_share keyOf st h key hall1 i c1 hk).1 ho
      rw [hm] at hm1
      cases hm1
      refine ⟨⟨c, he2, Or.inl hown.symm⟩, ?_⟩
      intro r hr
      rw [← hown] at hr
      have hpc := DoPc.returned_of_owns _ c r he2 hr
      have hg := inv2.good (st.owner c)
      unfold Flight.Good at hg
      rw [hpc] at hg
      exact ⟨hg.2.2.1, hg.2.2.2⟩
    · have hm1 := (Flight.Inv.in_flight_share keyOf st h key hall1 i c1 hk).2 hj
      rw [hm] at hm1
      cases hm1
      have hj2 := (Flight.run_stable keyOf fnOf sched2 st i).2.1 c hj
      refine ⟨⟨c, he2, Or.inr ⟨hj2, (inv2.joins_owner i c hj2).2.2.1⟩⟩, ?_⟩
      intro r hr
      have hpc := DoPc.returned_of_joins _ c r hj2 hr
      have hg := inv2.good i
      unfold Flight.Good at hg
      rw [hpc] at hg
      obtain ⟨d1, d2, -⟩ := Flight.Inv.executor_done keyOf _ inv2 (st.owner c) c he2 hg.1
      exact ⟨by rw [d1, hg.2], d2⟩

/-- When every body returns, no caller ever crashes or hangs. -/
theorem Flight.step_alive {α S : Type} (keyOf : Nat → String)
    (fnOf : Nat → S → Outcome (Option α × error) × S)
    (hret : ∀ i s, ∃ r s1, fnOf i s = (Outcome.ret r, s1)) (st : Flight α S) (i : Nat)
    (h : ∀ j, (st.callers j).pc.alive = true) :
    ∀ j, ((Flight.step keyOf fnOf st i).callers j).pc.alive = true := by
  intro j
  by_cases hj : j = i
  · subst hj
    have hj := h j
    cases hpc : (st.callers j).pc with
    | idle =>
      cases hm : st.m (keyOf j) <;> simp [Flight.step, hpc, hm, DoPc.alive]
    | running c =>
      obtain ⟨r, s1, hfn⟩ := hret j st.shared
      simp [Flight.step, hpc, hfn, DoPc.alive]
    | assigned c => simp [Flight.step, hpc, DoPc.alive]
    | released c => simp [Flight.step, hpc, DoPc.alive]
    | waiting c =>
      by_cases hw : (st.calls c).wg = 0 <;> simp [Flight.step, hpc, hw, DoPc.alive]
    | returned c ex r => simp [Flight.step, hpc, DoPc.alive]
    | crashed c msg => rw [hpc] at hj; simp [DoPc.alive] at hj
    | stuck c => rw [hpc] at hj; simp [DoPc.alive] at hj
  · rw [Flight.step_callers_other keyOf fnOf st i j hj]
    exact h j

/-- When every body returns, no caller crashes or hangs in a schedule. -/
theorem Flight.run_alive {α S : Type} (keyOf : Nat → String)
    (fnOf : Nat → S → Outcome (Option α × error) × S)
    (hret : ∀ i s, ∃ r s1, fnOf i s = (Outcome.ret r, s1)) (sched : List Nat) :
    ∀ st : Flight α S, (∀ j, (st.callers j).pc.alive = true) →
      ∀ j, ((Flight.run keyOf fnOf st sched).callers j).pc.alive = true := by
  induction sched with
  | nil => intro st h; exact h
  | cons i rest ih =>
    intro st h
    exact ih _ (Flight.step_alive keyOf fnOf hret st i h)

/-- A caller that has stored a record and whose body returns has returned after
three steps of its own, which change no other caller. -/
theorem Flight.owner_finishes {α S : Type} (keyOf : Nat → String)
    (fnOf : Nat → S → Outcome (Option α × error) × S)
    (hret : ∀ i s, ∃ r s1, fnOf i s = (Outcome.ret r, s1)) (st : Flight α S) (e c : Nat)
    (hown : (st.callers e).pc.owns = some c) (hal : (st.callers e).pc.alive = true) :
    (∃ r, ((Flight.run keyOf fnOf st [e, e, e]).callers e).pc = DoPc.returned c true r) ∧
    ∀ q, q ≠ e → (Flight.run keyOf fnOf st [e, e, e]).callers q = st.callers q := by
  constructor
  · cases hpc : (st.callers e).pc with
    | idle => rw [hpc] at hown; simp [DoPc.owns] at hown
    | waiting c1 => rw [hpc] at hown; simp [DoPc.owns] at hown
    | crashed c1 msg => rw [hpc] at hal; simp [DoPc.alive] at hal
    | stuck c1 => rw [hpc] at hal; simp [DoPc.alive] at hal
    | running c1 =>
      rw [hpc] at hown; simp [DoPc.owns] at hown; subst hown
      obtain ⟨r, s1, hfn⟩ := hret e st.shared
      simp [Flight.run, Flight.step, hpc, hfn]
    | assigned c1 =>
      rw [hpc] at hown; simp [DoPc.owns] at hown; subst hown
      simp [Flight.run, Flight.step, hpc]
    | released c1 =>
      rw [hpc] at hown; simp [DoPc.owns] at hown; subst hown
      simp [Flight.run, Flight.step, hpc]
    | returned c1 ex r =>
      rw [hpc] at hown
      cases ex with
      | false => simp [DoPc.owns] at hown
      | true =>
        simp [DoPc.owns] at hown; subst hown
        simp [Flight.run, Flight.step, hpc]
  · intro q hq
    simp only [Flight.run, List.foldl]
    rw [Flight.step_callers_other keyOf fnOf _ e q hq,
      Flight.step_callers_other keyOf fnOf _ e q hq,
      Flight.step_callers_other keyOf fnOf _ e q hq]

/-- A schedule in two parts. -/
theorem Flight.run_append {α S : Type} (keyOf : Nat → String)
    (fnOf : Nat → S → Outcome (Option α × error) × S) (st : Flight α S) (a b : List Nat) :
    Flight.run keyOf fnOf st (a ++ b) = Flight.run keyOf fnOf (Flight.run keyOf fnOf st a) b := by
  simp [Flight.run, List.foldl_append]

/-- A waiting caller whose record is released returns the record's pair at its
next step. -/
theorem Flight.waiter_returns {α S : Type} (keyOf : Nat → String)
    (fnOf : Nat → S → Outcome (Option α × error) × S) (st : Flight α S) (i c : Nat)
    (hpc : (st.callers i).pc = DoPc.waiting c) (hw : (st.calls c).wg = 0) :
    ((Flight.step keyOf fnOf st i).callers i).pc =
      DoPc.returned c false ((st.calls c).val, (st.calls c).err) := by
  simp [Flight.step, hpc, hw]

/-- When every body returns, a caller that has entered `Do` can be brought to
its return: by its own steps if it has stored the record, and after the steps
of the caller that has stored the record if it waits for it. -/
theorem Flight.Inv.entered_can_return {α S : Type} (keyOf : Nat → String)
    (fnOf : Nat → S → Outcome (Option α × error) × S)
    (hret : ∀ i s, ∃ r s1, fnOf i s = (Outcome.ret r, s1)) (st : Flight α S)
    (h : Flight.Inv keyOf st) (hal : ∀ j, (st.callers j).pc.alive = true) (i : Nat)
    (hne : (st.callers i).pc ≠ DoPc.idle) :
    ∃ extra r, ((Flight.run keyOf fnOf st extra).callers i).pc.result = some r := by
  rcases DoPc.owns_or_joins _ hne with ⟨c, ho⟩ | ⟨c, hj⟩
  · obtain ⟨⟨r, hr⟩, -⟩ := Flight.owner_finishes keyOf fnOf hret st i c ho (hal i)
    exact ⟨[i, i, i], r, by rw [hr]; rfl⟩
  · cases hpc : (st.callers i).pc with
    | waiting c1 =>
      rw [hpc] at hj
      simp [DoPc.joins] at hj
      subst hj
      obtain ⟨hlt, -⟩ := h.joins_owner i c1 (by rw [hpc]; rfl)
      have hoe := h.owner_owns c1 hlt
      have hie : i ≠ st.owner c1 := by
        intro hie
        rw [← hie, hpc] at hoe
        simp [DoPc.owns] at hoe
      obtain ⟨⟨r, hr⟩, hoth⟩ := Flight.owner_finishes keyOf fnOf hret st (st.owner c1) c1 hoe
        (hal _)
      have inv1 := Flight.run_inv keyOf fnOf [st.owner c1, st.owner c1, st.owner c1] st h
      have hg := inv1.good (st.owner c1)
      unfold Flight.Good at hg
      rw [hr] at hg
      have hw := hg.1
      have hpc1 : ((Flight.run keyOf fnOf st [st.owner c1, st.owner c1, st.owner c1]).callers
          i).pc = DoPc.waiting c1 := by
        rw [hoth i hie, hpc]
      have hstep := Flight.waiter_returns keyOf fnOf _ i c1 hpc1 hw
      have hres : ((Flight.run keyOf fnOf st
          ([st.owner c1, st.owner c1, st.owner c1] ++ [i])).callers i).pc.result =
          some (((Flight.run keyOf fnOf st [st.owner c1, st.owner c1, st.owner c1]).calls c1).val,
            ((Flight.run keyOf fnOf st [st.owner c1, st.owner c1, st.owner c1]).calls c1).err) := by
        rw [Flight.run_append]
        show ((Flight.step keyOf fnOf _ i).callers i).pc.result = _
        rw [hstep]
        rfl
      exact ⟨_, _, hres⟩
    | returned c1 ex r => exact ⟨[], r, by simp [Flight.run, hpc, DoPc.result]⟩
    | idle => exact absurd hpc hne
    | running c1 => rw [hpc] at hj; simp [DoPc.joins] at hj
    | assigned c1 => rw [hpc] at hj; simp [DoPc.joins] at hj
    | released c1 => rw [hpc] at hj; simp [DoPc.joins] at hj
    | crashed c1 msg => rw [hpc] at hj; simp [DoPc.joins] at hj
    | stuck c1 => rw [hpc] at hj; simp [DoPc.joins] at hj

/-- When every body returns, every caller can be brought to its return. -/
theorem Flight.Inv.can_return {α S : Type} (keyOf : Nat → String)
    (fnOf : Nat → S → Outcome (Option α × error) × S)
    (hret : ∀ i s, ∃ r s1, fnOf i s = (Outcome.ret r, s1)) (st : Flight α S)
    (h : Flight.Inv keyOf st) (hal : ∀ j, (st.callers j).pc.alive = true) (i : Nat) :
    ∃ extra r, ((Flight.run keyOf fnOf st extra).callers i).pc.result = some r := by
  by_cases hne : (st.callers i).pc = DoPc.idle
  · have hne1 : ((Flight.step keyOf fnOf st i).callers i).pc ≠ DoPc.idle := by
      cases hm : st.m (keyOf i) <;> simp [Flight.step, hne, hm]
    obtain ⟨extra, r, hr⟩ := Flight.Inv.entered_can_return keyOf fnOf hret _
      (Flight.step_inv keyOf fnOf st i h) (Flight.step_alive keyOf fnOf hret st i hal) i hne1
    exact ⟨i :: extra, r, hr⟩
  · exact Flight.Inv.entered_can_return keyOf fnOf hret st h hal i hne

/-- No caller runs its body more than once. -/
theorem Flight.Inv.runs_le {α S : Type} (keyOf : Nat → String) (st : Flight α S)
    (h : Flight.Inv keyOf st) (i : Nat) : (st.callers i).runs ≤ 1 := by
  have hg := h.good i
  unfold Flight.Good at hg
  cases hpc : (st.callers i).pc with
  | idle => rw [hpc] at hg; rw [hg.1]; exact Nat.zero_le 1
  | running c => rw [hpc] at hg; rw [hg.2.1]; exact Nat.zero_le 1
  | assigned c => rw [hpc] at hg; rw [hg.2.2]
  | released c => rw [hpc] at hg; rw [hg.2.2]
  | waiting c =>
    rw [(h.joins_owner i c (by rw [hpc]; rfl)).2.2.1]; exact Nat.zero_le 1
  | returned c ex r =>
    cases ex with
    | true => rw [hpc] at hg; rw [hg.2.2.2]
    | false => rw [(h.joins_owner i c (by rw [hpc]; rfl)).2.2.1]; exact Nat.zero_le 1
  | crashed c msg => rw [hpc] at hg; rw [hg.2.1]
  | stuck c => rw [hpc] at hg; rw [hg.2.1]

/-- What a caller has noted as the result of its body is what its body
returned on some state. -/
theorem Flight.run_out {α S : Type} (keyOf : Nat → String)
    (fnOf : Nat → S → Outcome (Option α × error) × S) (sched : List Nat) :
    ∀ st : Flight α S,
      (∀ i r, (st.callers i).out = some r → ∃ s s1, fnOf i s = (Outcome.ret r, s1)) →
      ∀ i r, ((Flight.run keyOf fnOf st sched).callers i).out = some r →
        ∃ s s1, fnOf i s = (Outcome.ret r, s1) := by
  induction sched with
  | nil => intro st h; exact h
  | cons j rest ih =>
    intro st h
    apply ih
    intro i r hr
    by_cases hij : i = j
    · subst hij
      cases hpc : (st.callers i).pc with
      | idle =>
        cases hm : st.m (keyOf i) <;> simp [Flight.step, hpc, hm] at hr <;> exact h i r hr
      | running c =>
        rcases hfn : fnOf i st.shared with ⟨o, s1⟩
        cases o with
        | ret r0 =>
          simp [Flight.step, hpc, hfn] at hr
          subst hr
          exact ⟨st.shared, s1, hfn⟩
        | panics msg => simp [Flight.step, hpc, hfn] at hr
        | blocks => simp [Flight.step, hpc, hfn] at hr
      | assigned c => simp [Flight.step, hpc] at hr; exact h i r hr
      | released c => simp [Flight.step, hpc] at hr; exact h i r hr
      | waiting c =>
        by_cases hw : (st.calls c).wg = 0 <;> simp [Flight.step, hpc, hw] at hr <;>
          exact h i r hr
      | returned c ex r0 => simp [Flight.step, hpc] at hr; exact h i r hr
      | crashed c msg => simp [Flight.step, hpc] at hr; exact h i r hr
      | stuck c => simp [Flight.step, hpc] at hr; exact h i r hr
    · rw [Flight.step_callers_other keyOf fnOf st j i hij] at hr
      exact h i r hr

/-- Whatever a caller of `Do` returns, in any schedule, is what the body of
some caller with its key returned on some state. -/
theorem Flight.result_from_body {α S : Type} (keyOf : Nat → String)
    (fnOf : Nat → S → Outcome (Option α × error) × S) (s0 : S) (sched : List Nat) (i : Nat)
    (r : Option α × error)
    (hr : ((Flight.run keyOf fnOf (Flight.init s0) sched).callers i).pc.result = some r) :
    ∃ e s s1, keyOf e = keyOf i ∧ fnOf e s = (Outcome.ret r, s1) := by
  have inv := Flight.run_inv keyOf fnOf sched (Flight.init s0) (Flight.init_inv keyOf s0)
  have hout := Flight.run_out keyOf fnOf sched (Flight.init s0)
    (by intro i r h; simp [Flight.init] at h)
  have hg := inv.good i
  unfold Flight.Good at hg
  cases hpc : ((Flight.run keyOf fnOf (Flight.init s0) sched).callers i).pc with
  | returned c ex r0 =>
    rw [hpc] at hr hg
    simp [DoPc.result] at hr
    subst hr
    cases ex with
    | true =>
      obtain ⟨s, s1, hs⟩ := hout i r0 hg.2.2.1
      exact ⟨i, s, s1, rfl, hs⟩
    | false =>
      obtain ⟨hlt, hkey, -⟩ := inv.joins_owner i c (by rw [hpc]; rfl)
      obtain ⟨d1, -, -⟩ := Flight.Inv.executor_done keyOf _ inv _ c (inv.owner_owns c hlt) hg.1
      rw [← hg.2] at d1
      obtain ⟨s, s1, hs⟩ := hout _ r0 d1
      exact ⟨_, s, s1, hkey, hs⟩
  | idle => rw [hpc] at hr; simp [DoPc.result] at hr
  | running c => rw [hpc] at hr; simp [DoPc.result] at hr
  | assigned c => rw [hpc] at hr; simp [DoPc.result] at hr
  | released c => rw [hpc] at hr; simp [DoPc.result] at hr
  | waiting c => rw [hpc] at hr; simp [DoPc.result] at hr
  | crashed c msg => rw [hpc] at hr; simp [DoPc.result] at hr
  | stuck c => rw [hpc] at hr; simp [DoPc.result] at hr

/-- A caller that runs its four steps alone on the coalescer without calls
performs `Do`: it returns the pair of its body, leaves the state as the body
left it and leaves no record in the map. -/
theorem Flight.alone_is_Do {α S : Type} (key : String)
    (fn : S → Outcome (Option α × error) × S) (s s1 : S) (r : Option α × error)
    (hfn : fn s = (Outcome.ret r, s1)) :
    ((Flight.run (fun _ => key) (fun _ => fn) (Flight.init s) [0, 0, 0, 0]).callers 0).pc =
      DoPc.returned 0 true r ∧
    (Flight.run (fun _ => key) (fun _ => fn) (Flight.init s) [0, 0, 0, 0]).shared = s1 ∧
    (Flight.run (fun _ => key) (fun _ => fn) (Flight.init s) [0, 0, 0, 0]).m key = none ∧
    ((singleflight.Group.mk none : singleflight.Group α).Do key fn s).1 = Outcome.ret r ∧
    ((singleflight.Group.mk none : singleflight.Group α).Do key fn s).2.2 = s1 := by
  obtain ⟨d1, d2, -⟩ := singleflight.Do_sole (singleflight.Group.mk none) key fn s s1 r rfl hfn
  refine ⟨?_, ?_, ?_, d1, d2⟩ <;> simp [Flight.run, Flight.step, Flight.init, hfn]

/-- The body of `load` panics only by calling `Get` on a nil peer. -/
theorem loadBody_panics (key : String) (f f1 : loadFrame σ) (msg : String)
    (h : Group.loadBody key f = (Outcome.panics msg, f1)) :
    msg = "invalid memory address or nil pointer dereference" := by
  have hloc : ∀ f0 : loadFrame σ, Group.loadLocal key f0 ≠ (Outcome.panics msg, f1) := by
    intro f0 h0
    rw [loadLocal_eq] at h0
    simp at h0
  unfold Group.loadBody at h
  split at h
  · split at h
    · rename_i peer hpick
      split at h
      · simp at h
      · exact absurd h (hloc _)
      · rename_i msg1 tr hfetch
        simp at h
        cases peer with
        | none =>
          simp [Group.getFromPeer] at hfetch
          rw [← h.1, ← hfetch.1]
        | some p0 =>
          rcases hget : p0.Get f.g.name key with ⟨b, _ | e⟩ <;>
            simp [Group.getFromPeer, hget] at hfetch
      · simp at h
    · exact absurd h (hloc _)
  · exact absurd h (hloc _)

/-! ## Concurrent callers of `RegisterPeers` -/

/-- While the picker is set and no caller of `RegisterPeers` stands between its
test and its assignment, a move leaves the picker as it is, and no caller gets
between test and assignment. -/
theorem RegSystem.move_keeps_peers (st : RegSystem σ) (pk : PeerPicker) (mv : Move)
    (hset : st.g.peers = some pk) (hno : ∀ i p, st.regs i ≠ RegPc.checked p) :
    (st.step mv).g.peers = some pk ∧ ∀ i p, (st.step mv).regs i ≠ RegPc.checked p := by
  cases mv with
  | register j =>
    cases hj : st.regs j with
    | start p0 =>
      have hs : st.step (Move.register j) =
          { st with regs := fun q => if q = j then RegPc.panicked else st.regs q } := by
        simp [RegSystem.step, hj, hset]
      rw [hs]
      refine ⟨hset, ?_⟩
      intro i p
      by_cases hij : i = j
      · simp [hij]
      · simp [hij]; exact hno i p
    | checked p0 => exact absurd hj (hno j p0)
    | returned =>
      have hs : st.step (Move.register j) = st := by simp [RegSystem.step, hj]
      rw [hs]; exact ⟨hset, hno⟩
    | panicked =>
      have hs : st.step (Move.register j) = st := by simp [RegSystem.step, hj]
      rw [hs]; exact ⟨hset, hno⟩
  | get key => exact ⟨by simp [RegSystem.step, Get_peers, hset], hno⟩
  | load key => exact ⟨by simp [RegSystem.step, load_peers, hset], hno⟩
  | getLocally key => exact ⟨by simp [RegSystem.step, getLocally_peers, hset], hno⟩

/-- While the picker is set and no caller of `RegisterPeers` stands between its
test and its assignment, no schedule changes the picker. -/
theorem RegSystem.schedule_keeps_peers (moves : List Move) :
    ∀ (st : RegSystem σ) (pk : PeerPicker), st.g.peers = some pk →
      (∀ i p, st.regs i ≠ RegPc.checked p) →
      (st.run moves).g.peers = some pk ∧ ∀ i p, (st.run moves).regs i ≠ RegPc.checked p := by
  induction moves with
  | nil => intro st pk hset hno; exact ⟨hset, hno⟩
  | cons mv rest ih =>
    intro st pk hset hno
    obtain ⟨h1, h2⟩ := RegSystem.move_keeps_peers st pk mv hset hno
    exact ih (st.step mv) pk h1 h2

/-- A caller of `RegisterPeers` whose two steps follow each other performs the
method: the group is left as the method leaves it, and the caller has returned
or panicked as the method does. -/
theorem RegSystem.alone (st : RegSystem σ) (i : Nat) (p : Option PeerPicker)
    (hstart : st.regs i = RegPc.start p) :
    ((st.step (Move.register i)).step (Move.register i)).g = (st.g.RegisterPeers p).2 ∧
    (((st.g.RegisterPeers p).1 = Outcome.ret () ∧
        ((st.step (Move.register i)).step (Move.register i)).regs i = RegPc.returned) ∨
      ((st.g.RegisterPeers p).1 = Outcome.panics "RegisterPeerPicker called more than once" ∧
        ((st.step (Move.register i)).step (Move.register i)).regs i = RegPc.panicked)) := by
  cases hp : st.g.peers with
  | none =>
    refine ⟨?_, Or.inl ⟨?_, ?_⟩⟩ <;> simp [RegSystem.step, hstart, hp, Group.RegisterPeers]
  | some pk0 =>
    refine ⟨?_, Or.inr ⟨?_, ?_⟩⟩ <;> simp [RegSystem.step, hstart, hp, Group.RegisterPeers]

/-! ## The claims -/

/-- C1. Read-through on miss: for a non-empty key `k` that the store misses,
on a group without peer picker whose loader returns `(b, nil)` for `k`, a
`Get(k)` that finds no call for `k` in flight returns the value with bytes `b`
and a nil error; the calls it makes are, in order, the store lookup, `Do`, one
loader invocation and one store add of `(k, that value)`, and the store it
leaves is the old one after that add. -/
theorem Get_miss_reads_through (g : Group σ) (k : String) (tr : Trace) (b : Bytes)
    (hk : k ≠ "") (hmiss : LocalStore.get g.mainCache k = none)
    (hpeers : g.peers = none) (hload : g.getter.Get k = (b, none))
    (hsole : g.loader.pending k = none) :
    (g.Get k tr).1 = Outcome.ret (ByteView.mk b, none) ∧
    (g.Get k tr).2.2 = tr ++ [Event.cacheGet k, Event.flightDo k, Event.getterGet k,
      Event.cacheAdd k (ByteView.mk b)] ∧
    loaderCalls (g.Get k tr).2.2 = loaderCalls tr + 1 ∧
    storeAdds (g.Get k tr).2.2 = storeAdds tr ++ [(k, ByteView.mk b)] ∧
    (g.Get k tr).2.1.mainCache = LocalStore.add g.mainCache k (ByteView.mk b) := by
  have hbody := loadLocal_eq k (loadStart g k (tr ++ [Event.cacheGet k]))
  have hb : Group.loadBody k (loadStart g k (tr ++ [Event.cacheGet k])) =
      Group.loadLocal k (loadStart g k (tr ++ [Event.cacheGet k])) := by
    simp [Group.loadBody, loadStart, hpeers]
  rw [← hb] at hbody
  obtain ⟨h1, h2, h3, -⟩ := load_sole g k (tr ++ [Event.cacheGet k]) _ _ hsole hbody
  rw [Get_miss g k tr hk hmiss]
  have hg : (loadStart g k (tr ++ [Event.cacheGet k])).g = g := rfl
  rw [hg, getLocally_ok g k _ b hload] at h1 h2 h3
  have htr : (g.load k (tr ++ [Event.cacheGet k])).2.2 =
      tr ++ [Event.cacheGet k, Event.flightDo k, Event.getterGet k,
        Event.cacheAdd k (ByteView.mk b)] := by
    rw [h2]; simp [loadStart]
  refine ⟨?_, htr, ?_, ?_, ?_⟩
  · rw [h1]; rfl
  · rw [htr, loaderCalls_append]; rfl
  · rw [htr, storeAdds_append]; rfl
  · rw [h3]

/-- C1 at the group `scores`: `Get("Tom")` on the empty store. -/
theorem Get_miss_reads_through_witness :
    (scores.Get "Tom" []).1 = Outcome.ret (ByteView.mk bytes630, none) ∧
    (scores.Get "Tom" []).2.2 = [Event.cacheGet "Tom", Event.flightDo "Tom",
      Event.getterGet "Tom", Event.cacheAdd "Tom" (ByteView.mk bytes630)] ∧
    loaderCalls (scores.Get "Tom" []).2.2 = 1 ∧
    storeAdds (scores.Get "Tom" []).2.2 = [("Tom", ByteView.mk bytes630)] ∧
    (scores.Get "Tom" []).2.1.mainCache = ListStore.mk [("Tom", ByteView.mk bytes630)] :=
  Get_miss_reads_through scores "Tom" [] bytes630 (by decide) rfl rfl rfl rfl

/-- C2. Cache hit: for a non-empty key `k` for which the store's get reports
`(v, true)`, `Get(k)` returns `(v, nil)`, leaves the group (store, coalescer,
picker) as it was and makes no call but the store lookup: no loader, no `Do`,
no `PickPeer`, no peer fetch, no store add. In particular, when the group and
the trace are those left by an earlier `Get` that returned and `k` is still
resident, the second `Get` adds no loader invocation. -/
theorem Get_hit (g : Group σ) (k : String) (tr : Trace) (v : ByteView)
    (hk : k ≠ "") (hhit : LocalStore.get g.mainCache k = some v) :
    g.Get k tr = (Outcome.ret (v, none), g, tr ++ [Event.cacheGet k]) ∧
    loaderCalls (g.Get k tr).2.2 = loaderCalls tr ∧
    flightCalls (g.Get k tr).2.2 = flightCalls tr ∧
    pickCalls (g.Get k tr).2.2 = pickCalls tr ∧
    peerCalls (g.Get k tr).2.2 = peerCalls tr ∧
    storeAdds (g.Get k tr).2.2 = storeAdds tr ∧
    ∀ (g0 : Group σ) (tr0 : Trace) (r : ByteView × error),
      g0.Get k tr0 = (Outcome.ret r, g, tr) →
      loaderCalls (g.Get k tr).2.2 = loaderCalls (g0.Get k tr0).2.2 := by
  have h : g.Get k tr = (Outcome.ret (v, none), g, tr ++ [Event.cacheGet k]) := by
    simp [Group.Get, hk, hhit]
  rw [h]
  refine ⟨rfl, ?_, ?_, ?_, ?_, ?_, ?_⟩
  · simp [loaderCalls_append, loaderCalls]
  · simp [flightCalls_append, flightCalls]
  · simp [pickCalls_append, pickCalls]
  · simp [peerCalls_append, peerCalls]
  · simp [storeAdds_append, storeAdds]
  · intro g0 tr0 r h0
    rw [h0]
    simp [loaderCalls_append, loaderCalls]

/-- C2 at the group `scores`: the second of two `Get("Tom")` is served by the
store and the loader has still run once. -/
theorem Get_hit_witness :
    (scores.Get "Tom" []).2.1.Get "Tom" (scores.Get "Tom" []).2.2 =
      (Outcome.ret (ByteView.mk bytes630, none), (scores.Get "Tom" []).2.1,
        (scores.Get "Tom" []).2.2 ++ [Event.cacheGet "Tom"]) ∧
    loaderCalls ((scores.Get "Tom" []).2.1.Get "Tom" (scores.Get "Tom" []).2.2).2.2 = 1 :=
  ⟨(Get_hit (scores.Get "Tom" []).2.1 "Tom" (scores.Get "Tom" []).2.2 (ByteView.mk bytes630)
      (by decide) rfl).1,
    (Get_hit (scores.Get "Tom" []).2.1 "Tom" (scores.Get "Tom" []).2.2 (ByteView.mk bytes630)
      (by decide) rfl).2.1⟩

/-- C3. Empty key is rejected before any side effect: for every group state
`Get("")` returns a non-nil error and the empty value, with the group (store,
coalescer, picker) and the trace exactly as they were, so without any call to
the store, the coalescer, the loader, the picker or a peer. `Get` takes this
rejection only when the key is empty: it returns without having made any call
exactly when the key is empty; for a non-empty key its first call is the store
lookup, and an error it returns is not one that `Get` built: it is the one the
loader returned for that key, or the one recorded for the call in flight that
it joined. -/
theorem Get_empty_key_rejected (g : Group σ) (tr : Trace) :
    g.Get "" tr =
      (Outcome.ret (ByteView.mk [], some (GoError.mk "key is required")), g, tr) ∧
    (∀ k : String, (g.Get k tr).2.2 = tr ↔ k = "") ∧
    (∀ k : String, k ≠ "" → ∃ rest, (g.Get k tr).2.2 = tr ++ Event.cacheGet k :: rest) ∧
    (∀ (k : String) (v : ByteView) (e : GoError), k ≠ "" →
      (g.Get k tr).1 = Outcome.ret (v, some e) →
      (g.getter.Get k).2 = some e ∨ ∃ c, g.loader.pending k = some c ∧ c.err = some e) := by
  have hfirst : ∀ k : String, k ≠ "" →
      ∃ rest, (g.Get k tr).2.2 = tr ++ Event.cacheGet k :: rest := by
    intro k hk
    cases hget : LocalStore.get g.mainCache k with
    | some v => exact ⟨[], by simp [Group.Get, hk, hget]⟩
    | none =>
      rw [Get_miss g k tr hk hget]
      obtain ⟨rest, hr⟩ := load_trace g k (tr ++ [Event.cacheGet k])
      exact ⟨Event.flightDo k :: rest, by rw [hr]; simp⟩
  refine ⟨by simp [Group.Get], ?_, hfirst, ?_⟩
  · intro k
    constructor
    · intro h
      by_contra hk
      obtain ⟨rest, hr⟩ := hfirst k hk
      rw [hr] at h
      simp at h
    · intro hk
      subst hk
      simp [Group.Get]
  · intro k v e hk h
    cases hget : LocalStore.get g.mainCache k with
    | some v0 => simp [Group.Get, hk, hget] at h
    | none =>
      rw [Get_miss g k tr hk hget] at h
      exact load_err g k _ v e h

/-- C3 at the group `strict`: `Get("")` touches nothing, and the error of
`Get("Tom")`, which carries the same message, is the loader's, returned after
the store lookup. -/
theorem Get_empty_key_rejected_witness :
    (strict.Get "" []).1 = Outcome.ret (ByteView.mk [], some (GoError.mk "key is required")) ∧
    (strict.Get "" []).2.2 = [] ∧
    (∃ rest, (strict.Get "Tom" []).2.2 = [] ++ Event.cacheGet "Tom" :: rest) ∧
    ((strict.getter.Get "Tom").2 = some (GoError.mk "key is required") ∨
      ∃ c, strict.loader.pending "Tom" = some c ∧ c.err = some (GoError.mk "key is required")) :=
  ⟨congrArg Prod.fst (Get_empty_key_rejected strict []).1,
    congrArg (fun x => x.2.2) (Get_empty_key_rejected strict []).1,
    (Get_empty_key_rejected strict []).2.2.1 "Tom" (by decide),
    (Get_empty_key_rejected strict []).2.2.2 "Tom" (ByteView.mk [])
      (GoError.mk "key is required") (by decide) rfl⟩

/-- C4. Loader failure is propagated verbatim and not cached: for a non-empty
key `k` that the store misses, on a group without peer picker whose loader
returns the error `e` for `k`, a `Get(k)` that finds no call for `k` in flight
returns exactly `e` with the empty value; the loader is invoked once, no store
add is made and the store is unchanged. -/
theorem Get_loader_error (g : Group σ) (k : String) (tr : Trace) (b : Bytes) (e : GoError)
    (hk : k ≠ "") (hmiss : LocalStore.get g.mainCache k = none)
    (hpeers : g.peers = none) (hload : g.getter.Get k = (b, some e))
    (hsole : g.loader.pending k = none) :
    (g.Get k tr).1 = Outcome.ret (ByteView.mk [], some e) ∧
    (g.Get k tr).2.2 = tr ++ [Event.cacheGet k, Event.flightDo k, Event.getterGet k] ∧
    loaderCalls (g.Get k tr).2.2 = loaderCalls tr + 1 ∧
    storeAdds (g.Get k tr).2.2 = storeAdds tr ∧
    (g.Get k tr).2.1.mainCache = g.mainCache := by
  have hbody : Group.loadBody k (loadStart g k (tr ++ [Event.cacheGet k])) = _ :=
    (loadBody_no_picker k _ hpeers).trans (loadLocal_eq k _)
  have hg : (loadStart g k (tr ++ [Event.cacheGet k])).g = g := rfl
  rw [hg, getLocally_err g k _ b e hload] at hbody
  obtain ⟨h1, h2, h3⟩ := Get_sole g k tr _ _ hk hmiss hsole hbody
  have htr : (g.Get k tr).2.2 =
      tr ++ [Event.cacheGet k, Event.flightDo k, Event.getterGet k] := by
    rw [h2]; simp [loadStart]
  refine ⟨?_, htr, ?_, ?_, ?_⟩
  · rw [h1]; rfl
  · rw [htr, loaderCalls_append]; rfl
  · rw [htr, storeAdds_append]; simp [storeAdds]
  · rw [h3]

/-- C4 at the group `scores`: `Get("Jack")`, a key the loader does not know. -/
theorem Get_loader_error_witness :
    (scores.Get "Jack" []).1 = Outcome.ret (ByteView.mk [], some (GoError.mk "not exist")) ∧
    (scores.Get "Jack" []).2.2 =
      [Event.cacheGet "Jack", Event.flightDo "Jack", Event.getterGet "Jack"] ∧
    loaderCalls (scores.Get "Jack" []).2.2 = 1 ∧
    storeAdds (scores.Get "Jack" []).2.2 = [] ∧
    (scores.Get "Jack" []).2.1.mainCache = ListStore.mk [] :=
  Get_loader_error scores "Jack" [] [] (GoError.mk "not exist") (by decide) rfl rfl rfl rfl

/-- C5. Peer success bypasses loader and store: for a non-empty key `k` that
the store misses, with a picker attached whose `PickPeer(k)` returns
`(peer, true)` and `peer.Get(groupName, k)` returning `(b, nil)`, a `Get(k)`
that finds no call for `k` in flight returns the value with bytes `b` and a nil
error; the loader is not invoked, no store add is made, the store is unchanged
and a following lookup of `k` is still a miss. -/
theorem Get_peer_success (g : Group σ) (k : String) (tr : Trace) (p : PeerPicker)
    (peer : PeerGetter) (b : Bytes)
    (hk : k ≠ "") (hmiss : LocalStore.get g.mainCache k = none)
    (hpeers : g.peers = some p) (hpick : p.PickPeer k = (some peer, true))
    (hfetch : peer.Get g.name k = (b, none))
    (hsole : g.loader.pending k = none) :
    (g.Get k tr).1 = Outcome.ret (ByteView.mk b, none) ∧
    (g.Get k tr).2.2 =
      tr ++ [Event.cacheGet k, Event.flightDo k, Event.pickPeer k, Event.peerGet g.name k] ∧
    loaderCalls (g.Get k tr).2.2 = loaderCalls tr ∧
    storeAdds (g.Get k tr).2.2 = storeAdds tr ∧
    (g.Get k tr).2.1.mainCache = g.mainCache ∧
    LocalStore.get (g.Get k tr).2.1.mainCache k = none := by
  have hbody := loadBody_peer_ok k (loadStart g k (tr ++ [Event.cacheGet k])) p peer b
    hpeers hpick hfetch
  obtain ⟨h1, h2, h3⟩ := Get_sole g k tr _ _ hk hmiss hsole hbody
  have htr : (g.Get k tr).2.2 =
      tr ++ [Event.cacheGet k, Event.flightDo k, Event.pickPeer k, Event.peerGet g.name k] := by
    rw [h2]; simp [loadStart]
  have hst : (g.Get k tr).2.1.mainCache = g.mainCache := by rw [h3]; rfl
  refine ⟨?_, htr, ?_, ?_, hst, ?_⟩
  · rw [h1]; rfl
  · rw [htr, loaderCalls_append]; rfl
  · rw [htr, storeAdds_append]; simp [storeAdds]
  · rw [hst]; exact hmiss

/-- C5 at the group `scoresGoodPeer`: `Get("Tom")` is served by the peer. -/
theorem Get_peer_success_witness :
    (scoresGoodPeer.Get "Tom" []).1 = Outcome.ret (ByteView.mk bytes589, none) ∧
    (scoresGoodPeer.Get "Tom" []).2.2 =
      [Event.cacheGet "Tom", Event.flightDo "Tom", Event.pickPeer "Tom",
        Event.peerGet "scores" "Tom"] ∧
    loaderCalls (scoresGoodPeer.Get "Tom" []).2.2 = 0 ∧
    storeAdds (scoresGoodPeer.Get "Tom" []).2.2 = [] ∧
    (scoresGoodPeer.Get "Tom" []).2.1.mainCache = ListStore.mk [] ∧
    LocalStore.get (scoresGoodPeer.Get "Tom" []).2.1.mainCache "Tom" = none :=
  Get_peer_success scoresGoodPeer "Tom" [] { PickPeer := fun _ => (some goodPeer, true) }
    goodPeer bytes589 (by decide) rfl rfl rfl rfl rfl

/-- C6. Peer failure falls back to the loader: for a non-empty key `k` that the
store misses, with a picker attached whose `PickPeer(k)` returns `(peer, true)`,
`peer.Get` failing with any error `e1` and the loader returning `(b, nil)`, a
`Get(k)` that finds no call for `k` in flight returns the value with bytes `b`
and a nil error (so not `e1`); the loader is invoked once and the value is
added to the store under `k`. -/
theorem Get_peer_failure_falls_back (g : Group σ) (k : String) (tr : Trace) (p : PeerPicker)
    (peer : PeerGetter) (b1 b : Bytes) (e1 : GoError)
    (hk : k ≠ "") (hmiss : LocalStore.get g.mainCache k = none)
    (hpeers : g.peers = some p) (hpick : p.PickPeer k = (some peer, true))
    (hfetch : peer.Get g.name k = (b1, some e1))
    (hload : g.getter.Get k = (b, none))
    (hsole : g.loader.pending k = none) :
    (g.Get k tr).1 = Outcome.ret (ByteView.mk b, none) ∧
    (g.Get k tr).2.2 =
      tr ++ [Event.cacheGet k, Event.flightDo k, Event.pickPeer k, Event.peerGet g.name k,
        Event.getterGet k, Event.cacheAdd k (ByteView.mk b)] ∧
    loaderCalls (g.Get k tr).2.2 = loaderCalls tr + 1 ∧
    storeAdds (g.Get k tr).2.2 = storeAdds tr ++ [(k, ByteView.mk b)] ∧
    (g.Get k tr).2.1.mainCache = LocalStore.add g.mainCache k (ByteView.mk b) := by
  have hbody : Group.loadBody k (loadStart g k (tr ++ [Event.cacheGet k])) = _ :=
    (loadBody_peer_err k _ p peer b1 e1 hpeers hpick hfetch).trans (loadLocal_eq k _)
  simp only [] at hbody
  have hg : (loadStart g k (tr ++ [Event.cacheGet k])).g = g := rfl
  rw [hg, getLocally_ok g k _ b hload] at hbody
  obtain ⟨h1, h2, h3⟩ := Get_sole g k tr _ _ hk hmiss hsole hbody
  have htr : (g.Get k tr).2.2 =
      tr ++ [Event.cacheGet k, Event.flightDo k, Event.pickPeer k, Event.peerGet g.name k,
        Event.getterGet k, Event.cacheAdd k (ByteView.mk b)] := by
    rw [h2]; simp [loadStart]
  refine ⟨?_, htr, ?_, ?_, ?_⟩
  · rw [h1]; rfl
  · rw [htr, loaderCalls_append]; rfl
  · rw [htr, storeAdds_append]; rfl
  · rw [h3]

/-- C6 at the group `scoresBadPeer`: the peer fails, `Get("Tom")` is served by
the loader. -/
theorem Get_peer_failure_falls_back_witness :
    (scoresBadPeer.Get "Tom" []).1 = Outcome.ret (ByteView.mk bytes630, none) ∧
    (scoresBadPeer.Get "Tom" []).2.2 =
      [Event.cacheGet "Tom", Event.flightDo "Tom", Event.pickPeer "Tom",
        Event.peerGet "scores" "Tom", Event.getterGet "Tom",
        Event.cacheAdd "Tom" (ByteView.mk bytes630)] ∧
    loaderCalls (scoresBadPeer.Get "Tom" []).2.2 = 1 ∧
    storeAdds (scoresBadPeer.Get "Tom" []).2.2 = [("Tom", ByteView.mk bytes630)] ∧
    (scoresBadPeer.Get "Tom" []).2.1.mainCache =
      ListStore.mk [("Tom", ByteView.mk bytes630)] :=
  Get_peer_failure_falls_back scoresBadPeer "Tom" []
    { PickPeer := fun _ => (some badPeer, true) } badPeer [] bytes630 (GoError.mk "peer down")
    (by decide) rfl rfl rfl rfl rfl rfl

/-- C7. Without a usable peer, `load` is local retrieval: for every key `k`, if
no picker is attached or the attached picker's `PickPeer(k)` returns
`ok = false`, a `load(k)` that finds no call for `k` in flight returns what the
earlier definition of `load` returns, `getLocally(k)`, leaves the store that
`getLocally(k)` leaves, makes the same store adds and the same number of loader
invocations, and invokes no peer fetcher. -/
theorem load_without_peer (g : Group σ) (k : String) (tr : Trace)
    (hpeer : g.peers = none ∨ ∃ p, g.peers = some p ∧ (p.PickPeer k).2 = false)
    (hsole : g.loader.pending k = none) :
    (g.load k tr).1 = (g.loadV1 k tr).1 ∧
    (g.load k tr).1 = Outcome.ret (g.getLocally k tr).1 ∧
    (g.load k tr).2.1.mainCache = (g.loadV1 k tr).2.1.mainCache ∧
    (g.load k tr).2.1.mainCache = (g.getLocally k tr).2.1.mainCache ∧
    storeAdds (g.load k tr).2.2 = storeAdds (g.getLocally k tr).2.2 ∧
    loaderCalls (g.load k tr).2.2 = loaderCalls (g.getLocally k tr).2.2 ∧
    peerCalls (g.load k tr).2.2 = peerCalls tr := by
  have key : ∃ extra : Trace, storeAdds extra = [] ∧ loaderCalls extra = 0 ∧
      peerCalls extra = 0 ∧
      Group.loadBody k (loadStart g k tr) =
        Group.loadLocal k
          { loadStart g k tr with trace := tr ++ [Event.flightDo k] ++ extra } := by
    rcases hpeer with h | ⟨p, h, hp⟩
    · exact ⟨[], rfl, rfl, rfl, by
        rw [loadBody_no_picker k _ h]; simp [loadStart]⟩
    · exact ⟨[Event.pickPeer k], rfl, rfl, rfl, by
        rw [loadBody_no_peer k _ p h hp]; simp [loadStart]⟩
  obtain ⟨extra, ha, hl, hp, hbody⟩ := key
  obtain ⟨h1, h2, h3⟩ := load_local_sole g k tr extra hsole hbody
  obtain ⟨-, -, t3⟩ := getLocally_trace g k tr
  have hpl : peerCalls (g.getLocally k []).2.2 = 0 := by
    rcases hget : g.getter.Get k with ⟨b, _ | e⟩
    · rw [getLocally_ok g k [] b hget]; rfl
    · rw [getLocally_err g k [] b e hget]; rfl
  refine ⟨h1, h1, h2, h2, ?_, ?_, ?_⟩
  · rw [h3, t3]
    simp [storeAdds_append, ha, storeAdds]
  · have h0 : loaderCalls [Event.flightDo k] = 0 := rfl
    rw [h3, t3]
    simp only [loaderCalls_append, hl, h0]
    omega
  · have h0 : peerCalls [Event.flightDo k] = 0 := rfl
    rw [h3]
    simp only [peerCalls_append, hp, hpl, h0]
    omega

/-- C7 at the group `scoresNoPeer`, whose picker finds no peer: `load("Tom")`
returns what `getLocally("Tom")` returns and leaves the same store. -/
theorem load_without_peer_witness :
    (scoresNoPeer.load "Tom" []).1 = Outcome.ret (ByteView.mk bytes630, none) ∧
    (scoresNoPeer.load "Tom" []).2.1.mainCache =
      ListStore.mk [("Tom", ByteView.mk bytes630)] ∧
    peerCalls (scoresNoPeer.load "Tom" []).2.2 = 0 :=
  ⟨(load_without_peer scoresNoPeer "Tom" []
      (Or.inr ⟨{ PickPeer := fun _ => (none, false) }, rfl, rfl⟩) rfl).1,
    (load_without_peer scoresNoPeer "Tom" []
      (Or.inr ⟨{ PickPeer := fun _ => (none, false) }, rfl, rfl⟩) rfl).2.2.1,
    (load_without_peer scoresNoPeer "Tom" []
      (Or.inr ⟨{ PickPeer := fun _ => (none, false) }, rfl, rfl⟩) rfl).2.2.2.2.2.2⟩

/-- C8. Coalescer pass-through for a sole caller: for every key and body `fn`,
when the map holds no record for the key, `Do(key, fn)` returns exactly the
pair that `fn` returned, error or not, and leaves the caller's state as one
execution of `fn` leaves it (a counting body has counted one execution); the
same holds on the zero-value `Group`, whose map is nil. -/
theorem Do_passes_through {α S : Type} (g : singleflight.Group α) (key : String)
    (fn : S → Outcome (Option α × error) × S) (s s1 : S) (r : Option α × error) (n : Nat)
    (hno : g.pending key = none) (hfn : fn s = (Outcome.ret r, s1)) :
    ((g.Do key fn s).1 = Outcome.ret r ∧ (g.Do key fn s).2.2 = s1 ∧
      (g.Do key (counted fn) (s, n)).1 = Outcome.ret r ∧
      (g.Do key (counted fn) (s, n)).2.2 = (s1, n + 1)) ∧
    (((singleflight.Group.mk none : singleflight.Group α).Do key fn s).1 = Outcome.ret r ∧
      ((singleflight.Group.mk none : singleflight.Group α).Do key fn s).2.2 = s1 ∧
      ((singleflight.Group.mk none : singleflight.Group α).Do key (counted fn) (s, n)).1 =
        Outcome.ret r ∧
      ((singleflight.Group.mk none : singleflight.Group α).Do key (counted fn) (s, n)).2.2 =
        (s1, n + 1)) := by
  have hc : counted fn (s, n) = (Outcome.ret r, (s1, n + 1)) := by
    simp [counted, hfn]
  have h0 : (singleflight.Group.mk none : singleflight.Group α).pending key = none := rfl
  obtain ⟨a1, a2, -⟩ := singleflight.Do_sole g key fn s s1 r hno hfn
  obtain ⟨b1, b2, -⟩ := singleflight.Do_sole g key (counted fn) (s, n) (s1, n + 1) r hno hc
  obtain ⟨c1, c2, -⟩ := singleflight.Do_sole (singleflight.Group.mk none) key fn s s1 r h0 hfn
  obtain ⟨d1, d2, -⟩ := singleflight.Do_sole (singleflight.Group.mk none) key (counted fn)
    (s, n) (s1, n + 1) r h0 hc
  exact ⟨⟨a1, a2, b1, b2⟩, ⟨c1, c2, d1, d2⟩⟩

/-- C8 at the zero-value coalescer and a failing body: the failure comes back
unchanged and the body has run once. -/
theorem Do_passes_through_witness :
    (flight0.Do "Tom" (singleflight.returning failFn) 0).1 =
      Outcome.ret (none, some (GoError.mk "boom")) ∧
    (flight0.Do "Tom" (singleflight.returning failFn) 0).2.2 = 10 ∧
    (flight0.Do "Tom" (counted (singleflight.returning failFn)) (0, 0)).2.2 = (10, 1) :=
  ⟨(Do_passes_through flight0 "Tom" (singleflight.returning failFn) 0 10
      (none, some (GoError.mk "boom")) 0 rfl rfl).1.1,
    (Do_passes_through flight0 "Tom" (singleflight.returning failFn) 0 10
      (none, some (GoError.mk "boom")) 0 rfl rfl).1.2.1,
    (Do_passes_through flight0 "Tom" (singleflight.returning failFn) 0 10
      (none, some (GoError.mk "boom")) 0 rfl rfl).1.2.2.2⟩

/-- C9. The coalescer caches nothing: after a `Do(key, fn)` that found no record
for the key and whose body returned, with or without error, the map holds no
record for the key and the records of all other keys are as before;
consequently, starting with no record, any sequence of calls of `Do` that do
not overlap runs every body, returns to each call its own body's pair and
leaves no record; and of two successive calls with the same key the second
runs its body too, on the state the first left, and returns that second body's
pair (two counting bodies have counted two executions). -/
theorem Do_caches_nothing {α S : Type} (g : singleflight.Group α) (key : String)
    (fn fn2 : S → Outcome (Option α × error) × S) (s s1 s2 : S) (r r2 : Option α × error)
    (n : Nat)
    (hno : g.pending key = none) (hfn : fn s = (Outcome.ret r, s1))
    (hfn2 : fn2 s1 = (Outcome.ret r2, s2)) :
    ((g.Do key fn s).2.1.pending key = none ∧
      ∀ k, k ≠ key → (g.Do key fn s).2.1.pending k = g.pending k) ∧
    (∀ (calls : List (String × (S → (Option α × error) × S))) (g0 : singleflight.Group α)
        (s0 : S), (∀ k, g0.pending k = none) →
      (singleflight.doSeq (asDoCalls calls) g0 s0).1 = (runBodies calls s0).1 ∧
      (singleflight.doSeq (asDoCalls calls) g0 s0).2.2 = (runBodies calls s0).2 ∧
      ∀ k, (singleflight.doSeq (asDoCalls calls) g0 s0).2.1.pending k = none) ∧
    (((g.Do key fn s).2.1.Do key fn2 (g.Do key fn s).2.2).1 = Outcome.ret r2 ∧
      ((g.Do key fn s).2.1.Do key fn2 (g.Do key fn s).2.2).2.2 = s2 ∧
      ((g.Do key (counted fn) (s, n)).2.1.Do key (counted fn2)
        (g.Do key (counted fn) (s, n)).2.2).2.2 = (s2, n + 2)) := by
  have hc : counted fn (s, n) = (Outcome.ret r, (s1, n + 1)) := by
    simp [counted, hfn]
  have hc2 : counted fn2 (s1, n + 1) = (Outcome.ret r2, (s2, n + 2)) := by
    simp [counted, hfn2]
  obtain ⟨-, a2, a3, a4⟩ := singleflight.Do_sole g key fn s s1 r hno hfn
  obtain ⟨-, b2, b3, -⟩ := singleflight.Do_sole g key (counted fn) (s, n) (s1, n + 1) r hno hc
  refine ⟨⟨a3, a4⟩, fun calls g0 s0 hq => doSeq_quiet calls g0 s0 hq, ?_, ?_, ?_⟩
  · rw [a2]
    exact (singleflight.Do_sole _ key fn2 s1 s2 r2 a3 hfn2).1
  · rw [a2]
    exact (singleflight.Do_sole _ key fn2 s1 s2 r2 a3 hfn2).2.1
  · rw [b2]
    exact (singleflight.Do_sole _ key (counted fn2) (s1, n + 1) (s2, n + 2) r2 b3 hc2).2.1

/-- C9 at the zero-value coalescer: a succeeding body, then a failing body
under the same key; the second call returns the failure, both bodies have run
and no record is left. -/
theorem Do_caches_nothing_witness :
    ((flight0.Do "Tom" (singleflight.returning okFn) 0).2.1.Do "Tom"
        (singleflight.returning failFn)
        (flight0.Do "Tom" (singleflight.returning okFn) 0).2.2).1 =
      Outcome.ret (none, some (GoError.mk "boom")) ∧
    ((flight0.Do "Tom" (singleflight.returning okFn) 0).2.1.Do "Tom"
        (singleflight.returning failFn)
        (flight0.Do "Tom" (singleflight.returning okFn) 0).2.2).2.2 = 11 ∧
    (flight0.Do "Tom" (singleflight.returning okFn) 0).2.1.pending "Tom" = none ∧
    (singleflight.doSeq (asDoCalls [("Tom", okFn), ("Tom", failFn), ("Jack", okFn)])
        flight0 0).1 =
      [Outcome.ret (some (ByteView.mk bytes630), none),
        Outcome.ret (none, some (GoError.mk "boom")),
        Outcome.ret (some (ByteView.mk bytes630), none)] :=
  ⟨(Do_caches_nothing flight0 "Tom" (singleflight.returning okFn)
      (singleflight.returning failFn) 0 1 11 (some (ByteView.mk bytes630), none)
      (none, some (GoError.mk "boom")) 0 rfl rfl rfl).2.2.1,
    (Do_caches_nothing flight0 "Tom" (singleflight.returning okFn)
      (singleflight.returning failFn) 0 1 11 (some (ByteView.mk bytes630), none)
      (none, some (GoError.mk "boom")) 0 rfl rfl rfl).2.2.2.1,
    (Do_caches_nothing flight0 "Tom" (singleflight.returning okFn)
      (singleflight.returning failFn) 0 1 11 (some (ByteView.mk bytes630), none)
      (none, some (GoError.mk "boom")) 0 rfl rfl rfl).1.1,
    ((Do_caches_nothing flight0 "Tom" (singleflight.returning okFn)
      (singleflight.returning failFn) 0 1 11 (some (ByteView.mk bytes630), none)
      (none, some (GoError.mk "boom")) 0 rfl rfl rfl).2.1
        [("Tom", okFn), ("Tom", failFn), ("Jack", okFn)] flight0 0 (fun _ => rfl)).1⟩

/-- C10 fails on the code. A caller that runs its two steps with no other
caller in between performs `Get`. Take two callers of `Get("Tom")` on the group
`scores`, whose store does not hold "Tom"; both look the key up and miss before
either calls `load`, and the first `load` has returned (its record deleted from
the coalescer) before the second begins: both calls return, and the loader has
been executed twice. When the second caller starts after the first has
finished, the loader is executed once. -/
theorem Get_concurrent_loads_twice :
    (∀ (g : Group ListStore) (key : String) (tr : Trace),
      (((Caller.start key).step g tr).1.step ((Caller.start key).step g tr).2.1
          ((Caller.start key).step g tr).2.2) =
        (Caller.done (g.Get key tr).1, (g.Get key tr).2.1, (g.Get key tr).2.2)) ∧
    LocalStore.get scores.mainCache "Tom" = none ∧
    ((System.init scores "Tom" 2).run [0, 1, 0, 1]).callers =
      [Caller.done (Outcome.ret (ByteView.mk bytes630, none)),
        Caller.done (Outcome.ret (ByteView.mk bytes630, none))] ∧
    ((System.init scores "Tom" 2).run [0, 1, 0, 1]).trace =
      [Event.cacheGet "Tom", Event.cacheGet "Tom",
        Event.flightDo "Tom", Event.getterGet "Tom",
        Event.cacheAdd "Tom" (ByteView.mk bytes630),
        Event.flightDo "Tom", Event.getterGet "Tom",
        Event.cacheAdd "Tom" (ByteView.mk bytes630)] ∧
    loaderCalls ((System.init scores "Tom" 2).run [0, 1, 0, 1]).trace = 2 ∧
    loaderCalls ((System.init scores "Tom" 2).run [0, 0, 1, 1]).trace = 1 := by
  refine ⟨?_, rfl, ?_, ?_, ?_, ?_⟩
  · intro g key tr
    by_cases hk : key = ""
    · simp [Caller.step, Group.Get, hk]
    · cases hget : LocalStore.get g.mainCache key with
      | some v => simp [Caller.step, Group.Get, hk, hget]
      | none => simp [Caller.step, Group.Get, hk, hget]
  all_goals rfl
/-- C13, as stated, fails: on the group `scores`, after a first call
`RegisterPeers(nil)`, the second call `RegisterPeers(goodPicker)` returns and
sets the picker. -/
theorem RegisterPeers_after_nil_returns :
    ((scores.RegisterPeers none).2.RegisterPeers (some goodPicker)).1 = Outcome.ret () ∧
    ((scores.RegisterPeers none).2.RegisterPeers (some goodPicker)).2.peers = some goodPicker ∧
    (scores.RegisterPeers none).2.peers = none := by
  refine ⟨rfl, rfl, rfl⟩

/-- C13, amended. Second registration is fatal: on a group whose picker is
unset, after a first call `RegisterPeers(p1)` with a non-nil picker `p1`, which
returns, a second call `RegisterPeers(p2)` with any picker argument `p2`, nil
or not, panics instead of returning and leaves the group, its picker `p1`
included, as it was. A first call with the nil picker returns and leaves the
picker unset. -/
theorem RegisterPeers_twice_panics {σ : Type} (g : Group σ) (p1 : PeerPicker) (p2 : Option PeerPicker)
    (hunset : g.peers = none) :
    (g.RegisterPeers (some p1)).1 = Outcome.ret () ∧
    ((g.RegisterPeers (some p1)).2.RegisterPeers p2).1 =
      Outcome.panics "RegisterPeerPicker called more than once" ∧
    ((g.RegisterPeers (some p1)).2.RegisterPeers p2).2 = (g.RegisterPeers (some p1)).2 ∧
    ((g.RegisterPeers (some p1)).2.RegisterPeers p2).2.peers = some p1 ∧
    ((g.RegisterPeers none).1 = Outcome.ret () ∧ (g.RegisterPeers none).2.peers = none) := by
  simp [Group.RegisterPeers, hunset]

/-- C13 amended, at the group `scores`: `RegisterPeers(goodPicker)` twice. -/
theorem RegisterPeers_twice_panics_witness :
    ((scores.RegisterPeers (some goodPicker)).2.RegisterPeers (some badPicker)).1 =
      Outcome.panics "RegisterPeerPicker called more than once" ∧
    ((scores.RegisterPeers (some goodPicker)).2.RegisterPeers (some badPicker)).2.peers =
      some goodPicker :=
  ⟨(RegisterPeers_twice_panics scores goodPicker (some badPicker) rfl).2.1,
    (RegisterPeers_twice_panics scores goodPicker (some badPicker) rfl).2.2.2.1⟩

/-- C15. Registry is a last-writer-wins map: after any sequence of `NewGroup`
calls with non-nil loaders, started from any package state, every call has
returned, and `GetGroup(n)` returns the pointer returned by the most recent
call whose name is `n`, or what the registry held before if no call used `n`,
which from the initial package state is nil; `GetGroup` leaves the package
state as it is; `NewGroup(n, ...)` leaves the entries of all other names as
they are. -/
theorem registry_last_writer_wins {σ : Type} [FreshStore σ]
    (calls : List (String × Int × Getter)) (w : Registry σ) (n : String) :
    (newGroups calls w).1.length = calls.length ∧
    (GetGroup (newGroups calls w).2 n).1 =
      (match lastNamed calls (newGroups calls w).1 n with
        | some p => some p
        | none => w.groups n) ∧
    ((∀ c ∈ calls, c.1 ≠ n) →
      (GetGroup (newGroups calls (Registry.init : Registry σ)).2 n).1 = none) ∧
    (GetGroup w n).2 = w ∧
    (∀ (c : Int) (getter : Option Getter) (n2 : String), n2 ≠ n →
      (NewGroup w n c getter).2.groups n2 = w.groups n2) := by
  obtain ⟨h1, h2⟩ := newGroups_groups calls w n
  refine ⟨h1, h2, ?_, rfl, ?_⟩
  · intro hno
    obtain ⟨-, h3⟩ := newGroups_groups calls (Registry.init : Registry σ) n
    show (newGroups calls (Registry.init : Registry σ)).2.groups n = none
    rw [h3, lastNamed_none calls _ n hno]
    rfl
  · intro c getter n2 hne
    cases getter with
    | none => rfl
    | some gt => simp [NewGroup, hne]

/-- C15 on three calls from the initial package state, two of them under the
name "scores": `GetGroup("scores")` is the pointer of the third call,
`GetGroup("info")` that of the second, `GetGroup("other")` is nil. -/
theorem registry_last_writer_wins_witness :
    (newGroups [("scores", 2048, scoresGetter), ("info", 64, keyRequiredGetter),
        ("scores", 1024, keyRequiredGetter)] (Registry.init : Registry BoundedStore)).1 =
      [0, 1, 2] ∧
    (GetGroup (newGroups [("scores", 2048, scoresGetter), ("info", 64, keyRequiredGetter),
        ("scores", 1024, keyRequiredGetter)] (Registry.init : Registry BoundedStore)).2
      "scores").1 = some 2 ∧
    (GetGroup (newGroups [("scores", 2048, scoresGetter), ("info", 64, keyRequiredGetter),
        ("scores", 1024, keyRequiredGetter)] (Registry.init : Registry BoundedStore)).2
      "info").1 = some 1 ∧
    (GetGroup (newGroups [("scores", 2048, scoresGetter), ("info", 64, keyRequiredGetter),
        ("scores", 1024, keyRequiredGetter)] (Registry.init : Registry BoundedStore)).2
      "other").1 = none :=
  ⟨rfl,
    (registry_last_writer_wins [("scores", 2048, scoresGetter), ("info", 64, keyRequiredGetter),
        ("scores", 1024, keyRequiredGetter)] (Registry.init : Registry BoundedStore)
      "scores").2.1,
    (registry_last_writer_wins [("scores", 2048, scoresGetter), ("info", 64, keyRequiredGetter),
        ("scores", 1024, keyRequiredGetter)] (Registry.init : Registry BoundedStore)
      "info").2.1,
    (registry_last_writer_wins [("scores", 2048, scoresGetter), ("info", 64, keyRequiredGetter),
        ("scores", 1024, keyRequiredGetter)] (Registry.init : Registry BoundedStore)
      "other").2.2.1 (by decide)⟩

/-- C16. Loader is required, atomically: `NewGroup(name, capacity, getter)`
panics if and only if `getter` is nil, and then leaves the package state,
registry included, exactly as it was; for every non-nil getter it returns the
pointer of a newly allocated group and does not fail. -/
theorem NewGroup_requires_getter {σ : Type} [FreshStore σ] (w : Registry σ) (name : String)
    (c : Int) (getter : Option Getter) :
    ((∃ msg, (NewGroup w name c getter).1 = Outcome.panics msg) ↔ getter = none) ∧
    (getter = none → (NewGroup w name c getter).1 = Outcome.panics "nil Getter method" ∧
      (NewGroup w name c getter).2 = w) ∧
    (∀ gt, getter = some gt →
      (NewGroup w name c getter).1 = Outcome.ret w.objs.length ∧
      (NewGroup w name c getter).2.groups name = some w.objs.length ∧
      ∃ g, (NewGroup w name c getter).2.objs[w.objs.length]? = some g ∧ g.name = name ∧
        g.getter = gt) := by
  cases getter with
  | none =>
    refine ⟨⟨fun _ => rfl, fun _ => ⟨_, rfl⟩⟩, fun _ => ⟨rfl, rfl⟩, ?_⟩
    intro gt h
    cases h
  | some gt0 =>
    refine ⟨⟨?_, ?_⟩, ?_, ?_⟩
    · rintro ⟨msg, h⟩
      simp [NewGroup] at h
    · intro h; cases h
    · intro h; cases h
    · intro gt h
      cases h
      refine ⟨rfl, by simp [NewGroup],
        ⟨{ name := name, getter := gt0, mainCache := FreshStore.fresh c, peers := none,
            loader := { m := none } }, ?_, rfl, rfl⟩⟩
      simp [NewGroup]

/-- C14, as stated, fails on overlapping calls. The method `RegisterPeers` takes
no lock between its test (gocache.go 91) and its assignment (line 94). On the
group `scores`, whose picker is unset, caller 0 with `goodPicker` and caller 1
with `badPicker` both pass the test before either assigns: after the
assignment of caller 0 the picker is `goodPicker`, after that of caller 1 it
is `badPicker`, a different picker, and both calls have returned, neither has
panicked. -/
theorem RegisterPeers_overlapping_replaces :
    (twoRegistrations.run
      [Move.register 0, Move.register 1, Move.register 0]).g.peers = some goodPicker ∧
    (twoRegistrations.run
      [Move.register 0, Move.register 1, Move.register 0, Move.register 1]).g.peers =
        some badPicker ∧
    (twoRegistrations.run
      [Move.register 0, Move.register 1, Move.register 0, Move.register 1]).regs 0 =
        RegPc.returned ∧
    (twoRegistrations.run
      [Move.register 0, Move.register 1, Move.register 0, Move.register 1]).regs 1 =
        RegPc.returned ∧
    pickedAnswer (some goodPicker) = some (bytes589, none) ∧
    pickedAnswer (some badPicker) = some ([], some (GoError.mk "peer down")) := by
  refine ⟨rfl, rfl, rfl, rfl, rfl, rfl⟩

/-- C14, amended. Peer picker is write-once under calls that do not overlap: in
every package state, for every group object, once its `peers` field holds a
picker, after any sequence of operations of the package that run one at a
time (`NewGroup` on any name, `GetGroup`, `Get`, `load`, `getLocally`,
`RegisterPeers`, on any group) it holds that same picker; one operation
changes the field only from unset to set, and then the operation is a
`RegisterPeers` on that group that returns, with the new picker as argument,
and no other field of the group is changed; `RegisterPeers` never changes the
name, the loader, the store or the coalescer. With callers of `RegisterPeers`
that interleave, test and assignment being two steps: from any moment at which
the field holds a picker and no caller stands between its test and its
assignment, no schedule changes the field, and every later caller panics at
its test; a caller whose two steps follow each other performs the method. -/
theorem peers_write_once {σ : Type} [FreshStore σ] (w : Registry σ) (tr : Trace) (p : Nat)
    (g : Group σ) (hobj : w.objs[p]? = some g) :
    (∀ (ops : List Op) (pk : PeerPicker), g.peers = some pk →
      ∃ g2, (runOps ops w tr).1.objs[p]? = some g2 ∧ g2.peers = some pk) ∧
    (∀ op : Op, ∃ g1, (op.run w tr).2.1.objs[p]? = some g1 ∧
      (g1.peers = g.peers ∨
        ∃ pk, op = Op.registerPeers p (some pk) ∧ g.peers = none ∧ g1.peers = some pk ∧
          (op.run w tr).1 = Outcome.ret () ∧ g1 = { g with peers := some pk })) ∧
    (∀ x : Option PeerPicker,
      (g.RegisterPeers x).2.name = g.name ∧ (g.RegisterPeers x).2.getter = g.getter ∧
      (g.RegisterPeers x).2.mainCache = g.mainCache ∧
      (g.RegisterPeers x).2.loader = g.loader) ∧
    (∀ (st : RegSystem σ) (pk : PeerPicker) (moves : List Move), st.g.peers = some pk →
      (∀ i x, st.regs i ≠ RegPc.checked x) →
      (st.run moves).g.peers = some pk ∧
      (∀ i x, (st.run moves).regs i ≠ RegPc.checked x) ∧
      (∀ i x, (st.run moves).regs i = RegPc.start x →
        ((st.run moves).step (Move.register i)).regs i = RegPc.panicked)) ∧
    (∀ (st : RegSystem σ) (i : Nat) (x : Option PeerPicker), st.regs i = RegPc.start x →
      ((st.step (Move.register i)).step (Move.register i)).g = (st.g.RegisterPeers x).2 ∧
      (((st.g.RegisterPeers x).1 = Outcome.ret () ∧
          ((st.step (Move.register i)).step (Move.register i)).regs i = RegPc.returned) ∨
        ((st.g.RegisterPeers x).1 =
            Outcome.panics "RegisterPeerPicker called more than once" ∧
          ((st.step (Move.register i)).step (Move.register i)).regs i =
            RegPc.panicked))) := by
  refine ⟨fun ops pk hset => runOps_peers ops w tr p g pk hobj hset,
    fun op => Op.run_peers op w tr p g hobj, ?_, ?_,
    fun st i x hstart => RegSystem.alone st i x hstart⟩
  · intro x
    unfold Group.RegisterPeers
    cases g.peers <;> exact ⟨rfl, rfl, rfl, rfl⟩
  · intro st pk moves hset hno
    obtain ⟨h1, h2⟩ := RegSystem.schedule_keeps_peers moves st pk hset hno
    refine ⟨h1, h2, ?_⟩
    intro i x hi
    simp [RegSystem.step, hi, h1]

/-- C14 amended, on a group made by `NewGroup` and given `goodPicker`: after a
`Get`, a second `RegisterPeers`, a `NewGroup` under the same name, a `load` and
a `getLocally`, the picker of the first group is still `goodPicker`. -/
theorem peers_write_once_witness :
    ∃ g2, (runOps [Op.get 0 "Tom", Op.registerPeers 0 (some badPicker),
        Op.newGroup "scores" 64 (some keyRequiredGetter), Op.load 0 "Jack",
        Op.getLocally 0 "Tom", Op.getGroup "scores"]
      (runOps [Op.newGroup "scores" 2048 (some scoresGetter),
        Op.registerPeers 0 (some goodPicker)] (Registry.init : Registry BoundedStore) []).1
      []).1.objs[0]? = some g2 ∧ g2.peers = some goodPicker :=
  (peers_write_once
    (runOps [Op.newGroup "scores" 2048 (some scoresGetter),
      Op.registerPeers 0 (some goodPicker)] (Registry.init : Registry BoundedStore) []).1 [] 0
    { name := "scores", getter := scoresGetter, mainCache := FreshStore.fresh 2048,
      peers := some goodPicker, loader := { m := none } } rfl).1 _ goodPicker rfl

/-- C17. Fresh group serves from its loader: `NewGroup(name, capacity, getter)`
with a non-nil getter returns a pointer to a group that carries the given name
and getter, a store with the given capacity bound that holds no entry, a
zero-value coalescer and no peer picker, and `GetGroup(name)` then returns that
pointer; hence for a non-empty key `k` with `getter.Get(k) = (b, nil)` the
first `Get(k)` through that pointer returns the bytes `b` with a nil error
after exactly one loader invocation. -/
theorem fresh_group_serves {σ : Type} [FreshStore σ] (w : Registry σ) (name : String)
    (c : Int) (gt : Getter) (k : String) (b : Bytes) (tr : Trace)
    (hk : k ≠ "") (hload : gt.Get k = (b, none)) :
    (NewGroup w name c (some gt)).1 = Outcome.ret w.objs.length ∧
    (∃ g, (NewGroup w name c (some gt)).2.objs[w.objs.length]? = some g ∧
      g.name = name ∧ g.getter = gt ∧ FreshStore.cacheBytes g.mainCache = c ∧
      (∀ k2, LocalStore.get g.mainCache k2 = none) ∧ g.loader.m = none ∧
      (∀ k2, g.loader.pending k2 = none) ∧ g.peers = none) ∧
    (GetGroup (NewGroup w name c (some gt)).2 name).1 = some w.objs.length ∧
    ((NewGroup w name c (some gt)).2.Get w.objs.length k tr).1 =
      Outcome.ret (ByteView.mk b, none) ∧
    loaderCalls ((NewGroup w name c (some gt)).2.Get w.objs.length k tr).2.2 =
      loaderCalls tr + 1 ∧
    (∀ q, (GetGroup (NewGroup w name c (some gt)).2 name).1 = some q →
      ((NewGroup w name c (some gt)).2.Get q k tr).1 = Outcome.ret (ByteView.mk b, none)) := by
  have hobj : (NewGroup w name c (some gt)).2.objs[w.objs.length]? =
      some { name := name, getter := gt, mainCache := FreshStore.fresh c, peers := none,
             loader := { m := none } } := by
    simp [NewGroup]
  have hget := Get_through_loader
    ({ name := name, getter := gt, mainCache := FreshStore.fresh c, peers := none,
       loader := { m := none } } : Group σ) k tr b hk (FreshStore.get_fresh c k) rfl hload rfl
  have hG : (GetGroup (NewGroup w name c (some gt)).2 name).1 = some w.objs.length := by
    simp [GetGroup, NewGroup]
  have h1 : ((NewGroup w name c (some gt)).2.Get w.objs.length k tr).1 =
      Outcome.ret (ByteView.mk b, none) := by
    unfold Registry.Get Registry.onGroup
    rw [if_neg hk, hobj]
    exact hget.1
  refine ⟨rfl, ⟨_, hobj, rfl, rfl, FreshStore.cacheBytes_fresh c,
    fun k2 => FreshStore.get_fresh c k2, rfl, fun _ => rfl, rfl⟩, hG, h1, ?_, ?_⟩
  · unfold Registry.Get Registry.onGroup
    rw [if_neg hk, hobj]
    show loaderCalls (Group.Get _ k tr).2.2 = _
    rw [hget.2, loaderCalls_append]
    rfl
  · intro q hq
    rw [hG] at hq
    cases hq
    exact h1

/-- C17 on the example of the spec: name "scores", capacity 2048, a loader that
maps "Tom" to "630"; `Get("Tom")` through the pointer that `GetGroup("scores")`
returns gives "630". -/
theorem fresh_group_serves_witness :
    (GetGroup (NewGroup (Registry.init : Registry BoundedStore) "scores" 2048
      (some scoresGetter)).2 "scores").1 = some 0 ∧
    ((NewGroup (Registry.init : Registry BoundedStore) "scores" 2048
      (some scoresGetter)).2.Get 0 "Tom" []).1 = Outcome.ret (ByteView.mk bytes630, none) ∧
    loaderCalls ((NewGroup (Registry.init : Registry BoundedStore) "scores" 2048
      (some scoresGetter)).2.Get 0 "Tom" []).2.2 = 1 :=
  ⟨(fresh_group_serves (Registry.init : Registry BoundedStore) "scores" 2048 scoresGetter
      "Tom" bytes630 [] (by decide) rfl).2.2.1,
    (fresh_group_serves (Registry.init : Registry BoundedStore) "scores" 2048 scoresGetter
      "Tom" bytes630 [] (by decide) rfl).2.2.2.1,
    (fresh_group_serves (Registry.init : Registry BoundedStore) "scores" 2048 scoresGetter
      "Tom" bytes630 [] (by decide) rfl).2.2.2.2.1⟩

/-- C18. When both the peer and the loader fail, the caller sees the loader's
error: for a non-empty key `k` that the store misses, if the picked peer's
fetch fails with `e1` and the loader then fails with `e2`, a `Get(k)` that
finds no call for `k` in flight returns exactly `e2`, with the empty value; the
loader is invoked once, after the fetch, no store add is made and the store is
unchanged. -/
theorem Get_peer_and_loader_fail (g : Group σ) (k : String) (tr : Trace) (p : PeerPicker)
    (peer : PeerGetter) (b1 b2 : Bytes) (e1 e2 : GoError)
    (hk : k ≠ "") (hmiss : LocalStore.get g.mainCache k = none)
    (hpeers : g.peers = some p) (hpick : p.PickPeer k = (some peer, true))
    (hfetch : peer.Get g.name k = (b1, some e1))
    (hload : g.getter.Get k = (b2, some e2))
    (hsole : g.loader.pending k = none) :
    (g.Get k tr).1 = Outcome.ret (ByteView.mk [], some e2) ∧
    (g.Get k tr).2.2 =
      tr ++ [Event.cacheGet k, Event.flightDo k, Event.pickPeer k, Event.peerGet g.name k,
        Event.getterGet k] ∧
    loaderCalls (g.Get k tr).2.2 = loaderCalls tr + 1 ∧
    storeAdds (g.Get k tr).2.2 = storeAdds tr ∧
    (g.Get k tr).2.1.mainCache = g.mainCache := by
  have hbody : Group.loadBody k (loadStart g k (tr ++ [Event.cacheGet k])) = _ :=
    (loadBody_peer_err k _ p peer b1 e1 hpeers hpick hfetch).trans (loadLocal_eq k _)
  simp only [] at hbody
  have hg : (loadStart g k (tr ++ [Event.cacheGet k])).g = g := rfl
  rw [hg, getLocally_err g k _ b2 e2 hload] at hbody
  obtain ⟨h1, h2, h3⟩ := Get_sole g k tr _ _ hk hmiss hsole hbody
  have htr : (g.Get k tr).2.2 =
      tr ++ [Event.cacheGet k, Event.flightDo k, Event.pickPeer k, Event.peerGet g.name k,
        Event.getterGet k] := by
    rw [h2]; simp [loadStart]
  refine ⟨?_, htr, ?_, ?_, ?_⟩
  · rw [h1]; rfl
  · rw [htr, loaderCalls_append]; rfl
  · rw [htr, storeAdds_append]; simp [storeAdds]
  · rw [h3]

/-- C18 at the group `scoresBadPeer`: the peer is down and the loader does not
know "Jack"; the caller sees "not exist". -/
theorem Get_peer_and_loader_fail_witness :
    (scoresBadPeer.Get "Jack" []).1 =
      Outcome.ret (ByteView.mk [], some (GoError.mk "not exist")) ∧
    (scoresBadPeer.Get "Jack" []).2.2 =
      [Event.cacheGet "Jack", Event.flightDo "Jack", Event.pickPeer "Jack",
        Event.peerGet "scores" "Jack", Event.getterGet "Jack"] ∧
    loaderCalls (scoresBadPeer.Get "Jack" []).2.2 = 1 ∧
    storeAdds (scoresBadPeer.Get "Jack" []).2.2 = [] ∧
    (scoresBadPeer.Get "Jack" []).2.1.mainCache = ListStore.mk [] :=
  Get_peer_and_loader_fail scoresBadPeer "Jack" []
    { PickPeer := fun _ => (some badPeer, true) } badPeer [] [] (GoError.mk "peer down")
    (GoError.mk "not exist") (by decide) rfl rfl rfl rfl rfl rfl

/-- C19. Error implies empty value: for every group state, key, loader and peer
behaviour, whenever `Get` returns a non-nil error, the value it returns is the
zero `ByteView`, with no bytes; and whenever `Get`, finding no call for the key
in flight, returns a nil error, the value is the one the store holds for the
key, or the bytes the picked peer returned for it, or the bytes the loader
returned for it. -/
theorem Get_error_implies_empty (g : Group σ) (k : String) (tr : Trace) :
    (∀ (v : ByteView) (e : GoError), (g.Get k tr).1 = Outcome.ret (v, some e) →
      v = ByteView.mk []) ∧
    (∀ v : ByteView, (g.Get k tr).1 = Outcome.ret (v, none) → g.loader.pending k = none →
      LocalStore.get g.mainCache k = some v ∨
      (∃ p peer b, g.peers = some p ∧ p.PickPeer k = (some peer, true) ∧
        peer.Get g.name k = (b, none) ∧ v = ByteView.mk b) ∨
      (∃ b, g.getter.Get k = (b, none) ∧ v = ByteView.mk b)) := by
  by_cases hk : k = ""
  · subst hk
    refine ⟨?_, ?_⟩
    · intro v e h
      simp [Group.Get] at h
      exact h.1.symm
    · intro v h
      simp [Group.Get] at h
  · cases hget : LocalStore.get g.mainCache k with
    | some v0 =>
      refine ⟨?_, ?_⟩
      · intro v e h
        simp [Group.Get, hk, hget] at h
      · intro v h _
        simp [Group.Get, hk, hget] at h
        exact Or.inl (congrArg some h)
    | none =>
      rw [Get_miss g k tr hk hget]
      refine ⟨?_, ?_⟩
      · intro v e h
        exact (load_value g k _ v (some e) h).1 e rfl
      · intro v h hno
        exact Or.inr ((load_value g k _ v none h).2 rfl hno)

/-- C19 at the groups of the examples: the value that comes with the error of
`Get("Jack")` on `scoresBadPeer` is empty, and the value of `Get("Tom")` on
`scoresGoodPeer` is from the store, the peer or the loader. -/
theorem Get_error_implies_empty_witness :
    (scoresBadPeer.Get "Jack" []).1 =
      Outcome.ret (returnedValue (scoresBadPeer.Get "Jack" []).1,
        some (GoError.mk "not exist")) ∧
    returnedValue (scoresBadPeer.Get "Jack" []).1 = ByteView.mk [] ∧
    (LocalStore.get scoresGoodPeer.mainCache "Tom" = some (ByteView.mk bytes589) ∨
      (∃ p peer b, scoresGoodPeer.peers = some p ∧ p.PickPeer "Tom" = (some peer, true) ∧
        peer.Get scoresGoodPeer.name "Tom" = (b, none) ∧ ByteView.mk bytes589 = ByteView.mk b) ∨
      (∃ b, scoresGoodPeer.getter.Get "Tom" = (b, none) ∧
        ByteView.mk bytes589 = ByteView.mk b)) :=
  ⟨rfl,
    (Get_error_implies_empty scoresBadPeer "Jack" []).1
      (returnedValue (scoresBadPeer.Get "Jack" []).1) (GoError.mk "not exist") rfl,
    (Get_error_implies_empty scoresGoodPeer "Tom" []).2 (ByteView.mk bytes589) rfl rfl⟩

/-- C12 fails on the code for `getFromPeer`. The value that `getLocally` builds
from the loader's slice is a copy: whatever is later written through that
slice, the value's bytes stay. The value that `getFromPeer` builds from the
peer's slice is the slice itself: what is later written through the slice
becomes the value's bytes. In the memory `mem630`, from the slice of "630"
overwritten with "589": the loader's value still reads "630", the peer's value
reads "589". -/
theorem getFromPeer_shares_bytes :
    (∀ (m : Memory) (a : Nat) (bs : Bytes), a < m.arrays.length →
      (getLocallyRef m (some a) none).1.1.bytes
          ((getLocallyRef m (some a) none).2.write a bs) = m.read (some a) ∧
      (getFromPeerRef m (some a) none).1.1.bytes
          ((getFromPeerRef m (some a) none).2.write a bs) = bs) ∧
    (getLocallyRef mem630 (some 0) none).1.1.bytes
        ((getLocallyRef mem630 (some 0) none).2.write 0 bytes589) = bytes630 ∧
    (getFromPeerRef mem630 (some 0) none).1.1.bytes mem630 = bytes630 ∧
    (getFromPeerRef mem630 (some 0) none).1.1.bytes
        ((getFromPeerRef mem630 (some 0) none).2.write 0 bytes589) = bytes589 := by
  refine ⟨?_, by decide, by decide, by decide⟩
  intro m a bs ha
  constructor
  · have hne : a ≠ m.arrays.length := Nat.ne_of_lt ha
    simp [getLocallyRef, Memory.cloneBytes, ByteViewRef.bytes, Memory.read, Memory.write,
      List.getElem_set_ne hne]
  · simp [getFromPeerRef, ByteViewRef.bytes, Memory.read, Memory.write, ha]

/-- C11. Coalescer contract under concurrency. In every state that a schedule of
concurrent callers of `Do` reaches from the coalescer without calls: each
record has been stored by exactly one caller, and only that caller runs a body
for it; a caller that found the record in the map (it entered `Do` while the
call was in flight) shares the key, never runs its own body, cannot take a step
while the record's wait group is not released, and, once it has returned, has
returned exactly the pair that the storing caller's body returned, after that
body was run once; the storing caller returns that same pair; no caller runs
its body twice. In particular, when all callers with a key that ever enter are
in flight at one moment, one of them runs its body and all others return its
pair without running theirs. When every body returns, every caller can be
brought to its return. A caller that runs alone performs the `Do` of one
caller. -/
theorem Do_concurrent_callers {α S : Type} (keyOf : Nat → String)
    (fnOf : Nat → S → Outcome (Option α × error) × S) (s0 : S) (sched : List Nat) :
    (∀ (key : String) (fn : S → Outcome (Option α × error) × S) (s s1 : S)
        (r : Option α × error), fn s = (Outcome.ret r, s1) →
      ((Flight.run (fun _ => key) (fun _ => fn) (Flight.init s) [0, 0, 0, 0]).callers 0).pc =
        DoPc.returned 0 true r ∧
      (Flight.run (fun _ => key) (fun _ => fn) (Flight.init s) [0, 0, 0, 0]).shared = s1 ∧
      (Flight.run (fun _ => key) (fun _ => fn) (Flight.init s) [0, 0, 0, 0]).m key = none ∧
      ((singleflight.Group.mk none : singleflight.Group α).Do key fn s).1 = Outcome.ret r ∧
      ((singleflight.Group.mk none : singleflight.Group α).Do key fn s).2.2 = s1) ∧
    (∀ c, c < (Flight.run keyOf fnOf (Flight.init s0) sched).next →
      ((Flight.run keyOf fnOf (Flight.init s0) sched).callers
          ((Flight.run keyOf fnOf (Flight.init s0) sched).owner c)).pc.owns = some c ∧
      ∀ i, ((Flight.run keyOf fnOf (Flight.init s0) sched).callers i).pc.owns = some c →
        i = (Flight.run keyOf fnOf (Flight.init s0) sched).owner c) ∧
    (∀ j c, ((Flight.run keyOf fnOf (Flight.init s0) sched).callers j).pc.joins = some c →
      keyOf j = keyOf ((Flight.run keyOf fnOf (Flight.init s0) sched).owner c) ∧
      ((Flight.run keyOf fnOf (Flight.init s0) sched).callers j).runs = 0 ∧
      j ≠ (Flight.run keyOf fnOf (Flight.init s0) sched).owner c) ∧
    (∀ j c, ((Flight.run keyOf fnOf (Flight.init s0) sched).callers j).pc = DoPc.waiting c →
      ((Flight.run keyOf fnOf (Flight.init s0) sched).calls c).wg ≠ 0 →
      Flight.step keyOf fnOf (Flight.run keyOf fnOf (Flight.init s0) sched) j =
        Flight.run keyOf fnOf (Flight.init s0) sched) ∧
    (∀ j c r,
      ((Flight.run keyOf fnOf (Flight.init s0) sched).callers j).pc = DoPc.returned c false r →
      ((Flight.run keyOf fnOf (Flight.init s0) sched).callers
          ((Flight.run keyOf fnOf (Flight.init s0) sched).owner c)).out = some r ∧
      ((Flight.run keyOf fnOf (Flight.init s0) sched).callers
          ((Flight.run keyOf fnOf (Flight.init s0) sched).owner c)).runs = 1 ∧
      (((Flight.run keyOf fnOf (Flight.init s0) sched).callers
            ((Flight.run keyOf fnOf (Flight.init s0) sched).owner c)).pc = DoPc.released c ∨
        ((Flight.run keyOf fnOf (Flight.init s0) sched).callers
            ((Flight.run keyOf fnOf (Flight.init s0) sched).owner c)).pc =
          DoPc.returned c true r)) ∧
    (∀ i c r,
      ((Flight.run keyOf fnOf (Flight.init s0) sched).callers i).pc = DoPc.returned c true r →
      ((Flight.run keyOf fnOf (Flight.init s0) sched).callers i).out = some r ∧
      ((Flight.run keyOf fnOf (Flight.init s0) sched).callers i).runs = 1) ∧
    (∀ i r, ((Flight.run keyOf fnOf (Flight.init s0) sched).callers i).out = some r →
      ∃ s s1, fnOf i s = (Outcome.ret r, s1)) ∧
    (∀ i, ((Flight.run keyOf fnOf (Flight.init s0) sched).callers i).runs ≤ 1) ∧
    (∀ (sched2 : List Nat) (key : String),
      (∀ i, keyOf i = key →
        ((Flight.run keyOf fnOf (Flight.run keyOf fnOf (Flight.init s0) sched)
          sched2).callers i).pc ≠ DoPc.idle →
        ((Flight.run keyOf fnOf (Flight.init s0) sched).callers i).pc.inFlight = true) →
      ∃ e, ∀ i, keyOf i = key →
        ((Flight.run keyOf fnOf (Flight.run keyOf fnOf (Flight.init s0) sched)
          sched2).callers i).pc ≠ DoPc.idle →
        (∃ c, ((Flight.run keyOf fnOf (Flight.run keyOf fnOf (Flight.init s0) sched)
            sched2).callers e).pc.owns = some c ∧
          (i = e ∨
            (((Flight.run keyOf fnOf (Flight.run keyOf fnOf (Flight.init s0) sched)
                sched2).callers i).pc.joins = some c ∧
              ((Flight.run keyOf fnOf (Flight.run keyOf fnOf (Flight.init s0) sched)
                sched2).callers i).runs = 0))) ∧
        (∀ r, ((Flight.run keyOf fnOf (Flight.run keyOf fnOf (Flight.init s0) sched)
            sched2).callers i).pc.result = some r →
          ((Flight.run keyOf fnOf (Flight.run keyOf fnOf (Flight.init s0) sched)
            sched2).callers e).out = some r ∧
          ((Flight.run keyOf fnOf (Flight.run keyOf fnOf (Flight.init s0) sched)
            sched2).callers e).runs = 1)) ∧
    ((∀ i s, ∃ r s1, fnOf i s = (Outcome.ret r, s1)) →
      ∀ i, ∃ extra r,
        ((Flight.run keyOf fnOf (Flight.run keyOf fnOf (Flight.init s0) sched)
          extra).callers i).pc.result = some r) := by
  have inv := Flight.run_inv keyOf fnOf sched (Flight.init s0) (Flight.init_inv keyOf s0)
  refine ⟨fun key fn s s1 r hfn => Flight.alone_is_Do key fn s s1 r hfn,
    ?_, ?_, ?_, ?_, ?_, ?_, ?_, ?_, ?_⟩
  · intro c hc
    exact ⟨inv.owner_owns c hc, fun i hi => (inv.owns_owner i c hi).2.symm⟩
  · intro j c hj
    obtain ⟨hlt, hkey, hruns, -⟩ := inv.joins_owner j c hj
    refine ⟨hkey.symm, hruns, ?_⟩
    intro hje
    have ho := inv.owner_owns c hlt
    rw [← hje] at ho
    cases hpc : ((Flight.run keyOf fnOf (Flight.init s0) sched).callers j).pc <;>
      rw [hpc] at ho hj <;> simp [DoPc.owns, DoPc.joins] at ho hj
    rename_i c1 ex r
    cases ex <;> simp [DoPc.owns, DoPc.joins] at ho hj
  · intro j c hpc hw
    simp [Flight.step, hpc, hw]
  · intro j c r hpc
    have hg := inv.good j
    unfold Flight.Good at hg
    rw [hpc] at hg
    obtain ⟨hlt, -⟩ := inv.joins_owner j c (by rw [hpc]; rfl)
    obtain ⟨d1, d2, d3⟩ := Flight.Inv.executor_done keyOf _ inv _ c (inv.owner_owns c hlt) hg.1
    rw [← hg.2] at d1 d3
    exact ⟨d1, d2, d3⟩
  · intro i c r hpc
    have hg := inv.good i
    unfold Flight.Good at hg
    rw [hpc] at hg
    exact ⟨hg.2.2.1, hg.2.2.2⟩
  · exact Flight.run_out keyOf fnOf sched (Flight.init s0)
      (by intro i r h; simp [Flight.init] at h)
  · exact fun i => Flight.Inv.runs_le keyOf _ inv i
  · intro sched2 key hall
    exact Flight.Inv.all_concurrent keyOf fnOf _ inv sched2 key hall
  · intro hret i
    exact Flight.Inv.can_return keyOf fnOf hret _ inv
      (Flight.run_alive keyOf fnOf hret sched (Flight.init s0)
        (by intro j; simp [Flight.init, DoPc.alive])) i

/-- C11 on three callers of `Do("Tom", ...)` with the schedule `demoSchedule`:
callers 1 and 2 found the record of caller 0; all three return the pair of the
body of caller 0, which has run once, and the bodies of callers 1 and 2 have
not run. -/
theorem Do_concurrent_callers_witness :
    ((Flight.run (fun _ => "Tom") demoFn (Flight.init 0) demoSchedule).callers 0).pc.result =
      some (some (ByteView.mk bytes630), none) ∧
    ((Flight.run (fun _ => "Tom") demoFn (Flight.init 0) demoSchedule).callers 1).pc.result =
      some (some (ByteView.mk bytes630), none) ∧
    ((Flight.run (fun _ => "Tom") demoFn (Flight.init 0) demoSchedule).callers 2).pc.result =
      some (some (ByteView.mk bytes630), none) ∧
    (Flight.run (fun _ => "Tom") demoFn (Flight.init 0) demoSchedule).shared = 1 ∧
    ((Flight.run (fun _ => "Tom") demoFn (Flight.init 0) demoSchedule).callers 0).runs = 1 ∧
    ((Flight.run (fun _ => "Tom") demoFn (Flight.init 0) demoSchedule).callers 1).runs = 0 ∧
    ((Flight.run (fun _ => "Tom") demoFn (Flight.init 0) demoSchedule).callers 2).runs = 0 :=
  ⟨rfl, rfl, rfl, rfl,
    ((Do_concurrent_callers (fun _ => "Tom") demoFn 0 demoSchedule).2.2.2.2.1 1 0
      (some (ByteView.mk bytes630), none) rfl).2.1,
    ((Do_concurrent_callers (fun _ => "Tom") demoFn 0 demoSchedule).2.2.1 1 0 rfl).2.1,
    ((Do_concurrent_callers (fun _ => "Tom") demoFn 0 demoSchedule).2.2.1 2 0 rfl).2.1⟩

/-- C20. The type assertion in `load` cannot fail: for every key and every
behaviour of the loader, the picker and the peers, whatever the function
literal of `load` returns is a boxed `ByteView`; so a `load` that runs its body
never panics in `viewi.(ByteView)`, a `load` that joins a record written by
such a body does not either, and in every schedule of concurrent callers of
`Do` whose bodies are function literals of `load`, every pair that `Do` hands
back carries a `ByteView`. -/
theorem load_assertion_cannot_fail (g : Group σ) (key : String) (tr : Trace) :
    (∀ (f f1 : loadFrame σ) (x : Option ByteView) (e : error),
      Group.loadBody key f = (Outcome.ret (x, e), f1) → ∃ v, x = some v) ∧
    (g.loader.pending key = none →
      (g.load key tr).1 ≠
        Outcome.panics "interface conversion: interface is nil, not ByteView") ∧
    (∀ c, g.loader.pending key = some c → (c.wg = 0 → c.err = none → ∃ v, c.val = some v) →
      (g.load key tr).1 ≠
        Outcome.panics "interface conversion: interface is nil, not ByteView") ∧
    (∀ (keyOf : Nat → String) (s0 : Group σ × Trace) (sched : List Nat) (i : Nat)
        (r : Option ByteView × error),
      ((Flight.run keyOf (fun j => loadFn (keyOf j)) (Flight.init s0) sched).callers i).pc.result
          = some r →
      ∃ v, r.1 = some v) := by
  have hbody : ∀ (k : String) (f f1 : loadFrame σ) (x : Option ByteView) (e : error),
      Group.loadBody k f = (Outcome.ret (x, e), f1) → ∃ v, x = some v := by
    intro k f f1 x e h
    obtain ⟨v, hv, -⟩ := loadBody_ret k f f1 x e h
    exact ⟨v, hv⟩
  refine ⟨hbody key, ?_, ?_, ?_⟩
  · intro hno hp
    rw [load_outcome] at hp
    obtain ⟨h1, h2⟩ := singleflight.Do_fresh g.loader key (Group.loadBody key)
      (loadStart g key tr) hno
    rw [h1, h2] at hp
    rcases hb : Group.loadBody key (loadStart g key tr) with ⟨o, f1⟩
    rw [hb] at hp
    cases o with
    | ret r =>
      rcases r with ⟨x, e⟩
      obtain ⟨v, hv⟩ := hbody key _ _ x e hb
      subst hv
      cases e <;> simp [loadOutcome, loadResult] at hp
    | panics msg =>
      have hmsg := loadBody_panics key _ _ msg hb
      subst hmsg
      simp [loadOutcome] at hp
    | blocks => simp [loadOutcome] at hp
  · intro c hc hwf hp
    rw [load_outcome] at hp
    obtain ⟨h1, h2, -⟩ := singleflight.Do_joined g.loader key (Group.loadBody key)
      (loadStart g key tr) c hc
    rw [h1, h2] at hp
    by_cases hw : c.wg = 0
    · rw [if_pos hw] at hp
      cases he : c.err with
      | none =>
        obtain ⟨v, hv⟩ := hwf hw he
        simp [loadOutcome, loadResult, he, hv] at hp
      | some e =>
        cases hv : c.val <;> simp [loadOutcome, loadResult, he, hv] at hp
    · rw [if_neg hw] at hp
      simp [loadOutcome] at hp
  · intro keyOf s0 sched i r hr
    obtain ⟨e, s, s1, -, hfn⟩ := Flight.result_from_body keyOf (fun j => loadFn (keyOf j))
      s0 sched i r hr
    have h1 : (Group.loadBody (keyOf e)
        { value := ByteView.mk [], err := none, g := s.1, trace := s.2 }).1 = Outcome.ret r :=
      congrArg Prod.fst hfn
    exact hbody (keyOf e) _ _ r.1 r.2 (Prod.ext h1 rfl)

/-- C20 at the groups of the examples: `load("Tom")` on `scores` reaches the
assertion with a nil error and returns the loader's value; `load("Jack")` on
`scoresBadPeer`, with both the peer and the loader failing, returns the error;
neither panics in the assertion. -/
theorem load_assertion_cannot_fail_witness :
    (scores.load "Tom" []).1 ≠
        Outcome.panics "interface conversion: interface is nil, not ByteView" ∧
    (scores.load "Tom" []).1 = Outcome.ret (ByteView.mk bytes630, none) ∧
    (scoresBadPeer.load "Jack" []).1 ≠
        Outcome.panics "interface conversion: interface is nil, not ByteView" ∧
    (scoresBadPeer.load "Jack" []).1 =
      Outcome.ret (ByteView.mk [], some (GoError.mk "not exist")) :=
  ⟨(load_assertion_cannot_fail scores "Tom" []).2.1 rfl, rfl,
    (load_assertion_cannot_fail scoresBadPeer "Jack" []).2.1 rfl, rfl⟩

end GoCache
